import Mathlib

/-!
# LITIV dataset utilities: the asynchronous data precacher and data writer

A shallow embedding of `lv::DataPrecacher` (`modules/datasets/src/utils.cpp`):
the consumer-side `getPacket`, `startAsyncPrecaching`/`stopAsyncPrecaching`, and
the worker loop `entry` with its ring allocator `lCacheNextPacket`; and of
`lv::DataWriter`: `queue`, `startAsyncWriting`/`stopAsyncWriting` and the
dequeue step of its worker loop `entry`.

Conventions.
* `size_t` values are natural numbers below `W = 2^64`; index arithmetic that
  the source relies on to wrap (`nNextExpectedReqIdx-1`, `m_nReqIdx+1`, ...) is
  written with an explicit `% W`.
* The arena `vcBuffer` is a map from byte offsets to bytes.  A cached packet is
  a `cv::Mat` header that aliases the arena (`CachedMat`), so that overwriting
  the arena changes what a cached packet reads as.
* Condition variables and the clock are inputs: a worker run is a list of
  events, a timed loop is given the number of iterations the clock allows.
-/

namespace lv

/-- Number of values of `size_t`, that is 2^64. -/
def W : Nat := 18446744073709551616

/-- The value `size_t(-1)`, used by the source as the "nothing yet" sentinel. -/
def SIZE_MAX : Nat := 18446744073709551615

/-- A `cv::Mat` that owns its data: a shape/type descriptor and the data bytes. -/
structure Mat where
  hdr : Nat
  bytes : List Nat
deriving DecidableEq, Repr

/-- The expression `total()*elemSize()`: the number of data bytes. -/
def Mat.byteSize (m : Mat) : Nat := m.bytes.length

/-- The default-constructed `cv::Mat()`. -/
def emptyMat : Mat := ⟨0, []⟩

/-- A `cv::Mat` header built over arena memory:
`cv::Mat(oNextPacket.size(),oNextPacket.type(),vcBuffer.data()+off)`. -/
structure CachedMat where
  hdr : Nat
  off : Nat
  len : Nat
deriving DecidableEq, Repr

/-- What a `cv::Mat` variable of the precacher refers to: data of the loader
(shared by assignment) or a range of the arena. -/
inductive MatRef where
  | own (m : Mat)
  | arena (c : CachedMat)
deriving DecidableEq, Repr

/-- The bytes of the arena in `[off, off+len)`. -/
def readBytes (buf : Nat → Nat) (off len : Nat) : List Nat :=
  (List.range len).map (fun k => buf (off + k))

/-- The matrix a reference denotes for a given arena content. -/
def deref (buf : Nat → Nat) : MatRef → Mat
  | .own m => m
  | .arena c => ⟨c.hdr, readBytes buf c.off c.len⟩

/-- The call `oNextPacket.copyTo(oNextPacket_cache)` for a header at `off`. -/
def copyTo (buf : Nat → Nat) (off : Nat) (bytes : List Nat) : Nat → Nat :=
  fun a => if off ≤ a ∧ a < off + bytes.length then bytes.getD (a - off) 0 else buf a

/-- The state shared with and local to `DataPrecacher::entry`.  `calls` is a
ghost log of the indices passed to `m_lCallback`. -/
structure Worker where
  nBufferSize : Nat
  m_nReqIdx : Nat
  m_nAnswIdx : Nat
  m_oReqPacket : MatRef
  qoCache : List CachedMat
  vcBuffer : Nat → Nat
  nNextExpectedReqIdx : Nat
  nNextPrecacheIdx : Nat
  nFirstBufferIdx : Nat
  nNextBufferIdx : Nat
  bReachedEnd : Bool
  calls : List Nat

/-- The lambda `lCacheNextPacket` of `entry`; the second component is its
return value. -/
def lCacheNextPacket (cb : Nat → Mat) (w0 : Worker) : Worker × Nat :=
  let oNextPacket := cb w0.nNextPrecacheIdx
  let w := { w0 with calls := w0.calls ++ [w0.nNextPrecacheIdx] }
  let nNextPacketSize := oNextPacket.byteSize
  if nNextPacketSize = 0 then
    ({ w with bReachedEnd := true }, 0)
  else if w.nFirstBufferIdx ≤ w.nNextBufferIdx then
    if w.nNextBufferIdx = SIZE_MAX ∨ (w.nNextBufferIdx + nNextPacketSize) % W ≥ w.nBufferSize then
      if (w.nFirstBufferIdx ≠ SIZE_MAX ∧ nNextPacketSize ≥ w.nFirstBufferIdx)
          ∨ nNextPacketSize ≥ w.nBufferSize then
        ({ w with bReachedEnd := false }, 0)
      else
        ({ w with
            bReachedEnd := false
            vcBuffer := copyTo w.vcBuffer 0 oNextPacket.bytes
            qoCache := w.qoCache ++ [⟨oNextPacket.hdr, 0, nNextPacketSize⟩]
            nNextBufferIdx := nNextPacketSize
            nFirstBufferIdx := if w.nFirstBufferIdx = SIZE_MAX then 0 else w.nFirstBufferIdx
            nNextPrecacheIdx := (w.nNextPrecacheIdx + 1) % W }, nNextPacketSize)
    else
      ({ w with
          bReachedEnd := false
          vcBuffer := copyTo w.vcBuffer w.nNextBufferIdx oNextPacket.bytes
          qoCache := w.qoCache ++ [⟨oNextPacket.hdr, w.nNextBufferIdx, nNextPacketSize⟩]
          nNextBufferIdx := (w.nNextBufferIdx + nNextPacketSize) % W
          nNextPrecacheIdx := (w.nNextPrecacheIdx + 1) % W }, nNextPacketSize)
  else if (w.nNextBufferIdx + nNextPacketSize) % W < w.nFirstBufferIdx then
    ({ w with
        vcBuffer := copyTo w.vcBuffer w.nNextBufferIdx oNextPacket.bytes
        qoCache := w.qoCache ++ [⟨oNextPacket.hdr, w.nNextBufferIdx, nNextPacketSize⟩]
        nNextBufferIdx := (w.nNextBufferIdx + nNextPacketSize) % W
        nNextPrecacheIdx := (w.nNextPrecacheIdx + 1) % W }, nNextPacketSize)
  else
    (w, 0)

/-- The loop `while(m_nReqIdx-nNextExpectedReqIdx+1>0) {...}` of the in-range
branch.  `none` is the undefined behaviour of `front()` on an empty queue (or
the fuel running out before the loop condition fails). -/
def popLoop : Nat → Worker → Option Worker
  | 0, w => if (w.m_nReqIdx + W - w.nNextExpectedReqIdx + 1) % W > 0 then none else some w
  | fuel + 1, w =>
    if (w.m_nReqIdx + W - w.nNextExpectedReqIdx + 1) % W > 0 then
      match w.qoCache with
      | [] => none
      | c :: rest =>
        popLoop fuel { w with
          m_oReqPacket := .arena c
          m_nAnswIdx := w.m_nReqIdx
          nFirstBufferIdx := c.off
          qoCache := rest
          nNextExpectedReqIdx := (w.nNextExpectedReqIdx + 1) % W }
    else some w

/-- The body of `entry` that answers a request after a wake-up of
`m_oReqCondVar` (lines 272-312), up to but excluding `notify_one`. -/
def onRequest (cb : Nat → Mat) (w : Worker) : Option Worker :=
  if w.m_nReqIdx ≠ (w.nNextExpectedReqIdx + W - 1) % W then
    if w.qoCache ≠ [] then
      if w.m_nReqIdx < w.nNextPrecacheIdx ∧ w.m_nReqIdx ≥ w.nNextExpectedReqIdx then
        popLoop ((w.m_nReqIdx + W - w.nNextExpectedReqIdx + 1) % W) w
      else
        some { w with
          qoCache := []
          m_oReqPacket := .own (cb w.m_nReqIdx)
          calls := w.calls ++ [w.m_nReqIdx]
          m_nAnswIdx := w.m_nReqIdx
          nFirstBufferIdx := SIZE_MAX
          nNextBufferIdx := SIZE_MAX
          nNextExpectedReqIdx := (w.m_nReqIdx + 1) % W
          nNextPrecacheIdx := (w.m_nReqIdx + 1) % W
          bReachedEnd := false }
    else
      some { w with
        m_oReqPacket := .own (cb w.m_nReqIdx)
        calls := w.calls ++ [w.m_nReqIdx]
        m_nAnswIdx := w.m_nReqIdx
        nFirstBufferIdx := SIZE_MAX
        nNextBufferIdx := SIZE_MAX
        nNextExpectedReqIdx := (w.m_nReqIdx + 1) % W
        nNextPrecacheIdx := (w.m_nReqIdx + 1) % W }
  else some w

/-- One iteration of the serve loop whose wait did not time out: answer the
request, notify, then one prefetch step (line 314). -/
def onWake (cb : Nat → Mat) (w : Worker) : Option Worker :=
  (onRequest cb w).map (fun w1 => (lCacheNextPacket cb w1).1)

/-- The local `nUsedBufferSize` of the timeout branch (line 317). -/
def nUsedBufferSize (w : Worker) : Nat :=
  if w.nFirstBufferIdx = SIZE_MAX then 0
  else if w.nFirstBufferIdx < w.nNextBufferIdx then w.nNextBufferIdx - w.nFirstBufferIdx
  else (w.nBufferSize + W - w.nFirstBufferIdx + w.nNextBufferIdx) % W

/-- The refill loop of line 324; `clock` is the number of iterations for which
the elapsed time stays below `PRECACHE_REFILL_TIMEOUT_MS`. -/
def refillLoop (cb : Nat → Mat) : Nat → Nat → Worker → Worker
  | 0, _, w => w
  | clock + 1, nFillCount, w =>
    if nFillCount < 10 then
      let r := lCacheNextPacket cb w
      if r.2 ≠ 0 then refillLoop cb clock (nFillCount + 1) r.1 else r.1
    else w

/-- One iteration of the serve loop whose wait timed out (lines 316-326). -/
def onTimeout (cb : Nat → Mat) (clock : Nat) (w : Worker) : Worker :=
  if w.bReachedEnd = false then
    if nUsedBufferSize w < w.nBufferSize / 4 then refillLoop cb clock 0 w else w
  else w

/-- The prefill loop of line 269, with the same clock convention. -/
def prefillLoop (cb : Nat → Mat) : Nat → Worker → Worker
  | 0, w => w
  | clock + 1, w =>
    let r := lCacheNextPacket cb w
    if r.2 ≠ 0 then prefillLoop cb clock r.1 else r.1

/-- The declarations at the top of `entry` (lines 221-227). -/
def entryLocals (nBufferSize : Nat) (w : Worker) : Worker :=
  { w with
    nBufferSize := nBufferSize
    qoCache := []
    vcBuffer := fun _ => 0
    nNextExpectedReqIdx := 0
    nNextPrecacheIdx := 0
    nFirstBufferIdx := SIZE_MAX
    nNextBufferIdx := SIZE_MAX
    bReachedEnd := false }

/-- What the worker thread does between two observations of the consumer. -/
inductive WorkerEvent where
  | wake
  | timeout (clock : Nat)
deriving DecidableEq, Repr

/-- One iteration of `while(m_bIsActive)`. -/
def workerStep (cb : Nat → Mat) : WorkerEvent → Worker → Option Worker
  | .wake, w => onWake cb w
  | .timeout clock, w => some (onTimeout cb clock w)

/-- A sequence of iterations of `while(m_bIsActive)`. -/
def runWorker (cb : Nat → Mat) : List WorkerEvent → Worker → Option Worker
  | [], w => some w
  | e :: es, w => (workerStep cb e w).bind (runWorker cb es)

/-- The class `lv::DataPrecacher`: the consumer-side members and the worker. -/
structure DataPrecacher where
  m_bIsActive : Bool
  m_oLastReqPacket : MatRef
  m_nLastReqIdx : Nat
  worker : Worker

/-- The constructor (lines 157-162); the worker locals do not exist yet. -/
def DataPrecacher.construct : DataPrecacher :=
  { m_bIsActive := false
    m_oLastReqPacket := .own emptyMat
    m_nLastReqIdx := SIZE_MAX
    worker :=
      { nBufferSize := 0
        m_nReqIdx := SIZE_MAX
        m_nAnswIdx := SIZE_MAX
        m_oReqPacket := .own emptyMat
        qoCache := []
        vcBuffer := fun _ => 0
        nNextExpectedReqIdx := 0
        nNextPrecacheIdx := 0
        nFirstBufferIdx := SIZE_MAX
        nNextBufferIdx := SIZE_MAX
        bReachedEnd := false
        calls := [] } }

/-- One pass through the body of the `do ... while` of `getPacket`: what the
worker does while the caller is blocked in `wait_for`, and whether `wait_for`
returned `cv_status::timeout`. -/
structure WaitOutcome where
  worker : List WorkerEvent
  timedOut : Bool
deriving DecidableEq, Repr

/-- The `do ... while(res==timeout && nAnswIdx!=m_nReqIdx)` loop of `getPacket`
followed by the two assignments of lines 189-190.  `none`: the list of
outcomes ends while the loop is still waiting, or the worker failed. -/
def getPacketWait (cb : Nat → Mat) : List WaitOutcome → DataPrecacher → Option DataPrecacher
  | [], _ => none
  | o :: os, p =>
    match runWorker cb o.worker p.worker with
    | none => none
    | some w =>
      let nAnswIdx := w.m_nAnswIdx
      if o.timedOut = true ∧ nAnswIdx ≠ w.m_nReqIdx then
        getPacketWait cb os { p with worker := w }
      else
        some { p with worker := w, m_oLastReqPacket := w.m_oReqPacket, m_nLastReqIdx := nAnswIdx }

/-- The member `getPacket` (lines 168-192); the result pairs the new state with
the returned reference `m_oLastReqPacket`. -/
def getPacket (cb : Nat → Mat) (nIdx : Nat) (waits : List WaitOutcome) (p : DataPrecacher) :
    Option (DataPrecacher × MatRef) :=
  if nIdx = p.m_nLastReqIdx then
    some (p, p.m_oLastReqPacket)
  else if p.m_bIsActive = false then
    some ({ p with
      m_oLastReqPacket := .own (cb nIdx)
      m_nLastReqIdx := nIdx
      worker := { p.worker with calls := p.worker.calls ++ [nIdx] } }, .own (cb nIdx))
  else
    (getPacketWait cb waits { p with worker := { p.worker with m_nReqIdx := nIdx } }).map
      (fun q => (q, q.m_oLastReqPacket))

/-- The constant `CACHE_MIN_SIZE` (10mb). -/
def CACHE_MIN_SIZE : Nat := ((10)*1024)*1024

/-- The member `stopAsyncPrecaching` (lines 209-214). -/
def stopAsyncPrecaching (p : DataPrecacher) : DataPrecacher :=
  if p.m_bIsActive = true then { p with m_bIsActive := false } else p

/-- The member `startAsyncPrecaching` (lines 194-207).  `CACHE_MAX_SIZE` comes
from the build configuration (`CACHE_MAX_SIZE_GB`) and is a parameter; the new
worker thread starts with the prefill loop.  The second component is the
returned `m_bIsActive`. -/
def startAsyncPrecaching (CACHE_MAX_SIZE : Nat) (cb : Nat → Mat) (nSuggestedBufferSize : Nat)
    (prefillClock : Nat) (p0 : DataPrecacher) : DataPrecacher × Bool :=
  let p := if p0.m_bIsActive = true then stopAsyncPrecaching p0 else p0
  if nSuggestedBufferSize > 0 then
    let w := { p.worker with m_nAnswIdx := SIZE_MAX, m_nReqIdx := SIZE_MAX }
    let nBufferSize := max (min nSuggestedBufferSize CACHE_MAX_SIZE) CACHE_MIN_SIZE
    ({ p with m_bIsActive := true, worker := prefillLoop cb prefillClock (entryLocals nBufferSize w) },
      true)
  else (p, p.m_bIsActive)

/-- The two precachers of `lv::IIDataLoader`. -/
structure IIDataLoader where
  m_oInputPrecacher : DataPrecacher
  m_oGTPrecacher : DataPrecacher

/-- The member `IIDataLoader::startPrecaching` (lines 334-337).  The assertion
`lvAssert_` is declared outside these sources; a failed assertion is the error
carrying its message. -/
def IIDataLoader.startPrecaching (CACHE_MAX_SIZE : Nat) (cbInput cbGT : Nat → Mat)
    (bPrecacheGT : Bool) (nSuggestedBufferSize : Nat) (clockInput clockGT : Nat)
    (l : IIDataLoader) : Except String IIDataLoader :=
  let r1 := startAsyncPrecaching CACHE_MAX_SIZE cbInput nSuggestedBufferSize clockInput
    l.m_oInputPrecacher
  if r1.2 = false then .error "could not start precaching input packets"
  else if bPrecacheGT = false then .ok { l with m_oInputPrecacher := r1.1 }
  else
    let r2 := startAsyncPrecaching CACHE_MAX_SIZE cbGT nSuggestedBufferSize clockGT
      l.m_oGTPrecacher
    if r2.2 = false then .error "could not start precaching gt packets"
    else .ok { m_oInputPrecacher := r1.1, m_oGTPrecacher := r2.1 }

/-- The states the worker can be in: the start of `entry` on a precacher that
has not answered a request before (`m_oReqPacket` is still the default matrix),
a request index published by the consumer, a request handling, a prefetch step
(prefill, post-answer prefetch and timeout refill are sequences of these). -/
inductive Reach (cb : Nat → Mat) (B : Nat) : Worker → Prop where
  | start (w0 : Worker) : w0.m_nAnswIdx = SIZE_MAX → w0.m_nReqIdx = SIZE_MAX →
      w0.m_oReqPacket = .own emptyMat → Reach cb B (entryLocals B w0)
  | publish (w : Worker) (i : Nat) : i < W → Reach cb B w → Reach cb B { w with m_nReqIdx := i }
  | handle (w w1 : Worker) : Reach cb B w → onRequest cb w = some w1 → Reach cb B w1
  | cache (w : Worker) : Reach cb B w → Reach cb B (lCacheNextPacket cb w).1


/-- A contiguous run of arena headers from offset `a` to offset `b`. -/
def Seg : Nat → Nat → List CachedMat → Prop
  | a, b, [] => a = b
  | a, b, c :: cs => c.off = a ∧ 0 < c.len ∧ Seg (a + c.len) b cs

/-- The headers whose arena bytes are still in use: the answered packet when it
lies in the arena, then the queue. -/
def liveOf : MatRef → List CachedMat → List CachedMat
  | .own _, q => q
  | .arena c, q => c :: q

/-- Shape of the ring: empty, one contiguous run, or a run up to the arena end
followed by a run from offset 0. -/
def RingP (B F N : Nat) (l : List CachedMat) : Prop :=
  (F = SIZE_MAX ∧ N = SIZE_MAX ∧ l = []) ∨
  (l ≠ [] ∧ Seg F N l ∧ N < B) ∨
  (∃ hi lo e, l = hi ++ lo ∧ hi ≠ [] ∧ lo ≠ [] ∧ Seg F e hi ∧ e ≤ B ∧ Seg 0 N lo ∧ N < F)

/-- The queue holds, in order, copies of the loader packets from index `i` on. -/
def Cached (cb : Nat → Mat) (buf : Nat → Nat) : Nat → List CachedMat → Prop
  | _, [] => True
  | i, c :: cs => deref buf (.arena c) = cb i ∧ Cached cb buf ((i + 1) % W) cs

/-- The ring decision taken inside `lCacheNextPacket` for a packet of `s > 0`
bytes: the offset of the new header and the new first and next offsets. -/
def ringAlloc (B F N s : Nat) : Option (Nat × Nat × Nat) :=
  if F ≤ N then
    if N = SIZE_MAX ∨ (N + s) % W ≥ B then
      if (F ≠ SIZE_MAX ∧ s ≥ F) ∨ s ≥ B then none
      else some (0, (if F = SIZE_MAX then 0 else F), s)
    else some (N, F, (N + s) % W)
  else if (N + s) % W < F then some (N, F, (N + s) % W)
  else none

/-- Total number of bytes of a list of headers. -/
def sumLen : List CachedMat → Nat
  | [] => 0
  | c :: cs => c.len + sumLen cs

/-- Every packet of the loader fits, together with the arena, in the address
space. -/
def Fits (cb : Nat → Mat) (B : Nat) : Prop := ∀ i, (cb i).byteSize + B < W

/-- Ring shape, cursor arithmetic and queue content, on the bare values. -/
def CoreP (cb : Nat → Mat) (B F N : Nat) (pkt : MatRef) (q : List CachedMat) (buf : Nat → Nat)
    (ne np : Nat) : Prop :=
  RingP B F N (liveOf pkt q) ∧ ne < W ∧ np = (ne + q.length) % W ∧ Cached cb buf ne q

/-- Ring shape, cursor arithmetic and queue content of the worker. -/
def Core (cb : Nat → Mat) (w : Worker) : Prop :=
  CoreP cb w.nBufferSize w.nFirstBufferIdx w.nNextBufferIdx w.m_oReqPacket w.qoCache w.vcBuffer
    w.nNextExpectedReqIdx w.nNextPrecacheIdx

/-- The worker invariant: `Core`, the answered index is the one before the next
expected index, and the answered packet is the loader packet of that index
(or nothing was answered yet). -/
def WInv (cb : Nat → Mat) (w : Worker) : Prop :=
  Core cb w ∧ w.m_nReqIdx < W ∧ w.m_nAnswIdx < W ∧
  w.nNextExpectedReqIdx = (w.m_nAnswIdx + 1) % W ∧
  (deref w.vcBuffer w.m_oReqPacket = cb w.m_nAnswIdx ∨
    (w.m_nAnswIdx = SIZE_MAX ∧ w.m_oReqPacket = .own emptyMat))

/-- The request index, the answered index and the answered packet (reference
and bytes) are the same in both worker states. -/
def Stable (w w1 : Worker) : Prop :=
  w1.m_nReqIdx = w.m_nReqIdx ∧ w1.m_nAnswIdx = w.m_nAnswIdx ∧
  w1.m_oReqPacket = w.m_oReqPacket ∧
  deref w1.vcBuffer w1.m_oReqPacket = deref w.vcBuffer w.m_oReqPacket

/-- No wake-up of the consumer is spurious: `wait_for` returns without a
timeout only when the worker called `notify_one` during that wait, which it
does after handling a request. -/
def NoSpurious (waits : List WaitOutcome) : Prop :=
  ∀ o ∈ waits, o.timedOut = false → WorkerEvent.wake ∈ o.worker

/-- One request/answer handshake: no spurious wake-up, and the worker wakes up
for the request during one of the waits. -/
def Handshake (waits : List WaitOutcome) : Prop :=
  NoSpurious waits ∧ ∃ o ∈ waits, WorkerEvent.wake ∈ o.worker

/-- What `getPacket` leaves behind when it adopts the answer to the request
published in `p`. -/
def Adopted (cb : Nat → Mat) (B : Nat) (p q : DataPrecacher) : Prop :=
  Reach cb B q.worker ∧ q.m_bIsActive = p.m_bIsActive ∧
  q.worker.m_nReqIdx = p.worker.m_nReqIdx ∧ q.worker.m_nAnswIdx = p.worker.m_nReqIdx ∧
  q.m_nLastReqIdx = p.worker.m_nReqIdx ∧ q.m_oLastReqPacket = q.worker.m_oReqPacket ∧
  deref q.worker.vcBuffer q.m_oLastReqPacket = cb p.worker.m_nReqIdx

/-- What happens to a running precacher: a call of `getPacket` with the wait
outcomes it goes through, or worker iterations while no call is in progress. -/
inductive Op where
  | get (nIdx : Nat) (waits : List WaitOutcome)
  | idle (evs : List WorkerEvent)

/-- Runs a sequence of operations and collects what each `getPacket` returned,
read at the time of its return. -/
def runOps (cb : Nat → Mat) : List Op → DataPrecacher → Option (DataPrecacher × List Mat)
  | [], p => some (p, [])
  | .get nIdx waits :: ops, p =>
    match getPacket cb nIdx waits p with
    | none => none
    | some (p1, r) =>
      match runOps cb ops p1 with
      | none => none
      | some (p2, rs) => some (p2, deref p1.worker.vcBuffer r :: rs)
  | .idle evs :: ops, p =>
    match runWorker cb evs p.worker with
    | none => none
    | some w => runOps cb ops { p with worker := w }

/-- The packets a sequence of operations is expected to return: the loader
packet of each requested index, except that `size_t(-1)` requested before any
other index yields the initial empty matrix.  The flag tells whether no other
index was requested yet. -/
def expectedResults (cb : Nat → Mat) : Bool → List Op → List Mat
  | _, [] => []
  | fresh, .get nIdx _ :: ops =>
    (if fresh = true ∧ nIdx = SIZE_MAX then emptyMat else cb nIdx) ::
      expectedResults cb (fresh && decide (nIdx = SIZE_MAX)) ops
  | fresh, .idle _ :: ops => expectedResults cb fresh ops

/-- Requested indices are `size_t` values, and each call is one handshake. -/
def ValidOp : Op → Prop
  | .get nIdx waits => nIdx < W ∧ Handshake waits
  | .idle _ => True

/-- The state of an active precacher between two calls of `getPacket`. -/
def SysInv (cb : Nat → Mat) (B : Nat) (fresh : Bool) (p : DataPrecacher) : Prop :=
  p.m_bIsActive = true ∧ Reach cb B p.worker ∧
  p.m_oLastReqPacket = p.worker.m_oReqPacket ∧ p.m_nLastReqIdx = p.worker.m_nAnswIdx ∧
  p.worker.m_nReqIdx = p.worker.m_nAnswIdx ∧
  (if fresh = true then p.m_nLastReqIdx = SIZE_MAX ∧ p.m_oLastReqPacket = .own emptyMat
    else deref p.worker.vcBuffer p.m_oLastReqPacket = cb p.m_nLastReqIdx)

/-- The ring state of the specification: `Empty | Occupied(first, next)`. -/
inductive RingSpace where
  | Empty
  | Occupied (first next : Nat)
deriving DecidableEq, Repr

/-- The tagged ring state that the two offsets of `entry` stand for: the source
writes `size_t(-1)` in both offsets for the empty ring. -/
def ringSpaceOf (nFirstBufferIdx nNextBufferIdx : Nat) : RingSpace :=
  if nFirstBufferIdx = SIZE_MAX then .Empty else .Occupied nFirstBufferIdx nNextBufferIdx

/-- Reference allocator, written from the specification of RingSpace (not from
the source): `first <= next` is one contiguous occupied region, `first > next`
a wrapped one; room is the free bytes that follow `next`.  (a) room remains
before the arena end: contiguous allocation at `next`; (b) not enough room
before the end, but the size fits at the arena start without reaching `first`:
allocation at offset 0; an allocation of `size >= capacity` or one that would
reach the oldest occupied byte fails.  The result is the offset and the new
ring state. -/
def refAlloc (capacity : Nat) : RingSpace → Nat → Option (Nat × RingSpace)
  | .Empty, size => if size < capacity then some (0, .Occupied 0 size) else none
  | .Occupied first next, size =>
    if first ≤ next then
      if next + size < capacity then some (next, .Occupied first (next + size))
      else if size < first ∧ size < capacity then some (0, .Occupied first size)
      else none
    else if next + size < first then some (next, .Occupied first (next + size))
    else none

/-- The consumer publishes index `nIdx` and the worker wakes up for it: the
request is handled and one prefetch step follows. -/
def serve (cb : Nat → Mat) (nIdx : Nat) (w : Worker) : Worker :=
  (onWake cb { w with m_nReqIdx := nIdx }).getD w

/-- A loader that simulates a sequence of ten items of 3 bytes. -/
def tenItems (i : Nat) : Mat := if i < 10 then ⟨7, [i + 1, i + 1, i + 1]⟩ else emptyMat

/-- A loader whose only item is at index 0. -/
def oneItem (i : Nat) : Mat := if i = 0 then ⟨7, [1, 2, 3]⟩ else emptyMat

/-- A loader whose packets are all of 12 bytes. -/
def wideItems (_ : Nat) : Mat := ⟨7, [0, 1, 2, 3, 4, 5, 6, 7, 8, 9, 10, 11]⟩

/-- The worker of a freshly constructed precacher started on `oneItem` (arena
of `CACHE_MIN_SIZE` bytes), after its prefill and the request for index 0. -/
def servedOne : Worker :=
  serve oneItem 0
    (startAsyncPrecaching CACHE_MIN_SIZE oneItem 1 5 DataPrecacher.construct).1.worker

/-- A worker with an arena of 10 bytes after the prefill of `tenItems`. -/
def prefilledTen : Worker :=
  prefillLoop tenItems 7 (entryLocals 10 DataPrecacher.construct.worker)

/-- The worker `prefilledTen` after the requests for the indices 0, 1 and 2:
the ring is wrapped. -/
def wrappedTen : Worker :=
  serve tenItems 2 (serve tenItems 1 (serve tenItems 0 prefilledTen))

/-- A loader without an end: every index has a one-byte packet. -/
def everyFrame (i : Nat) : Mat := ⟨1, [i % 256]⟩

/-- A freshly constructed precacher started on `tenItems`. -/
def startedTen : DataPrecacher :=
  (startAsyncPrecaching CACHE_MIN_SIZE tenItems 1 3 DataPrecacher.construct).1

/-- A freshly constructed precacher started on `everyFrame`. -/
def startedEvery : DataPrecacher :=
  (startAsyncPrecaching CACHE_MIN_SIZE everyFrame 1 0 DataPrecacher.construct).1

/-- A loader that simulates a sequence of nine items: index 9 is out of range. -/
def nineItems (i : Nat) : Mat := if i < 9 then ⟨7, [i + 1, i + 1, i + 1]⟩ else emptyMat

/-- The assignment `m_mQueue[nIdx] = ...` on a `std::map<size_t,cv::Mat>`, kept
as the list of its entries in iteration order (ascending keys): the entry of an
existing key is overwritten. -/
def mapAssign (nIdx : Nat) (oPacket : Mat) : List (Nat × Mat) → List (Nat × Mat)
  | [] => [(nIdx, oPacket)]
  | e :: rest =>
    if nIdx < e.1 then (nIdx, oPacket) :: e :: rest
    else if nIdx = e.1 then (nIdx, oPacket) :: rest
    else e :: mapAssign nIdx oPacket rest

/-- The expression `std::distance(m_mQueue.begin(),m_mQueue.find(nIdx))`. -/
def mapPosition (nIdx : Nat) (m : List (Nat × Mat)) : Nat :=
  m.findIdx (fun e => e.1 == nIdx)

/-- The class `lv::DataWriter`.  `m_vhWorkers` holds, for each thread handle,
whether it is joinable; `written` is a ghost log of the calls of `m_lCallback`
(index and packet), in the order in which they are issued. -/
structure DataWriter where
  m_bIsActive : Bool
  m_bAllowPacketDrop : Bool
  m_nQueueMaxSize : Nat
  m_nQueueSize : Nat
  m_nQueueCount : Nat
  m_mQueue : List (Nat × Mat)
  m_vhWorkers : List Bool
  written : List (Nat × Mat)

/-- The constructor (lines 1045-1052). -/
def DataWriter.construct : DataWriter :=
  { m_bIsActive := false
    m_bAllowPacketDrop := false
    m_nQueueMaxSize := 0
    m_nQueueSize := 0
    m_nQueueCount := 0
    m_mQueue := []
    m_vhWorkers := []
    written := [] }

/-- The member `queue` (lines 1058-1088).  `none`: the caller is blocked in
`m_oClearCondVar.wait` in this state (block policy and no room); the call goes
on as an insertion once the state has room.  Otherwise the result is the
returned position and the new state. -/
def DataWriter.queue (cb : Mat → Nat → Nat) (oPacket : Mat) (nIdx : Nat) (s : DataWriter) :
    Option (Nat × DataWriter) :=
  if s.m_bIsActive = false then
    some (cb oPacket nIdx, { s with written := s.written ++ [(nIdx, oPacket)] })
  else
    let nPacketSize := oPacket.byteSize
    if s.m_bAllowPacketDrop = false ∧ (s.m_nQueueSize + nPacketSize) % W > s.m_nQueueMaxSize then
      none
    else if (s.m_nQueueSize + nPacketSize) % W ≤ s.m_nQueueMaxSize then
      some (mapPosition nIdx (mapAssign nIdx oPacket s.m_mQueue),
        { s with
          m_mQueue := mapAssign nIdx oPacket s.m_mQueue
          m_nQueueSize := (s.m_nQueueSize + nPacketSize) % W
          m_nQueueCount := s.m_nQueueCount + 1 })
    else some (SIZE_MAX, s)

/-- The member `stopAsyncWriting` (lines 1106-1113): every handle of
`m_vhWorkers` is joined; joining a handle that is not joinable is an error. -/
def DataWriter.stopAsyncWriting (s : DataWriter) : Except String DataWriter :=
  if s.m_bIsActive = true then
    if s.m_vhWorkers.all (fun joinable => joinable) then
      .ok { s with m_bIsActive := false, m_vhWorkers := s.m_vhWorkers.map (fun _ => false) }
    else .error "join of a thread that is not joinable"
  else .ok s

/-- The member `startAsyncWriting` (lines 1090-1104); `CACHE_MAX_SIZE` is a
parameter.  The second component is the returned `m_bIsActive`. -/
def DataWriter.startAsyncWriting (CACHE_MAX_SIZE : Nat) (nSuggestedQueueSize : Nat)
    (bDropPacketsIfFull : Bool) (nWorkers : Nat) (s0 : DataWriter) :
    Except String (DataWriter × Bool) :=
  match (if s0.m_bIsActive = true then s0.stopAsyncWriting else .ok s0) with
  | .error e => .error e
  | .ok s =>
    if nSuggestedQueueSize > 0 then
      .ok ({ s with
        m_bIsActive := true
        m_bAllowPacketDrop := bDropPacketsIfFull
        m_nQueueMaxSize :=
          if nSuggestedQueueSize > CACHE_MAX_SIZE then CACHE_MAX_SIZE else nSuggestedQueueSize
        m_nQueueSize := 0
        m_nQueueCount := 0
        m_mQueue := []
        m_vhWorkers := s.m_vhWorkers ++ List.replicate nWorkers true }, true)
    else .ok (s, s.m_bIsActive)

/-- One pass through the body of the loop of `entry` (lines 1121-1136) by a
worker that holds the lock and is not left waiting: with `m_nQueueCount>0` the
first entry of the map is taken out and handed to the callback; the two
assertions are errors. -/
def DataWriter.dequeue (s : DataWriter) : Except String DataWriter :=
  if s.m_nQueueCount > 0 then
    match s.m_mQueue with
    | [] => .error "data writer notified for missing packet"
    | e :: rest =>
      if e.2.byteSize ≤ s.m_nQueueSize then
        .ok { s with
          m_nQueueSize := s.m_nQueueSize - e.2.byteSize
          m_mQueue := rest
          m_nQueueCount := s.m_nQueueCount - 1
          written := s.written ++ [e] }
      else .error "data writer packet size exceeds queue size"
  else .ok s

/-- A call of `queue` by a producer or a dequeue step by a worker. -/
inductive WriterOp where
  | queue (oPacket : Mat) (nIdx : Nat)
  | dequeue

/-- An interleaving of producer calls and worker steps; `none` when a producer
is left blocked or an assertion of the worker fails.  The positions returned by
the `queue` calls are collected. -/
def runWriter (cb : Mat → Nat → Nat) : List WriterOp → DataWriter → Option (DataWriter × List Nat)
  | [], s => some (s, [])
  | .queue oPacket nIdx :: ops, s =>
    match s.queue cb oPacket nIdx with
    | none => none
    | some (pos, s1) =>
      match runWriter cb ops s1 with
      | none => none
      | some (s2, ps) => some (s2, pos :: ps)
  | .dequeue :: ops, s =>
    match s.dequeue with
    | .error _ => none
    | .ok s1 => runWriter cb ops s1

/-- The states of an active writer fed with in-memory packets and indices of
type `size_t`: after `startAsyncWriting` with a positive size on any writer,
then any interleaving of `queue` calls that return and dequeue steps. -/
inductive WReach (cb : Mat → Nat → Nat) : DataWriter → Prop where
  | start (CACHE_MAX_SIZE nSuggestedQueueSize nWorkers : Nat) (bDrop : Bool)
      (s0 s : DataWriter) (b : Bool) : 0 < nSuggestedQueueSize →
      s0.startAsyncWriting CACHE_MAX_SIZE nSuggestedQueueSize bDrop nWorkers = .ok (s, b) →
      WReach cb s
  | queue (s s1 : DataWriter) (oPacket : Mat) (nIdx pos : Nat) : WReach cb s → nIdx < W →
      oPacket.byteSize + s.m_nQueueMaxSize < W →
      s.queue cb oPacket nIdx = some (pos, s1) → WReach cb s1
  | dequeue (s s1 : DataWriter) : WReach cb s → s.dequeue = .ok s1 → WReach cb s1

/-- Total number of bytes of the pending packets. -/
def pendingBytes : List (Nat × Mat) → Nat
  | [] => 0
  | e :: rest => e.2.byteSize + pendingBytes rest

/-- The keys of the map are strictly ascending. -/
def KeysAscending : List (Nat × Mat) → Prop
  | [] => True
  | e :: rest => (∀ x ∈ rest, e.1 < x.1) ∧ KeysAscending rest

/-- The invariant of an active writer: the byte counter is within the budget,
the map is in ascending key order, the pending bytes are covered by the byte
counter and the pending entries by the entry counter. -/
def QInv (s : DataWriter) : Prop :=
  s.m_bIsActive = true ∧ s.m_nQueueSize ≤ s.m_nQueueMaxSize ∧ KeysAscending s.m_mQueue ∧
  pendingBytes s.m_mQueue ≤ s.m_nQueueSize ∧ s.m_mQueue.length ≤ s.m_nQueueCount

/-- A packet of 4 bytes. -/
def frame (i : Nat) : Mat := ⟨7, [i, i, i, i]⟩

/-- A writer callback: it reports the index it was given. -/
def archive (_ : Mat) (nIdx : Nat) : Nat := nIdx

/-- A writer started with a budget of 12 bytes, the drop policy and one worker. -/
def dropWriter : DataWriter :=
  { m_bIsActive := true
    m_bAllowPacketDrop := true
    m_nQueueMaxSize := 12
    m_nQueueSize := 0
    m_nQueueCount := 0
    m_mQueue := []
    m_vhWorkers := [true]
    written := [] }

/-- The ten calls `queue(frame(i), i)` for `i` from 0 to 9. -/
def tenCalls : List (Mat × Nat) := (List.range 10).map (fun i => (frame i, i))

/-- The writer `dropWriter` after `queue(frame(5), 5)` and `queue(frame(2), 2)`. -/
def twoPending : DataWriter :=
  { dropWriter with
    m_mQueue := [(2, frame 2), (5, frame 5)]
    m_nQueueSize := 8
    m_nQueueCount := 2 }

/-- Every index passed to `queue` is larger than every index that was dequeued
before that call (`n0` is the length of the callback log at the start). -/
def QueuedAfterWritten (cb : Mat → Nat → Nat) (n0 : Nat) : List WriterOp → DataWriter → Prop
  | [], _ => True
  | .queue oPacket nIdx :: ops, s =>
    (∀ e ∈ s.written.drop n0, e.1 < nIdx) ∧
      ∀ pos s1, s.queue cb oPacket nIdx = some (pos, s1) → QueuedAfterWritten cb n0 ops s1
  | .dequeue :: ops, s => ∀ s1, s.dequeue = .ok s1 → QueuedAfterWritten cb n0 ops s1

/-- The entries dequeued since the log had length `n0` are in strictly
ascending index order and lower than every pending index. -/
def OrdInv (n0 : Nat) (s : DataWriter) : Prop :=
  s.m_bIsActive = true ∧ n0 ≤ s.written.length ∧ KeysAscending s.m_mQueue ∧
  (s.written.drop n0).Pairwise (fun a b => a.1 < b.1) ∧
  ∀ d ∈ s.written.drop n0, ∀ e ∈ s.m_mQueue, d.1 < e.1

/-- The queue calls are made with indices of type `size_t` and packets that fit
the address space with the budget. -/
def ValidWriterOp (maxSize : Nat) : WriterOp → Prop
  | .queue oPacket nIdx => nIdx < W ∧ oPacket.byteSize + maxSize < W
  | .dequeue => True

/-- The end-of-stream flag is only set while the loader has nothing at
`nNextPrecacheIdx`, or while the ring is empty. -/
def EndInv (cb : Nat → Mat) (w : Worker) : Prop :=
  w.bReachedEnd = true →
    (cb w.nNextPrecacheIdx).byteSize = 0 ∨ w.nFirstBufferIdx = SIZE_MAX

/-- Two arena ranges do not overlap. -/
def NoOverlap (a c : CachedMat) : Prop := a.off + a.len ≤ c.off ∨ c.off + c.len ≤ a.off

/-- The worker of `startedTen` after the request for index 0: the answered
packet lies in the arena, three packets are in the FIFO and there is room for
more. -/
def servedTenZero : Worker := serve tenItems 0 startedTen.worker

end lv
namespace lv

/-- A loader whose packets all have `CACHE_MIN_SIZE` bytes. -/
def bigItems (_ : Nat) : Mat := ⟨7, List.replicate CACHE_MIN_SIZE 0⟩

/-- A writer started with a budget of 8 bytes, the block policy and one worker. -/
def blockWriter : DataWriter :=
  { m_bIsActive := true
    m_bAllowPacketDrop := false
    m_nQueueMaxSize := 8
    m_nQueueSize := 0
    m_nQueueCount := 0
    m_mQueue := []
    m_vhWorkers := [true]
    written := [] }

/-- The worker of a freshly constructed precacher started on `oneItem` with a
prefill budget of one step: the only packet is cached and the end of the stream
was not met yet. -/
def cachedOne : Worker :=
  (startAsyncPrecaching CACHE_MIN_SIZE oneItem 1 1 DataPrecacher.construct).1.worker

/-- The worker of a precacher started on `tenItems` whose prefill met the end of
the stream, after the request for index 9 (which empties the FIFO) and the
handling of the request for index 3: the FIFO is empty, the end-of-stream flag
is still set and the next prefetch index is 4. -/
def flaggedTen : Worker :=
  (onRequest tenItems
    { serve tenItems 9
        (startAsyncPrecaching CACHE_MIN_SIZE tenItems 1 12 DataPrecacher.construct).1.worker with
      m_nReqIdx := 3 }).getD DataPrecacher.construct.worker

/-! ## Ring shape lemmas -/

theorem Seg_nil (a b : Nat) : Seg a b [] ↔ a = b := Iff.rfl

theorem Seg_cons (a b : Nat) (c : CachedMat) (cs : List CachedMat) :
    Seg a b (c :: cs) ↔ c.off = a ∧ 0 < c.len ∧ Seg (a + c.len) b cs := Iff.rfl

theorem Seg_append (xs ys : List CachedMat) :
    ∀ a b, Seg a b (xs ++ ys) ↔ ∃ m, Seg a m xs ∧ Seg m b ys := by
  induction xs with
  | nil => intro a b; simp [Seg_nil]
  | cons c cs ih =>
    intro a b
    rw [List.cons_append, Seg_cons, ih]
    simp only [Seg_cons]
    constructor
    · rintro ⟨h1, h2, m, h3, h4⟩
      exact ⟨m, ⟨h1, h2, h3⟩, h4⟩
    · rintro ⟨m, ⟨h1, h2, h3⟩, h4⟩
      exact ⟨h1, h2, m, h3, h4⟩

theorem Seg_sum (xs : List CachedMat) : ∀ a b, Seg a b xs → a + sumLen xs = b := by
  induction xs with
  | nil => intro a b h; simpa [Seg, sumLen] using h
  | cons c cs ih =>
    intro a b h
    obtain ⟨_, _, h3⟩ := h
    have := ih _ _ h3
    simp only [sumLen]; omega

theorem Seg_length_le (xs : List CachedMat) : ∀ a b, Seg a b xs → xs.length ≤ sumLen xs := by
  induction xs with
  | nil => intro a b _; simp
  | cons c cs ih =>
    intro a b h
    obtain ⟨_, h2, h3⟩ := h
    have := ih _ _ h3
    simp only [sumLen, List.length_cons]; omega

theorem Seg_lt (xs : List CachedMat) (a b : Nat) (h : Seg a b xs) (hne : xs ≠ []) : a < b := by
  cases xs with
  | nil => exact absurd rfl hne
  | cons c cs =>
    obtain ⟨_, h2, h3⟩ := h
    have := Seg_sum _ _ _ h3
    omega

theorem Seg_mem (xs : List CachedMat) :
    ∀ a b, Seg a b xs → ∀ c ∈ xs, a ≤ c.off ∧ c.off + c.len ≤ b ∧ 0 < c.len := by
  induction xs with
  | nil => intro a b _ c hc; simp at hc
  | cons x xs ih =>
    intro a b h c hc
    obtain ⟨h1, h2, h3⟩ := h
    have hs := Seg_sum _ _ _ h3
    rcases List.mem_cons.1 hc with rfl | hc
    · omega
    · have := ih _ _ h3 c hc
      omega

theorem liveOf_push (pkt : MatRef) (q : List CachedMat) (c : CachedMat) :
    liveOf pkt (q ++ [c]) = liveOf pkt q ++ [c] := by
  cases pkt <;> simp [liveOf]

/-- A successful ring decision keeps the ring shape, stays inside the arena and
is disjoint from every header in use. -/
theorem ringAlloc_some (B F N s off F1 N1 hdr : Nat) (l : List CachedMat)
    (hB : s + B < W) (hs : 0 < s) (hr : RingP B F N l)
    (ha : ringAlloc B F N s = some (off, F1, N1)) :
    RingP B F1 N1 (l ++ [⟨hdr, off, s⟩]) ∧ off + s ≤ B ∧
      ∀ c ∈ l, c.off + c.len ≤ off ∨ off + s ≤ c.off := by
  unfold ringAlloc at ha
  simp only [RingP, W, SIZE_MAX] at *
  rcases hr with ⟨hF, hN, hl⟩ | ⟨hne, hseg, hNB⟩ | ⟨hi, lo, e, hl, hhi, hlo, hsh, he, hsl, hNF⟩
  · subst hF hN hl
    simp only [le_refl, if_true, true_or, ne_eq, not_true_eq_false, false_and, false_or] at ha
    split_ifs at ha with h1
    simp only [Option.some.injEq, Prod.mk.injEq] at ha
    obtain ⟨rfl, rfl, rfl⟩ := ha
    refine ⟨Or.inr (Or.inl ⟨by simp, ?_, by omega⟩), by omega, by simp⟩
    simp [Seg_cons, Seg_nil, hs]
  · have hFN := Seg_lt _ _ _ hseg hne
    have hmod : (N + s) % 18446744073709551616 = N + s := Nat.mod_eq_of_lt (by omega)
    rw [hmod] at ha
    have hmem := Seg_mem _ _ _ hseg
    split_ifs at ha with h1 h2 h3 h4 <;>
      simp only [Option.some.injEq, Prod.mk.injEq] at ha
    all_goals first | omega | skip
    · obtain ⟨rfl, rfl, rfl⟩ := ha
      refine ⟨Or.inr (Or.inr ⟨l, [⟨hdr, 0, s⟩], N, rfl, hne, by simp, hseg, by omega, ?_, by omega⟩),
        by omega, ?_⟩
      · simp [Seg_cons, Seg_nil, hs]
      · intro c hc; have := hmem c hc; omega
    · obtain ⟨rfl, rfl, rfl⟩ := ha
      refine ⟨Or.inr (Or.inl ⟨by simp, ?_, by omega⟩), by omega, ?_⟩
      · exact (Seg_append _ _ _ _).2 ⟨N, hseg, by simp [Seg_cons, Seg_nil, hs]⟩
      · intro c hc; have := hmem c hc; omega
  · have hFe := Seg_lt _ _ _ hsh hhi
    have hmod : (N + s) % 18446744073709551616 = N + s := Nat.mod_eq_of_lt (by omega)
    rw [hmod] at ha
    have hmh := Seg_mem _ _ _ hsh
    have hml := Seg_mem _ _ _ hsl
    split_ifs at ha with h1 h2 <;> simp only [Option.some.injEq, Prod.mk.injEq] at ha
    all_goals first | omega | skip
    obtain ⟨rfl, rfl, rfl⟩ := ha
    subst hl
    refine ⟨Or.inr (Or.inr ⟨hi, lo ++ [⟨hdr, N, s⟩], e, by simp, hhi, by simp, hsh, he, ?_, by omega⟩),
      by omega, ?_⟩
    · exact (Seg_append _ _ _ _).2 ⟨N, hsl, by simp [Seg_cons, Seg_nil, hs]⟩
    · intro c hc
      rcases List.mem_append.1 hc with hc | hc
      · have := hmh c hc; omega
      · have := hml c hc; omega

theorem lCache_zero (cb : Nat → Mat) (w : Worker) (h : (cb w.nNextPrecacheIdx).byteSize = 0) :
    lCacheNextPacket cb w =
      ({ w with calls := w.calls ++ [w.nNextPrecacheIdx], bReachedEnd := true }, 0) := by
  unfold lCacheNextPacket
  simp [h]

theorem lCache_none (cb : Nat → Mat) (w : Worker) (h : (cb w.nNextPrecacheIdx).byteSize ≠ 0)
    (ha : ringAlloc w.nBufferSize w.nFirstBufferIdx w.nNextBufferIdx
      (cb w.nNextPrecacheIdx).byteSize = none) :
    lCacheNextPacket cb w =
      ({ w with
          calls := w.calls ++ [w.nNextPrecacheIdx]
          bReachedEnd := if w.nFirstBufferIdx ≤ w.nNextBufferIdx then false else w.bReachedEnd },
        0) := by
  unfold lCacheNextPacket
  unfold ringAlloc at ha
  simp only [h, if_false]
  split_ifs at ha ⊢ <;> simp_all

theorem lCache_some (cb : Nat → Mat) (w : Worker) (off F1 N1 : Nat)
    (h : (cb w.nNextPrecacheIdx).byteSize ≠ 0)
    (ha : ringAlloc w.nBufferSize w.nFirstBufferIdx w.nNextBufferIdx
      (cb w.nNextPrecacheIdx).byteSize = some (off, F1, N1)) :
    lCacheNextPacket cb w =
      ({ w with
          calls := w.calls ++ [w.nNextPrecacheIdx]
          bReachedEnd := if w.nFirstBufferIdx ≤ w.nNextBufferIdx then false else w.bReachedEnd
          vcBuffer := copyTo w.vcBuffer off (cb w.nNextPrecacheIdx).bytes
          qoCache := w.qoCache ++
            [⟨(cb w.nNextPrecacheIdx).hdr, off, (cb w.nNextPrecacheIdx).byteSize⟩]
          nNextBufferIdx := N1
          nFirstBufferIdx := F1
          nNextPrecacheIdx := (w.nNextPrecacheIdx + 1) % W },
        (cb w.nNextPrecacheIdx).byteSize) := by
  unfold lCacheNextPacket
  unfold ringAlloc at ha
  simp only [h, if_false]
  split_ifs at ha ⊢ <;> simp only [Option.some.injEq, Prod.mk.injEq] at ha <;>
    (obtain ⟨rfl, rfl, rfl⟩ := ha; simp_all)


theorem readBytes_copyTo_self (buf : Nat → Nat) (off : Nat) (bytes : List Nat) :
    readBytes (copyTo buf off bytes) off bytes.length = bytes := by
  apply List.ext_getElem
  · simp [readBytes]
  · intro n h1 h2
    simp only [readBytes, List.length_map, List.length_range] at h1
    simp [readBytes, copyTo, h1, List.getD_eq_getElem?_getD]

theorem readBytes_copyTo_disjoint (buf : Nat → Nat) (off o len : Nat) (bytes : List Nat)
    (h : o + len ≤ off ∨ off + bytes.length ≤ o) :
    readBytes (copyTo buf off bytes) o len = readBytes buf o len := by
  unfold readBytes
  apply List.map_congr_left
  intro k hk
  have hk := List.mem_range.1 hk
  unfold copyTo
  rw [if_neg]
  omega

theorem deref_copyTo_self (buf : Nat → Nat) (off : Nat) (m : Mat) :
    deref (copyTo buf off m.bytes) (.arena ⟨m.hdr, off, m.byteSize⟩) = m := by
  simp [deref, Mat.byteSize, readBytes_copyTo_self]

theorem deref_copyTo_disjoint (buf : Nat → Nat) (off : Nat) (bytes : List Nat) (c : CachedMat)
    (h : c.off + c.len ≤ off ∨ off + bytes.length ≤ c.off) :
    deref (copyTo buf off bytes) (.arena c) = deref buf (.arena c) := by
  simp [deref, readBytes_copyTo_disjoint _ _ _ _ _ h]

theorem Cached_congr (cb : Nat → Mat) (buf buf1 : Nat → Nat) (q : List CachedMat) :
    ∀ i, (∀ c ∈ q, deref buf1 (.arena c) = deref buf (.arena c)) →
      Cached cb buf i q → Cached cb buf1 i q := by
  induction q with
  | nil => intro i _ _; trivial
  | cons c cs ih =>
    intro i h hc
    obtain ⟨h1, h2⟩ := hc
    refine ⟨?_, ih _ (fun d hd => h d (List.mem_cons_of_mem _ hd)) h2⟩
    rw [h c (List.mem_cons_self _ _)]; exact h1

theorem Cached_push (cb : Nat → Mat) (buf : Nat → Nat) (c : CachedMat) (q : List CachedMat) :
    ∀ i, i < W → Cached cb buf i q → deref buf (.arena c) = cb ((i + q.length) % W) →
      Cached cb buf i (q ++ [c]) := by
  induction q with
  | nil =>
    intro i hi _ h
    refine ⟨?_, trivial⟩
    rw [h]; congr 1
    simp only [W, List.length_nil] at *; omega
  | cons d ds ih =>
    intro i hi hc h
    obtain ⟨h1, h2⟩ := hc
    refine ⟨h1, ih _ (Nat.mod_lt _ (by decide)) h2 ?_⟩
    rw [h]; congr 1
    simp only [W, List.length_cons]; omega


theorem sumLen_append (xs ys : List CachedMat) : sumLen (xs ++ ys) = sumLen xs + sumLen ys := by
  induction xs with
  | nil => simp [sumLen]
  | cons c cs ih => simp [sumLen, ih, Nat.add_assoc]

theorem RingP_sum (B F N : Nat) (l : List CachedMat) (h : RingP B F N l) :
    sumLen l ≤ B ∧ l.length ≤ sumLen l := by
  rcases h with ⟨_, _, rfl⟩ | ⟨_, hseg, hNB⟩ | ⟨hi, lo, e, rfl, _, _, hsh, he, hsl, hNF⟩
  · simp [sumLen]
  · have := Seg_sum _ _ _ hseg
    have := Seg_length_le _ _ _ hseg
    omega
  · have := Seg_sum _ _ _ hsh
    have := Seg_sum _ _ _ hsl
    have := Seg_length_le _ _ _ hsh
    have := Seg_length_le _ _ _ hsl
    rw [sumLen_append, List.length_append]
    omega

theorem mem_liveOf (pkt : MatRef) (q : List CachedMat) (c : CachedMat) (h : c ∈ q) :
    c ∈ liveOf pkt q := by
  cases pkt with
  | own m => exact h
  | arena a => exact List.mem_cons_of_mem _ h

theorem length_le_liveOf (pkt : MatRef) (q : List CachedMat) :
    q.length ≤ (liveOf pkt q).length ∧ sumLen q ≤ sumLen (liveOf pkt q) := by
  cases pkt with
  | own m => exact ⟨le_refl _, le_refl _⟩
  | arena a => simp [liveOf, sumLen]

theorem Fits_lt (cb : Nat → Mat) (B : Nat) (h : Fits cb B) : B < W := by
  have := h 0; omega

/-- Popping the front header keeps the ring shape: the popped header becomes
the answered packet and `nFirstBufferIdx` its offset. -/
theorem RingP_pop (B F N : Nat) (pkt : MatRef) (c : CachedMat) (rest : List CachedMat)
    (h : RingP B F N (liveOf pkt (c :: rest))) :
    RingP B c.off N (liveOf (.arena c) rest) := by
  show RingP B c.off N (c :: rest)
  cases pkt with
  | own m =>
    have h : RingP B F N (c :: rest) := h
    rcases h with ⟨_, _, hl⟩ | ⟨hne, hseg, hNB⟩ | ⟨hi, lo, e, hl, hhi, hlo, hsh, he, hsl, hNF⟩
    · exact absurd hl (by simp)
    · have hF : c.off = F := hseg.1
      rw [hF]; exact Or.inr (Or.inl ⟨hne, hseg, hNB⟩)
    · cases hi with
      | nil => exact absurd rfl hhi
      | cons x xs =>
        simp only [List.cons_append, List.cons.injEq] at hl
        obtain ⟨rfl, hl⟩ := hl
        have hF : c.off = F := hsh.1
        rw [hF]
        exact Or.inr (Or.inr ⟨c :: xs, lo, e, by simp [hl], hhi, hlo, hsh, he, hsl, hNF⟩)
  | arena a =>
    have h : RingP B F N (a :: c :: rest) := h
    rcases h with ⟨_, _, hl⟩ | ⟨hne, hseg, hNB⟩ | ⟨hi, lo, e, hl, hhi, hlo, hsh, he, hsl, hNF⟩
    · exact absurd hl (by simp)
    · obtain ⟨h1, h2, h3⟩ := hseg
      have hF : c.off = F + a.len := h3.1
      rw [hF]; exact Or.inr (Or.inl ⟨by simp, h3, hNB⟩)
    · cases hi with
      | nil => exact absurd rfl hhi
      | cons x xs =>
        simp only [List.cons_append, List.cons.injEq] at hl
        obtain ⟨rfl, hl⟩ := hl
        obtain ⟨h1, h2, h3⟩ := hsh
        cases xs with
        | nil =>
          simp only [List.nil_append] at hl
          subst hl
          have h0 : c.off = 0 := hsl.1
          have h3 : F + a.len = e := h3
          rw [h0]
          exact Or.inr (Or.inl ⟨by simp, hsl, by omega⟩)
        | cons y ys =>
          simp only [List.cons_append, List.cons.injEq] at hl
          obtain ⟨rfl, hl⟩ := hl
          have hF : c.off = F + a.len := h3.1
          rw [hF]
          exact Or.inr (Or.inr ⟨c :: ys, lo, e, by simp [hl], by simp, hlo, h3, he, hsl, by omega⟩)

theorem CoreP_pop1 (cb : Nat → Mat) (B F N : Nat) (pkt : MatRef) (c : CachedMat)
    (rest : List CachedMat) (buf : Nat → Nat) (ne np : Nat)
    (h : CoreP cb B F N pkt (c :: rest) buf ne np) :
    CoreP cb B c.off N (.arena c) rest buf ((ne + 1) % W) np ∧ deref buf (.arena c) = cb ne := by
  obtain ⟨hr, hne, hnp, hc⟩ := h
  refine ⟨⟨RingP_pop _ _ _ _ _ _ hr, Nat.mod_lt _ (by decide), ?_, hc.2⟩, hc.1⟩
  rw [hnp]; simp only [W, List.length_cons]; omega

theorem CoreP_popn (cb : Nat → Mat) (B N : Nat) (buf : Nat → Nat) (np : Nat) (c : CachedMat) :
    ∀ (n : Nat) (q : List CachedMat) (F ne : Nat) (pkt : MatRef),
      CoreP cb B F N pkt q buf ne np → q[n]? = some c →
      CoreP cb B c.off N (.arena c) (q.drop (n + 1)) buf ((ne + (n + 1)) % W) np ∧
        deref buf (.arena c) = cb ((ne + n) % W) := by
  intro n
  induction n with
  | zero =>
    intro q F ne pkt h hq
    cases q with
    | nil => simp at hq
    | cons d rest =>
      simp only [List.getElem?_cons_zero, Option.some.injEq] at hq
      subst hq
      have hlt := h.2.1
      have := CoreP_pop1 cb B F N pkt d rest buf ne np h
      simp only [Nat.zero_add, List.drop_succ_cons, List.drop_zero, Nat.add_zero]
      rw [Nat.mod_eq_of_lt hlt]
      exact this
  | succ n ih =>
    intro q F ne pkt h hq
    cases q with
    | nil => simp at hq
    | cons d rest =>
      simp only [List.getElem?_cons_succ] at hq
      have h1 := (CoreP_pop1 cb B F N pkt d rest buf ne np h).1
      have h2 := ih rest d.off ((ne + 1) % W) (.arena d) h1 hq
      have e1 : ((ne + 1) % W + (n + 1)) % W = (ne + (n + 1 + 1)) % W := by
        simp only [W]; omega
      have e2 : ((ne + 1) % W + n) % W = (ne + (n + 1)) % W := by
        simp only [W]; omega
      rw [e1, e2] at h2
      simpa using h2


/-- The result of `lCacheNextPacket`, by cases on the packet size and the ring
decision. -/
theorem lCache_cases (cb : Nat → Mat) (w : Worker) :
    ((cb w.nNextPrecacheIdx).byteSize = 0 ∧
      lCacheNextPacket cb w =
        ({ w with calls := w.calls ++ [w.nNextPrecacheIdx], bReachedEnd := true }, 0)) ∨
    ((cb w.nNextPrecacheIdx).byteSize ≠ 0 ∧
      ringAlloc w.nBufferSize w.nFirstBufferIdx w.nNextBufferIdx
        (cb w.nNextPrecacheIdx).byteSize = none ∧
      lCacheNextPacket cb w =
        ({ w with
            calls := w.calls ++ [w.nNextPrecacheIdx]
            bReachedEnd := if w.nFirstBufferIdx ≤ w.nNextBufferIdx then false else w.bReachedEnd },
          0)) ∨
    (∃ off F1 N1, (cb w.nNextPrecacheIdx).byteSize ≠ 0 ∧
      ringAlloc w.nBufferSize w.nFirstBufferIdx w.nNextBufferIdx
        (cb w.nNextPrecacheIdx).byteSize = some (off, F1, N1) ∧
      lCacheNextPacket cb w =
        ({ w with
            calls := w.calls ++ [w.nNextPrecacheIdx]
            bReachedEnd := if w.nFirstBufferIdx ≤ w.nNextBufferIdx then false else w.bReachedEnd
            vcBuffer := copyTo w.vcBuffer off (cb w.nNextPrecacheIdx).bytes
            qoCache := w.qoCache ++
              [⟨(cb w.nNextPrecacheIdx).hdr, off, (cb w.nNextPrecacheIdx).byteSize⟩]
            nNextBufferIdx := N1
            nFirstBufferIdx := F1
            nNextPrecacheIdx := (w.nNextPrecacheIdx + 1) % W },
          (cb w.nNextPrecacheIdx).byteSize)) := by
  by_cases hs : (cb w.nNextPrecacheIdx).byteSize = 0
  · exact Or.inl ⟨hs, lCache_zero cb w hs⟩
  · cases ha : ringAlloc w.nBufferSize w.nFirstBufferIdx w.nNextBufferIdx
        (cb w.nNextPrecacheIdx).byteSize with
    | none => exact Or.inr (Or.inl ⟨hs, rfl, lCache_none cb w hs ha⟩)
    | some r =>
      obtain ⟨off, F1, N1⟩ := r
      exact Or.inr (Or.inr ⟨off, F1, N1, hs, rfl, lCache_some cb w off F1 N1 hs ha⟩)

/-- A prefetch step keeps the worker invariant. -/
theorem WInv_lCache (cb : Nat → Mat) (w : Worker) (hfit : Fits cb w.nBufferSize)
    (h : WInv cb w) : WInv cb (lCacheNextPacket cb w).1 := by
  rcases lCache_cases cb w with ⟨_, he⟩ | ⟨_, _, he⟩ | ⟨off, F1, N1, hs, ha, he⟩
  · rw [he]; exact h
  · rw [he]; exact h
  · rw [he]
    obtain ⟨⟨hr, hne, hnp, hc⟩, hreq, hans, hnext, hpkt⟩ := h
    have hB := hfit w.nNextPrecacheIdx
    obtain ⟨hr1, hin, hdis⟩ := ringAlloc_some _ _ _ _ _ _ _ (cb w.nNextPrecacheIdx).hdr _ hB
      (Nat.pos_of_ne_zero hs) hr ha
    have hq : ∀ c ∈ w.qoCache,
        deref (copyTo w.vcBuffer off (cb w.nNextPrecacheIdx).bytes) (.arena c) =
          deref w.vcBuffer (.arena c) := fun c hc =>
      deref_copyTo_disjoint _ _ _ _ (hdis c (mem_liveOf _ _ _ hc))
    refine ⟨⟨?_, hne, ?_, ?_⟩, hreq, hans, hnext, ?_⟩
    · show RingP _ F1 N1 (liveOf w.m_oReqPacket (w.qoCache ++ _))
      rw [liveOf_push]; exact hr1
    · show (w.nNextPrecacheIdx + 1) % W = (w.nNextExpectedReqIdx + (w.qoCache ++ _).length) % W
      rw [hnp]; simp only [W, List.length_append, List.length_singleton]; omega
    · show Cached cb (copyTo w.vcBuffer off _) w.nNextExpectedReqIdx (w.qoCache ++ _)
      refine Cached_push _ _ _ _ _ hne (Cached_congr _ _ _ _ _ hq hc) ?_
      rw [← hnp]; exact deref_copyTo_self _ _ _
    · show deref (copyTo w.vcBuffer off _) w.m_oReqPacket = cb w.m_nAnswIdx ∨ _
      rcases hpkt with hpkt | hpkt
      · left
        rw [← hpkt]
        cases hp : w.m_oReqPacket with
        | own m => rfl
        | arena a =>
          apply deref_copyTo_disjoint
          apply hdis
          rw [hp]; exact List.mem_cons_self _ _
      · exact Or.inr hpkt

theorem lCache_nBufferSize (cb : Nat → Mat) (w : Worker) :
    (lCacheNextPacket cb w).1.nBufferSize = w.nBufferSize := by
  rcases lCache_cases cb w with ⟨_, he⟩ | ⟨_, _, he⟩ | ⟨off, F1, N1, hs, ha, he⟩ <;> rw [he]

/-- Closed form of the pop loop when the queue is long enough. -/
theorem popLoop_eq (c : CachedMat) : ∀ (n : Nat) (w : Worker),
    w.m_nReqIdx < W → w.nNextExpectedReqIdx < W →
    (w.m_nReqIdx + W - w.nNextExpectedReqIdx + 1) % W = n + 1 → w.qoCache[n]? = some c →
    popLoop (n + 1) w = some { w with
      m_oReqPacket := .arena c
      m_nAnswIdx := w.m_nReqIdx
      nFirstBufferIdx := c.off
      qoCache := w.qoCache.drop (n + 1)
      nNextExpectedReqIdx := (w.nNextExpectedReqIdx + (n + 1)) % W } := by
  intro n
  induction n with
  | zero =>
    intro w hreq hne hcnt hq
    cases hqc : w.qoCache with
    | nil => rw [hqc] at hq; simp at hq
    | cons d rest =>
      rw [hqc] at hq
      simp only [List.getElem?_cons_zero, Option.some.injEq] at hq
      subst hq
      have e0 : (w.m_nReqIdx + W - (w.nNextExpectedReqIdx + 1) % W + 1) % W = 0 := by
        simp only [W] at *; omega
      simp only [popLoop, hcnt, hqc, e0]
      simp
  | succ n ih =>
    intro w hreq hne hcnt hq
    cases hqc : w.qoCache with
    | nil => rw [hqc] at hq; simp at hq
    | cons d rest =>
      rw [hqc] at hq
      simp only [List.getElem?_cons_succ] at hq
      have e0 : (w.m_nReqIdx + W - (w.nNextExpectedReqIdx + 1) % W + 1) % W = n + 1 := by
        simp only [W] at *; omega
      have e1 : ((w.nNextExpectedReqIdx + 1) % W + (n + 1)) % W =
          (w.nNextExpectedReqIdx + (n + 1 + 1)) % W := by
        simp only [W]; omega
      rw [popLoop, if_pos (by omega)]
      simp only [hqc]
      have h1 := ih { w with
        m_oReqPacket := .arena d
        m_nAnswIdx := w.m_nReqIdx
        nFirstBufferIdx := d.off
        qoCache := rest
        nNextExpectedReqIdx := (w.nNextExpectedReqIdx + 1) % W } hreq (Nat.mod_lt _ (by decide)) e0 hq
      rw [h1]
      simp [e1]


/-- The worker takes its fast path exactly when the request is the last
answered index. -/
theorem fastPath_iff (cb : Nat → Mat) (w : Worker) (h : WInv cb w) :
    w.m_nReqIdx = (w.nNextExpectedReqIdx + W - 1) % W ↔ w.m_nReqIdx = w.m_nAnswIdx := by
  obtain ⟨_, hreq, hans, hnext, _⟩ := h
  rw [hnext]
  simp only [W] at *
  omega

/-- The result of a request handling, by branch. -/
theorem onRequest_cases (cb : Nat → Mat) (w : Worker) (hfit : Fits cb w.nBufferSize)
    (h : WInv cb w) :
    (w.m_nReqIdx = w.m_nAnswIdx ∧ onRequest cb w = some w) ∨
    (w.m_nReqIdx ≠ w.m_nAnswIdx ∧ w.qoCache ≠ [] ∧
      w.nNextExpectedReqIdx ≤ w.m_nReqIdx ∧ w.m_nReqIdx < w.nNextPrecacheIdx ∧
      ∃ c, w.qoCache[w.m_nReqIdx - w.nNextExpectedReqIdx]? = some c ∧
        deref w.vcBuffer (.arena c) = cb w.m_nReqIdx ∧
        onRequest cb w = some { w with
          m_oReqPacket := .arena c
          m_nAnswIdx := w.m_nReqIdx
          nFirstBufferIdx := c.off
          qoCache := w.qoCache.drop (w.m_nReqIdx - w.nNextExpectedReqIdx + 1)
          nNextExpectedReqIdx := w.m_nReqIdx + 1 }) ∨
    (w.m_nReqIdx ≠ w.m_nAnswIdx ∧ w.qoCache ≠ [] ∧
      ¬ (w.m_nReqIdx < w.nNextPrecacheIdx ∧ w.m_nReqIdx ≥ w.nNextExpectedReqIdx) ∧
      onRequest cb w = some { w with
        qoCache := []
        m_oReqPacket := .own (cb w.m_nReqIdx)
        calls := w.calls ++ [w.m_nReqIdx]
        m_nAnswIdx := w.m_nReqIdx
        nFirstBufferIdx := SIZE_MAX
        nNextBufferIdx := SIZE_MAX
        nNextExpectedReqIdx := (w.m_nReqIdx + 1) % W
        nNextPrecacheIdx := (w.m_nReqIdx + 1) % W
        bReachedEnd := false }) ∨
    (w.m_nReqIdx ≠ w.m_nAnswIdx ∧ w.qoCache = [] ∧
      onRequest cb w = some { w with
        m_oReqPacket := .own (cb w.m_nReqIdx)
        calls := w.calls ++ [w.m_nReqIdx]
        m_nAnswIdx := w.m_nReqIdx
        nFirstBufferIdx := SIZE_MAX
        nNextBufferIdx := SIZE_MAX
        nNextExpectedReqIdx := (w.m_nReqIdx + 1) % W
        nNextPrecacheIdx := (w.m_nReqIdx + 1) % W }) := by
  have hfast := fastPath_iff cb w h
  by_cases hf : w.m_nReqIdx = w.m_nAnswIdx
  · left
    refine ⟨hf, ?_⟩
    unfold onRequest
    rw [if_neg (not_not.2 (hfast.2 hf))]
  · right
    have hf1 : w.m_nReqIdx ≠ (w.nNextExpectedReqIdx + W - 1) % W := fun e => hf (hfast.1 e)
    by_cases hq : w.qoCache = []
    · right; right
      refine ⟨hf, hq, ?_⟩
      unfold onRequest
      rw [if_pos hf1, if_neg (not_not.2 hq)]
    · by_cases hin : w.m_nReqIdx < w.nNextPrecacheIdx ∧ w.m_nReqIdx ≥ w.nNextExpectedReqIdx
      · left
        obtain ⟨hcore, hreq, hans, hnext, hpkt⟩ := h
        have hcore1 := hcore
        obtain ⟨hr, hne, hnp, hc⟩ := hcore1
        have hB := Fits_lt _ _ hfit
        have hlen1 := RingP_sum _ _ _ _ hr
        have hlen2 := length_le_liveOf w.m_oReqPacket w.qoCache
        have hlen : w.qoCache.length < W := by omega
        have hidx : w.m_nReqIdx - w.nNextExpectedReqIdx < w.qoCache.length := by
          simp only [W] at *; omega
        have hcnt : (w.m_nReqIdx + W - w.nNextExpectedReqIdx + 1) % W =
            (w.m_nReqIdx - w.nNextExpectedReqIdx) + 1 := by
          simp only [W] at *; omega
        have hnew : (w.nNextExpectedReqIdx + (w.m_nReqIdx - w.nNextExpectedReqIdx + 1)) % W =
            w.m_nReqIdx + 1 := by
          simp only [W] at *; omega
        have hidx2 : (w.nNextExpectedReqIdx + (w.m_nReqIdx - w.nNextExpectedReqIdx)) % W =
            w.m_nReqIdx := by
          simp only [W] at *; omega
        obtain ⟨c, hcq⟩ : ∃ c, w.qoCache[w.m_nReqIdx - w.nNextExpectedReqIdx]? = some c :=
          ⟨_, List.getElem?_eq_getElem hidx⟩
        have hpop := CoreP_popn cb _ _ _ _ c _ _ _ _ _ hcore hcq
        rw [hidx2] at hpop
        refine ⟨hf, hq, hin.2, hin.1, c, hcq, hpop.2, ?_⟩
        unfold onRequest
        rw [if_pos hf1, if_pos hq, if_pos hin, hcnt, popLoop_eq c _ w hreq hne hcnt hcq, hnew]
      · right; left
        refine ⟨hf, hq, hin, ?_⟩
        unfold onRequest
        rw [if_pos hf1, if_pos hq, if_neg hin]

/-- A request handling succeeds and keeps the worker invariant. -/
theorem WInv_onRequest (cb : Nat → Mat) (w : Worker) (hfit : Fits cb w.nBufferSize)
    (h : WInv cb w) :
    ∃ w1, onRequest cb w = some w1 ∧ WInv cb w1 ∧ w1.nBufferSize = w.nBufferSize ∧
      w1.m_nReqIdx = w.m_nReqIdx ∧ w1.m_nAnswIdx = w.m_nReqIdx ∧
      deref w1.vcBuffer w1.m_oReqPacket = deref w.vcBuffer w1.m_oReqPacket ∧
      (w.m_nReqIdx ≠ w.m_nAnswIdx → deref w1.vcBuffer w1.m_oReqPacket = cb w.m_nReqIdx) := by
  have hreq := h.2.1
  rcases onRequest_cases cb w hfit h with ⟨hf, he⟩ | ⟨hf, hq, h1, h2, c, hcq, hd, he⟩ |
      ⟨hf, hq, hin, he⟩ | ⟨hf, hq, he⟩
  · exact ⟨w, he, h, rfl, rfl, hf.symm, rfl, fun hn => absurd hf hn⟩
  · refine ⟨_, he, ?_, rfl, rfl, rfl, rfl, fun _ => hd⟩
    obtain ⟨hcore, _, hans, hnext, hpkt⟩ := h
    have hne := hcore.2.1
    have hnp := hcore.2.2.1
    have hpop := (CoreP_popn cb _ _ _ _ c _ _ _ _ _ hcore hcq).1
    have hnew : (w.nNextExpectedReqIdx + (w.m_nReqIdx - w.nNextExpectedReqIdx + 1)) % W =
        w.m_nReqIdx + 1 := by
      simp only [W] at *; omega
    rw [hnew] at hpop
    refine ⟨hpop, hreq, hreq, ?_, Or.inl hd⟩
    show w.m_nReqIdx + 1 = (w.m_nReqIdx + 1) % W
    simp only [W] at *; omega
  · refine ⟨_, he, ⟨⟨Or.inl ⟨rfl, rfl, rfl⟩, Nat.mod_lt _ (by decide), ?_, trivial⟩, hreq, hreq,
      rfl, Or.inl rfl⟩, rfl, rfl, rfl, rfl, fun _ => rfl⟩
    show (w.m_nReqIdx + 1) % W = ((w.m_nReqIdx + 1) % W + 0) % W
    simp
  · refine ⟨_, he, ⟨⟨Or.inl ⟨rfl, rfl, ?_⟩, Nat.mod_lt _ (by decide), ?_, ?_⟩, hreq, hreq,
      rfl, Or.inl rfl⟩, rfl, rfl, rfl, rfl, fun _ => rfl⟩
    · show liveOf (.own _) w.qoCache = []
      exact hq
    · show (w.m_nReqIdx + 1) % W = ((w.m_nReqIdx + 1) % W + w.qoCache.length) % W
      rw [hq]; simp
    · show Cached cb w.vcBuffer _ w.qoCache
      rw [hq]; trivial

/-- Every reachable worker state satisfies the invariant and keeps the arena
size it was started with. -/
theorem Reach_inv (cb : Nat → Mat) (B : Nat) (hfit : Fits cb B) (w : Worker)
    (h : Reach cb B w) : WInv cb w ∧ w.nBufferSize = B := by
  induction h with
  | start w0 ha hr hp =>
    refine ⟨⟨⟨Or.inl ⟨rfl, rfl, ?_⟩, ?_, rfl, trivial⟩, ?_, ?_, ?_, Or.inr ⟨ha, hp⟩⟩, rfl⟩
    · show liveOf w0.m_oReqPacket [] = []
      rw [hp]; rfl
    · show 0 < W
      decide
    · show w0.m_nReqIdx < W
      rw [hr]; decide
    · show w0.m_nAnswIdx < W
      rw [ha]; decide
    · show 0 = (w0.m_nAnswIdx + 1) % W
      rw [ha]; decide
  | publish w i hi _ ih =>
    obtain ⟨⟨hcore, _, hrest⟩, hB⟩ := ih
    exact ⟨⟨hcore, hi, hrest⟩, hB⟩
  | handle w w1 _ he ih =>
    obtain ⟨hinv, hB⟩ := ih
    obtain ⟨w2, he2, hinv2, hB2, _⟩ := WInv_onRequest cb w (hB ▸ hfit) hinv
    rw [he] at he2
    cases he2
    exact ⟨hinv2, hB2.trans hB⟩
  | cache w _ ih =>
    obtain ⟨hinv, hB⟩ := ih
    exact ⟨WInv_lCache cb w (hB ▸ hfit) hinv, (lCache_nBufferSize cb w).trans hB⟩

theorem Stable_refl (w : Worker) : Stable w w := ⟨rfl, rfl, rfl, rfl⟩

theorem Stable_trans (a b c : Worker) (h1 : Stable a b) (h2 : Stable b c) : Stable a c :=
  ⟨h2.1.trans h1.1, h2.2.1.trans h1.2.1, h2.2.2.1.trans h1.2.2.1, h2.2.2.2.trans h1.2.2.2⟩

/-- A prefetch step does not touch the request state nor the bytes of the
answered packet. -/
theorem lCache_stable (cb : Nat → Mat) (w : Worker) (hfit : Fits cb w.nBufferSize)
    (h : WInv cb w) : Stable w (lCacheNextPacket cb w).1 := by
  rcases lCache_cases cb w with ⟨_, he⟩ | ⟨_, _, he⟩ | ⟨off, F1, N1, hs, ha, he⟩
  · rw [he]; exact Stable_refl w
  · rw [he]; exact Stable_refl w
  · rw [he]
    obtain ⟨⟨hr, _⟩, _⟩ := h
    obtain ⟨_, _, hdis⟩ := ringAlloc_some _ _ _ _ _ _ _ (cb w.nNextPrecacheIdx).hdr _
      (hfit w.nNextPrecacheIdx) (Nat.pos_of_ne_zero hs) hr ha
    refine ⟨rfl, rfl, rfl, ?_⟩
    show deref (copyTo w.vcBuffer off _) w.m_oReqPacket = deref w.vcBuffer w.m_oReqPacket
    cases hp : w.m_oReqPacket with
    | own m => rfl
    | arena a =>
      apply deref_copyTo_disjoint
      apply hdis
      rw [hp]; exact List.mem_cons_self _ _

theorem Reach_lCache_stable (cb : Nat → Mat) (B : Nat) (hfit : Fits cb B) (w : Worker)
    (h : Reach cb B w) :
    Reach cb B (lCacheNextPacket cb w).1 ∧ Stable w (lCacheNextPacket cb w).1 := by
  obtain ⟨hinv, hB⟩ := Reach_inv cb B hfit w h
  exact ⟨Reach.cache w h, lCache_stable cb w (hB ▸ hfit) hinv⟩

theorem Reach_prefillLoop (cb : Nat → Mat) (B : Nat) (hfit : Fits cb B) :
    ∀ (clock : Nat) (w : Worker), Reach cb B w →
      Reach cb B (prefillLoop cb clock w) ∧ Stable w (prefillLoop cb clock w) := by
  intro clock
  induction clock with
  | zero => intro w h; exact ⟨h, Stable_refl w⟩
  | succ n ih =>
    intro w h
    obtain ⟨h1, h2⟩ := Reach_lCache_stable cb B hfit w h
    unfold prefillLoop
    simp only []
    split_ifs
    · obtain ⟨h3, h4⟩ := ih _ h1
      exact ⟨h3, Stable_trans _ _ _ h2 h4⟩
    · exact ⟨h1, h2⟩

theorem Reach_refillLoop (cb : Nat → Mat) (B : Nat) (hfit : Fits cb B) :
    ∀ (clock nFillCount : Nat) (w : Worker), Reach cb B w →
      Reach cb B (refillLoop cb clock nFillCount w) ∧
        Stable w (refillLoop cb clock nFillCount w) := by
  intro clock
  induction clock with
  | zero => intro k w h; exact ⟨h, Stable_refl w⟩
  | succ n ih =>
    intro k w h
    obtain ⟨h1, h2⟩ := Reach_lCache_stable cb B hfit w h
    unfold refillLoop
    simp only []
    split_ifs
    · obtain ⟨h3, h4⟩ := ih _ _ h1
      exact ⟨h3, Stable_trans _ _ _ h2 h4⟩
    · exact ⟨h1, h2⟩
    · exact ⟨h, Stable_refl w⟩

theorem Reach_onTimeout (cb : Nat → Mat) (B : Nat) (hfit : Fits cb B) (clock : Nat) (w : Worker)
    (h : Reach cb B w) :
    Reach cb B (onTimeout cb clock w) ∧ Stable w (onTimeout cb clock w) := by
  unfold onTimeout
  split_ifs
  · exact Reach_refillLoop cb B hfit clock 0 w h
  · exact ⟨h, Stable_refl w⟩
  · exact ⟨h, Stable_refl w⟩

/-- A wake-up of the worker succeeds, answers the published request and leaves
an already answered request alone. -/
theorem Reach_onWake (cb : Nat → Mat) (B : Nat) (hfit : Fits cb B) (w : Worker)
    (h : Reach cb B w) :
    ∃ w1, onWake cb w = some w1 ∧ Reach cb B w1 ∧ w1.m_nReqIdx = w.m_nReqIdx ∧
      w1.m_nAnswIdx = w.m_nReqIdx ∧
      (w.m_nReqIdx ≠ w.m_nAnswIdx → deref w1.vcBuffer w1.m_oReqPacket = cb w.m_nReqIdx) ∧
      (w.m_nReqIdx = w.m_nAnswIdx → Stable w w1) := by
  obtain ⟨hinv, hB⟩ := Reach_inv cb B hfit w h
  obtain ⟨w2, he, _, _, hreq, hans, _, hd⟩ := WInv_onRequest cb w (hB ▸ hfit) hinv
  have hr2 : Reach cb B w2 := Reach.handle w w2 h he
  obtain ⟨hr3, hst⟩ := Reach_lCache_stable cb B hfit w2 hr2
  refine ⟨(lCacheNextPacket cb w2).1, by simp [onWake, he], hr3, hst.1.trans hreq,
    hst.2.1.trans hans, ?_, ?_⟩
  · intro hne
    rw [hst.2.2.2]; exact hd hne
  · intro heq
    have hfast : onRequest cb w = some w := by
      rcases onRequest_cases cb w (hB ▸ hfit) hinv with ⟨_, e⟩ | ⟨hf, _⟩ | ⟨hf, _⟩ | ⟨hf, _⟩
      · exact e
      · exact absurd heq hf
      · exact absurd heq hf
      · exact absurd heq hf
    rw [hfast] at he
    cases he
    exact hst

/-- Worker iterations without an unanswered request to handle keep the request
state and the answered bytes. -/
theorem runWorker_stable (cb : Nat → Mat) (B : Nat) (hfit : Fits cb B) :
    ∀ (evs : List WorkerEvent) (w : Worker), Reach cb B w →
      (w.m_nReqIdx = w.m_nAnswIdx ∨ WorkerEvent.wake ∉ evs) →
      ∃ w1, runWorker cb evs w = some w1 ∧ Reach cb B w1 ∧ Stable w w1 := by
  intro evs
  induction evs with
  | nil => intro w h _; exact ⟨w, rfl, h, Stable_refl w⟩
  | cons e es ih =>
    intro w h hc
    cases e with
    | wake =>
      have heq : w.m_nReqIdx = w.m_nAnswIdx := by
        rcases hc with hc | hc
        · exact hc
        · exact absurd (List.mem_cons_self _ _) hc
      obtain ⟨w1, he, hr1, _, _, _, hst⟩ := Reach_onWake cb B hfit w h
      have hst := hst heq
      obtain ⟨w2, he2, hr2, hst2⟩ := ih w1 hr1 (Or.inl (by rw [hst.1, hst.2.1]; exact heq))
      exact ⟨w2, by simp [runWorker, workerStep, he, he2], hr2, Stable_trans _ _ _ hst hst2⟩
    | timeout clock =>
      obtain ⟨hr1, hst⟩ := Reach_onTimeout cb B hfit clock w h
      have hc1 : (onTimeout cb clock w).m_nReqIdx = (onTimeout cb clock w).m_nAnswIdx ∨
          WorkerEvent.wake ∉ es := by
        rcases hc with hc | hc
        · left; rw [hst.1, hst.2.1]; exact hc
        · right; exact fun hm => hc (List.mem_cons_of_mem _ hm)
      obtain ⟨w2, he2, hr2, hst2⟩ := ih _ hr1 hc1
      exact ⟨w2, by simp [runWorker, workerStep, he2], hr2, Stable_trans _ _ _ hst hst2⟩

/-- Worker iterations that include a wake-up answer the published request with
the loader packet of that index. -/
theorem runWorker_answers (cb : Nat → Mat) (B : Nat) (hfit : Fits cb B) :
    ∀ (evs : List WorkerEvent) (w : Worker), Reach cb B w → WorkerEvent.wake ∈ evs →
      w.m_nReqIdx ≠ w.m_nAnswIdx →
      ∃ w1, runWorker cb evs w = some w1 ∧ Reach cb B w1 ∧ w1.m_nReqIdx = w.m_nReqIdx ∧
        w1.m_nAnswIdx = w.m_nReqIdx ∧ deref w1.vcBuffer w1.m_oReqPacket = cb w.m_nReqIdx := by
  intro evs
  induction evs with
  | nil => intro w _ hm _; simp at hm
  | cons e es ih =>
    intro w h hm hne
    cases e with
    | wake =>
      obtain ⟨w1, he, hr1, hreq, hans, hd, _⟩ := Reach_onWake cb B hfit w h
      obtain ⟨w2, he2, hr2, hst2⟩ := runWorker_stable cb B hfit es w1 hr1
        (Or.inl (hreq.trans hans.symm))
      refine ⟨w2, by simp [runWorker, workerStep, he, he2], hr2, hst2.1.trans hreq,
        hst2.2.1.trans hans, ?_⟩
      rw [hst2.2.2.2]; exact hd hne
    | timeout clock =>
      obtain ⟨hr1, hst⟩ := Reach_onTimeout cb B hfit clock w h
      have hm1 : WorkerEvent.wake ∈ es := by
        rcases List.mem_cons.1 hm with hm | hm
        · cases hm
        · exact hm
      obtain ⟨w2, he2, hr2, hreq, hans, hd⟩ := ih _ hr1 hm1 (by rw [hst.1, hst.2.1]; exact hne)
      exact ⟨w2, by simp [runWorker, workerStep, he2], hr2, hreq.trans hst.1,
        hans.trans hst.1, by rw [hd, hst.1]⟩

theorem getPacketWait_cons (cb : Nat → Mat) (o : WaitOutcome) (os : List WaitOutcome)
    (p : DataPrecacher) (w : Worker) (he : runWorker cb o.worker p.worker = some w) :
    getPacketWait cb (o :: os) p =
      if o.timedOut = true ∧ w.m_nAnswIdx ≠ w.m_nReqIdx then
        getPacketWait cb os { p with worker := w }
      else
        some { p with
          worker := w, m_oLastReqPacket := w.m_oReqPacket, m_nLastReqIdx := w.m_nAnswIdx } := by
  simp only [getPacketWait, he]

/-- The wait loop of `getPacket` on an unanswered request, without spurious
wake-ups: whenever it returns it has adopted the answer to that request, and it
returns once the worker has woken up for the request. -/
theorem getPacketWait_spec (cb : Nat → Mat) (B : Nat) (hfit : Fits cb B) :
    ∀ (waits : List WaitOutcome) (p : DataPrecacher), Reach cb B p.worker →
      p.worker.m_nReqIdx ≠ p.worker.m_nAnswIdx → NoSpurious waits →
      (∀ q, getPacketWait cb waits p = some q → Adopted cb B p q) ∧
      ((∃ o ∈ waits, WorkerEvent.wake ∈ o.worker) → ∃ q, getPacketWait cb waits p = some q) := by
  intro waits
  induction waits with
  | nil =>
    intro p _ _ _
    refine ⟨fun q hq => ?_, fun ⟨o, ho, _⟩ => ?_⟩
    · simp [getPacketWait] at hq
    · simp at ho
  | cons o os ih =>
    intro p hr hne hns
    have hns1 : NoSpurious os := fun x hx => hns x (List.mem_cons_of_mem _ hx)
    by_cases hw : WorkerEvent.wake ∈ o.worker
    · obtain ⟨w, he, hr1, hreq, hans, hd⟩ := runWorker_answers cb B hfit o.worker p.worker hr hw hne
      have hex : getPacketWait cb (o :: os) p = some { p with
          worker := w, m_oLastReqPacket := w.m_oReqPacket, m_nLastReqIdx := w.m_nAnswIdx } := by
        rw [getPacketWait_cons cb o os p w he, if_neg]
        rw [hans, hreq]; simp
      refine ⟨fun q hq => ?_, fun _ => ⟨_, hex⟩⟩
      rw [hex] at hq
      cases hq
      exact ⟨hr1, rfl, hreq, hans, hans, rfl, hd⟩
    · obtain ⟨w, he, hr1, hst⟩ := runWorker_stable cb B hfit o.worker p.worker hr (Or.inr hw)
      have hto : o.timedOut = true := by
        cases hb : o.timedOut with
        | true => rfl
        | false => exact absurd (hns o (List.mem_cons_self _ _) hb) hw
      have hne1 : w.m_nAnswIdx ≠ w.m_nReqIdx := by
        rw [hst.1, hst.2.1]; exact fun e => hne e.symm
      have hex : getPacketWait cb (o :: os) p = getPacketWait cb os { p with worker := w } := by
        rw [getPacketWait_cons cb o os p w he, if_pos ⟨hto, hne1⟩]
      obtain ⟨ih1, ih2⟩ := ih { p with worker := w } hr1 (fun e => hne1 e.symm) hns1
      rw [hex]
      refine ⟨fun q hq => ?_, fun ⟨x, hx, hxf⟩ => ?_⟩
      · obtain ⟨a1, a2, a3, a4, a5, a6, a7⟩ := ih1 q hq
        exact ⟨a1, a2, a3.trans hst.1, a4.trans hst.1, a5.trans hst.1, a6,
          a7.trans (congrArg cb hst.1)⟩
      · apply ih2
        rcases List.mem_cons.1 hx with rfl | hx
        · exact absurd hxf hw
        · exact ⟨x, hx, hxf⟩

/-- The wait loop of `getPacket` when the published index is already the
answered one: it returns after the first wait, and worker activity changes
nothing the consumer observes. -/
theorem getPacketWait_same (cb : Nat → Mat) (B : Nat) (hfit : Fits cb B) (o : WaitOutcome)
    (os : List WaitOutcome) (p : DataPrecacher) (hr : Reach cb B p.worker)
    (heq : p.worker.m_nReqIdx = p.worker.m_nAnswIdx) :
    ∃ q, getPacketWait cb (o :: os) p = some q ∧
      q.m_nLastReqIdx = p.worker.m_nReqIdx ∧ Reach cb B q.worker ∧ Stable p.worker q.worker ∧
      q.m_oLastReqPacket = q.worker.m_oReqPacket ∧ q.m_bIsActive = p.m_bIsActive := by
  obtain ⟨w, he, hr1, hst⟩ := runWorker_stable cb B hfit o.worker p.worker hr (Or.inl heq)
  have heq1 : w.m_nAnswIdx = w.m_nReqIdx := by rw [hst.1, hst.2.1]; exact heq.symm
  refine ⟨{ p with
    worker := w, m_oLastReqPacket := w.m_oReqPacket, m_nLastReqIdx := w.m_nAnswIdx },
    ?_, ?_, hr1, hst, rfl, rfl⟩
  · rw [getPacketWait_cons cb o os p w he, if_neg (fun h => h.2 heq1)]
  · exact heq1.trans hst.1

theorem SysInv_get (cb : Nat → Mat) (B : Nat) (hfit : Fits cb B) (fresh : Bool)
    (p : DataPrecacher) (nIdx : Nat) (waits : List WaitOutcome) (h : SysInv cb B fresh p)
    (hi : nIdx < W) (hw : Handshake waits) :
    ∃ p1 r, getPacket cb nIdx waits p = some (p1, r) ∧
      SysInv cb B (fresh && decide (nIdx = SIZE_MAX)) p1 ∧
      deref p1.worker.vcBuffer r = (if fresh = true ∧ nIdx = SIZE_MAX then emptyMat else cb nIdx) := by
  obtain ⟨hact, hr, hpkt, hidx, hreq, hfr⟩ := h
  by_cases hfast : nIdx = p.m_nLastReqIdx
  · refine ⟨p, p.m_oLastReqPacket, by simp [getPacket, hfast], ?_, ?_⟩
    · cases fresh with
      | true =>
        simp only [if_true] at hfr
        have : nIdx = SIZE_MAX := hfast.trans hfr.1
        simp only [this, decide_True, Bool.and_self]
        exact ⟨hact, hr, hpkt, hidx, hreq, by simpa using hfr⟩
      | false => exact ⟨hact, hr, hpkt, hidx, hreq, hfr⟩
    · cases fresh with
      | true =>
        simp only [if_true] at hfr
        have : nIdx = SIZE_MAX := hfast.trans hfr.1
        rw [hfr.2, if_pos ⟨rfl, this⟩]; rfl
      | false =>
        simp only [Bool.false_eq_true, if_false] at hfr
        simp [hfr, hfast]
  · have hr1 : Reach cb B ({ p.worker with m_nReqIdx := nIdx }) := Reach.publish _ _ hi hr
    have hne : nIdx ≠ p.worker.m_nAnswIdx := fun e => hfast (e.trans hidx.symm)
    obtain ⟨h1, h2⟩ := getPacketWait_spec cb B hfit waits
      { p with worker := { p.worker with m_nReqIdx := nIdx } } hr1 hne hw.1
    obtain ⟨q, hq⟩ := h2 hw.2
    obtain ⟨a1, a2, a3, a4, a5, a6, a7⟩ := h1 q hq
    have hns : ¬ (fresh = true ∧ nIdx = SIZE_MAX) := by
      rintro ⟨hf, hs⟩
      rw [hf] at hfr
      simp only [if_true] at hfr
      exact hfast (hs.trans hfr.1.symm)
    have hfl : (fresh && decide (nIdx = SIZE_MAX)) = false := by
      cases fresh with
      | true => simpa using fun e => hns ⟨rfl, e⟩
      | false => rfl
    refine ⟨q, q.m_oLastReqPacket, ?_, ?_, ?_⟩
    · unfold getPacket
      rw [if_neg hfast, if_neg (by simp [hact]), hq]
      rfl
    · rw [hfl]
      refine ⟨a2.trans hact, a1, a6, a5.trans a4.symm, a3.trans a4.symm, ?_⟩
      simp only [Bool.false_eq_true, if_false]
      rw [a7, a5]
    · rw [if_neg hns]; exact a7

theorem SysInv_idle (cb : Nat → Mat) (B : Nat) (hfit : Fits cb B) (fresh : Bool)
    (p : DataPrecacher) (evs : List WorkerEvent) (h : SysInv cb B fresh p) :
    ∃ w, runWorker cb evs p.worker = some w ∧ SysInv cb B fresh { p with worker := w } := by
  obtain ⟨hact, hr, hpkt, hidx, hreq, hfr⟩ := h
  obtain ⟨w, he, hr1, hst⟩ := runWorker_stable cb B hfit evs p.worker hr (Or.inl hreq)
  refine ⟨w, he, hact, hr1, hpkt.trans hst.2.2.1.symm, hidx.trans hst.2.1.symm,
    (hst.1.trans hreq).trans hst.2.1.symm, ?_⟩
  cases fresh with
  | true => exact hfr
  | false =>
    simp only [Bool.false_eq_true, if_false] at hfr ⊢
    show deref w.vcBuffer p.m_oLastReqPacket = cb p.m_nLastReqIdx
    have h4 := hst.2.2.2
    rw [hst.2.2.1] at h4
    rw [← hfr, hpkt]
    exact h4

theorem runOps_spec (cb : Nat → Mat) (B : Nat) (hfit : Fits cb B) :
    ∀ (ops : List Op) (fresh : Bool) (p : DataPrecacher), SysInv cb B fresh p →
      (∀ op ∈ ops, ValidOp op) →
      ∃ p1, runOps cb ops p = some (p1, expectedResults cb fresh ops) := by
  intro ops
  induction ops with
  | nil => intro fresh p _ _; exact ⟨p, rfl⟩
  | cons op ops ih =>
    intro fresh p h hv
    have hv1 : ∀ x ∈ ops, ValidOp x := fun x hx => hv x (List.mem_cons_of_mem _ hx)
    cases op with
    | get nIdx waits =>
      obtain ⟨hi, hw⟩ : nIdx < W ∧ Handshake waits := hv _ (List.mem_cons_self _ _)
      obtain ⟨p1, r, he, hinv, hres⟩ := SysInv_get cb B hfit fresh p nIdx waits h hi hw
      obtain ⟨p2, he2⟩ := ih _ p1 hinv hv1
      exact ⟨p2, by simp only [runOps, he, he2, hres, expectedResults]⟩
    | idle evs =>
      obtain ⟨w, he, hinv⟩ := SysInv_idle cb B hfit fresh p evs h
      obtain ⟨p2, he2⟩ := ih _ _ hinv hv1
      exact ⟨p2, by simp only [runOps, he, he2, expectedResults]⟩

theorem prefillLoop_nBufferSize (cb : Nat → Mat) :
    ∀ (clock : Nat) (w : Worker), (prefillLoop cb clock w).nBufferSize = w.nBufferSize := by
  intro clock
  induction clock with
  | zero => intro w; rfl
  | succ n ih =>
    intro w
    unfold prefillLoop
    simp only []
    split_ifs
    · rw [ih, lCache_nBufferSize]
    · rw [lCache_nBufferSize]

/-- A freshly constructed precacher that is started is in the between-calls
state, with no index requested yet. -/
theorem SysInv_start (MAXSZ : Nat) (cb : Nat → Mat) (hint clock : Nat) (hh : 0 < hint)
    (hfit : Fits cb (max (min hint MAXSZ) CACHE_MIN_SIZE)) :
    SysInv cb (max (min hint MAXSZ) CACHE_MIN_SIZE) true
      (startAsyncPrecaching MAXSZ cb hint clock DataPrecacher.construct).1 := by
  have hr0 : Reach cb (max (min hint MAXSZ) CACHE_MIN_SIZE)
      (entryLocals (max (min hint MAXSZ) CACHE_MIN_SIZE)
        { DataPrecacher.construct.worker with m_nAnswIdx := SIZE_MAX, m_nReqIdx := SIZE_MAX }) :=
    Reach.start _ rfl rfl rfl
  obtain ⟨hr1, hst⟩ := Reach_prefillLoop cb _ hfit clock _ hr0
  have he : (startAsyncPrecaching MAXSZ cb hint clock DataPrecacher.construct).1 =
      { DataPrecacher.construct with
        m_bIsActive := true
        worker := prefillLoop cb clock (entryLocals (max (min hint MAXSZ) CACHE_MIN_SIZE)
          { DataPrecacher.construct.worker with m_nAnswIdx := SIZE_MAX, m_nReqIdx := SIZE_MAX }) } := by
    simp [startAsyncPrecaching, hh, DataPrecacher.construct]
  rw [he]
  exact ⟨rfl, hr1, hst.2.2.1.symm, hst.2.1.symm, hst.1.trans hst.2.1.symm, ⟨rfl, rfl⟩⟩

/-- A packet at least as large as the arena is refused by the ring decision. -/
theorem ringAlloc_big (B F N s : Nat) (l : List CachedMat) (hB : s + B < W)
    (hr : RingP B F N l) (hbig : B ≤ s) : ringAlloc B F N s = none := by
  unfold ringAlloc
  simp only [RingP, W, SIZE_MAX] at *
  rcases hr with ⟨hF, hN, hl⟩ | ⟨hne, hseg, hNB⟩ | ⟨hi, lo, e, hl, hhi, hlo, hsh, he, hsl, hNF⟩
  · subst hF hN
    simp [hbig]
  · have hFN := Seg_lt _ _ _ hseg hne
    have hmod : (N + s) % 18446744073709551616 = N + s := Nat.mod_eq_of_lt (by omega)
    rw [hmod]
    split_ifs <;> first | rfl | omega
  · have hFe := Seg_lt _ _ _ hsh hhi
    have hmod : (N + s) % 18446744073709551616 = N + s := Nat.mod_eq_of_lt (by omega)
    rw [hmod]
    split_ifs <;> first | rfl | omega

/-- On every ring shape the source can be in, the ring decision of
`lCacheNextPacket` is the decision of the reference allocator. -/
theorem ringAlloc_eq_refAlloc (B F N s : Nat) (l : List CachedMat) (hB : s + B < W)
    (hr : RingP B F N l) :
    (ringAlloc B F N s).map (fun r => (r.1, ringSpaceOf r.2.1 r.2.2)) =
      refAlloc B (ringSpaceOf F N) s := by
  unfold ringAlloc ringSpaceOf
  simp only [RingP, W, SIZE_MAX] at *
  rcases hr with ⟨hF, hN, hl⟩ | ⟨hne, hseg, hNB⟩ | ⟨hi, lo, e, hl, hhi, hlo, hsh, he, hsl, hNF⟩
  · subst hF hN
    simp only [le_refl, if_true, true_or, ne_eq, not_true_eq_false, false_and, false_or, refAlloc]
    split_ifs <;> first | rfl | omega
  · have hFN := Seg_lt _ _ _ hseg hne
    have hmod : (N + s) % 18446744073709551616 = N + s := Nat.mod_eq_of_lt (by omega)
    have hF : F ≠ 18446744073709551615 := by omega
    rw [hmod]
    simp only [hF, if_false, refAlloc]
    split_ifs <;> first | rfl | omega | simp [hF]
  · have hFe := Seg_lt _ _ _ hsh hhi
    have hmod : (N + s) % 18446744073709551616 = N + s := Nat.mod_eq_of_lt (by omega)
    have hF : F ≠ 18446744073709551615 := by omega
    rw [hmod]
    simp only [hF, if_false, refAlloc]
    split_ifs <;> first | rfl | omega | simp [hF]

theorem Reach_serve (cb : Nat → Mat) (B : Nat) (hfit : Fits cb B) (nIdx : Nat) (hi : nIdx < W)
    (w : Worker) (h : Reach cb B w) : Reach cb B (serve cb nIdx w) := by
  obtain ⟨w1, he, hr, _⟩ := Reach_onWake cb B hfit _ (Reach.publish w nIdx hi h)
  unfold serve
  rw [he]
  exact hr

theorem Reach_fresh (cb : Nat → Mat) (B : Nat) :
    Reach cb B (entryLocals B DataPrecacher.construct.worker) :=
  Reach.start _ rfl rfl rfl

theorem tenItems_fits : Fits tenItems 10 := by
  intro i
  unfold tenItems
  split_ifs <;> simp [Mat.byteSize, emptyMat, W]

theorem oneItem_fits_min : Fits oneItem (max (min 1 CACHE_MIN_SIZE) CACHE_MIN_SIZE) := by
  intro i
  unfold oneItem
  split_ifs <;> simp [Mat.byteSize, emptyMat, W, CACHE_MIN_SIZE]

theorem wideItems_fits : Fits wideItems 10 := by
  intro i
  simp [wideItems, Mat.byteSize, W]

/-- C3: in every reachable state of the precache worker, the byte sizes of the
packets held in the cache FIFO add up to at most the arena size `nBufferSize`. -/
theorem cache_bytes_le_capacity (cb : Nat → Mat) (B : Nat) (hfit : Fits cb B) (w : Worker)
    (h : Reach cb B w) : sumLen w.qoCache ≤ B ∧ w.nBufferSize = B := by
  obtain ⟨⟨⟨hr, _⟩, _⟩, hB⟩ := Reach_inv cb B hfit w h
  have h1 := RingP_sum _ _ _ _ hr
  have h2 := length_le_liveOf w.m_oReqPacket w.qoCache
  rw [hB] at h1
  exact ⟨by omega, hB⟩

theorem cache_bytes_le_capacity_witness :
    sumLen (prefillLoop tenItems 7 (entryLocals 10 DataPrecacher.construct.worker)).qoCache
        ≤ 10 ∧
      (prefillLoop tenItems 7 (entryLocals 10 DataPrecacher.construct.worker)).nBufferSize
        = 10 :=
  cache_bytes_le_capacity tenItems 10 tenItems_fits _
    (Reach_prefillLoop tenItems 10 tenItems_fits 7 _ (Reach_fresh tenItems 10)).1

/-- C4: in every reachable state, a prefetch step whose next packet has a byte
size of at least the arena size is refused: `lCacheNextPacket` returns 0, the
FIFO, the arena and both ring offsets are unchanged and `nNextPrecacheIdx` is
not advanced. -/
theorem lCacheNextPacket_refuses_oversized (cb : Nat → Mat) (B : Nat) (hfit : Fits cb B)
    (w : Worker) (h : Reach cb B w) (hbig : B ≤ (cb w.nNextPrecacheIdx).byteSize) :
    (lCacheNextPacket cb w).2 = 0 ∧
      (lCacheNextPacket cb w).1.qoCache = w.qoCache ∧
      (lCacheNextPacket cb w).1.nNextPrecacheIdx = w.nNextPrecacheIdx ∧
      (lCacheNextPacket cb w).1.vcBuffer = w.vcBuffer ∧
      (lCacheNextPacket cb w).1.nFirstBufferIdx = w.nFirstBufferIdx ∧
      (lCacheNextPacket cb w).1.nNextBufferIdx = w.nNextBufferIdx := by
  obtain ⟨⟨⟨hr, _⟩, _⟩, hB⟩ := Reach_inv cb B hfit w h
  have hnone := ringAlloc_big _ _ _ _ _ (hB ▸ hfit w.nNextPrecacheIdx) hr (hB ▸ hbig)
  rcases lCache_cases cb w with ⟨_, he⟩ | ⟨_, _, he⟩ | ⟨off, F1, N1, hs, ha, he⟩
  · rw [he]; exact ⟨rfl, rfl, rfl, rfl, rfl, rfl⟩
  · rw [he]; exact ⟨rfl, rfl, rfl, rfl, rfl, rfl⟩
  · rw [hnone] at ha; cases ha

theorem lCacheNextPacket_refuses_oversized_witness :
    (lCacheNextPacket wideItems (entryLocals 10 DataPrecacher.construct.worker)).2 = 0 ∧
      (lCacheNextPacket wideItems (entryLocals 10 DataPrecacher.construct.worker)).1.qoCache
        = (entryLocals 10 DataPrecacher.construct.worker).qoCache ∧
      (lCacheNextPacket wideItems
          (entryLocals 10 DataPrecacher.construct.worker)).1.nNextPrecacheIdx
        = (entryLocals 10 DataPrecacher.construct.worker).nNextPrecacheIdx ∧
      (lCacheNextPacket wideItems (entryLocals 10 DataPrecacher.construct.worker)).1.vcBuffer
        = (entryLocals 10 DataPrecacher.construct.worker).vcBuffer ∧
      (lCacheNextPacket wideItems
          (entryLocals 10 DataPrecacher.construct.worker)).1.nFirstBufferIdx
        = (entryLocals 10 DataPrecacher.construct.worker).nFirstBufferIdx ∧
      (lCacheNextPacket wideItems
          (entryLocals 10 DataPrecacher.construct.worker)).1.nNextBufferIdx
        = (entryLocals 10 DataPrecacher.construct.worker).nNextBufferIdx :=
  lCacheNextPacket_refuses_oversized wideItems 10 wideItems_fits _ (Reach_fresh wideItems 10)
    (by decide)

/-- C5: the ring allocation inside `lCacheNextPacket` is that of the reference
allocator of the specification: for a non-empty packet in a reachable state,
when the reference refuses, the step returns 0 and leaves FIFO, arena and
offsets alone; when the reference allocates at an offset, the packet is copied
there, queued, its size returned, and the offsets become the reference's new
ring state. -/
theorem lCacheNextPacket_refines_refAlloc (cb : Nat → Mat) (B : Nat) (hfit : Fits cb B)
    (w : Worker) (h : Reach cb B w) (hs : (cb w.nNextPrecacheIdx).byteSize ≠ 0) :
    (refAlloc B (ringSpaceOf w.nFirstBufferIdx w.nNextBufferIdx)
        (cb w.nNextPrecacheIdx).byteSize = none →
      (lCacheNextPacket cb w).2 = 0 ∧
      (lCacheNextPacket cb w).1.qoCache = w.qoCache ∧
      (lCacheNextPacket cb w).1.vcBuffer = w.vcBuffer ∧
      (lCacheNextPacket cb w).1.nFirstBufferIdx = w.nFirstBufferIdx ∧
      (lCacheNextPacket cb w).1.nNextBufferIdx = w.nNextBufferIdx ∧
      (lCacheNextPacket cb w).1.nNextPrecacheIdx = w.nNextPrecacheIdx) ∧
    (∀ off r, refAlloc B (ringSpaceOf w.nFirstBufferIdx w.nNextBufferIdx)
        (cb w.nNextPrecacheIdx).byteSize = some (off, r) →
      (lCacheNextPacket cb w).2 = (cb w.nNextPrecacheIdx).byteSize ∧
      (lCacheNextPacket cb w).1.qoCache = w.qoCache ++
        [⟨(cb w.nNextPrecacheIdx).hdr, off, (cb w.nNextPrecacheIdx).byteSize⟩] ∧
      (lCacheNextPacket cb w).1.vcBuffer = copyTo w.vcBuffer off (cb w.nNextPrecacheIdx).bytes ∧
      ringSpaceOf (lCacheNextPacket cb w).1.nFirstBufferIdx
        (lCacheNextPacket cb w).1.nNextBufferIdx = r ∧
      (lCacheNextPacket cb w).1.nNextPrecacheIdx = (w.nNextPrecacheIdx + 1) % W) := by
  obtain ⟨⟨⟨hr, _⟩, _⟩, hB⟩ := Reach_inv cb B hfit w h
  have href := ringAlloc_eq_refAlloc _ _ _ _ _ (hB ▸ hfit w.nNextPrecacheIdx) hr
  rw [hB] at href
  rcases lCache_cases cb w with ⟨h0, _⟩ | ⟨_, ha, he⟩ | ⟨off, F1, N1, _, ha, he⟩
  · exact absurd h0 hs
  · rw [hB] at ha
    rw [ha] at href
    constructor
    · intro _
      rw [he]; exact ⟨rfl, rfl, rfl, rfl, rfl, rfl⟩
    · intro off r hx
      rw [hx] at href; cases href
  · rw [hB] at ha
    rw [ha] at href
    constructor
    · intro hx
      rw [hx] at href; cases href
    · intro off1 r hx
      rw [hx] at href
      simp only [Option.map_some', Option.some.injEq, Prod.mk.injEq] at href
      obtain ⟨rfl, rfl⟩ := href
      rw [he]; exact ⟨rfl, rfl, rfl, rfl, rfl⟩


theorem Reach_prefilledTen : Reach tenItems 10 prefilledTen :=
  (Reach_prefillLoop tenItems 10 tenItems_fits 7 _ (Reach_fresh tenItems 10)).1

theorem Reach_wrappedTen : Reach tenItems 10 wrappedTen :=
  Reach_serve _ _ tenItems_fits 2 (by decide) _
    (Reach_serve _ _ tenItems_fits 1 (by decide) _
      (Reach_serve _ _ tenItems_fits 0 (by decide) _ Reach_prefilledTen))

theorem lCacheNextPacket_refines_refAlloc_witness :
    ringSpaceOf wrappedTen.nFirstBufferIdx wrappedTen.nNextBufferIdx = .Occupied 6 3 ∧
      (lCacheNextPacket tenItems wrappedTen).2 = 0 ∧
      (lCacheNextPacket tenItems prefilledTen).2 = 0 ∧
      (lCacheNextPacket tenItems (entryLocals 10 DataPrecacher.construct.worker)).2 = 3 :=
  ⟨by decide,
    ((lCacheNextPacket_refines_refAlloc tenItems 10 tenItems_fits wrappedTen Reach_wrappedTen
      (by decide)).1 (by decide)).1,
    ((lCacheNextPacket_refines_refAlloc tenItems 10 tenItems_fits prefilledTen Reach_prefilledTen
      (by decide)).1 (by decide)).1,
    ((lCacheNextPacket_refines_refAlloc tenItems 10 tenItems_fits _ (Reach_fresh tenItems 10)
      (by decide)).2 0 (.Occupied 0 3) (by decide)).1⟩

/-- C6: when the worker handles a request `i` with
`nNextExpectedReqIdx <= i < nNextPrecacheIdx` on a non-empty FIFO of a reachable
state, the FIFO holds at least `i - nNextExpectedReqIdx + 1` entries, exactly
that many are popped from the front, the last popped one is the answer and
reads as `loader(i)`, the answered index is `i`, `nNextExpectedReqIdx` is `i+1`,
`nFirstBufferIdx` is the offset of the answer, and nothing else changes. -/
theorem onRequest_in_range (cb : Nat → Mat) (B : Nat) (hfit : Fits cb B) (w : Worker)
    (h : Reach cb B w) (hq : w.qoCache ≠ []) (h1 : w.nNextExpectedReqIdx ≤ w.m_nReqIdx)
    (h2 : w.m_nReqIdx < w.nNextPrecacheIdx) :
    ∃ c, w.qoCache[w.m_nReqIdx - w.nNextExpectedReqIdx]? = some c ∧
      w.m_nReqIdx - w.nNextExpectedReqIdx + 1 ≤ w.qoCache.length ∧
      deref w.vcBuffer (.arena c) = cb w.m_nReqIdx ∧
      onRequest cb w = some { w with
        m_oReqPacket := .arena c
        m_nAnswIdx := w.m_nReqIdx
        nFirstBufferIdx := c.off
        qoCache := w.qoCache.drop (w.m_nReqIdx - w.nNextExpectedReqIdx + 1)
        nNextExpectedReqIdx := w.m_nReqIdx + 1 } := by
  obtain ⟨hinv, hB⟩ := Reach_inv cb B hfit w h
  rcases onRequest_cases cb w (hB ▸ hfit) hinv with ⟨hf, _⟩ | ⟨_, _, _, _, c, hcq, hd, he⟩ |
      ⟨_, _, hin, _⟩ | ⟨_, hq0, _⟩
  · obtain ⟨⟨_, _, hnp, _⟩, hreq, hans, hnext, _⟩ := hinv
    exfalso
    have hnp1 : w.nNextPrecacheIdx < W := by rw [hnp]; exact Nat.mod_lt _ (by decide)
    simp only [W] at *
    omega
  · refine ⟨c, hcq, ?_, hd, he⟩
    have := (List.getElem?_eq_some.1 hcq).1
    omega
  · exact absurd ⟨h2, h1⟩ hin
  · exact absurd hq0 hq

theorem onRequest_in_range_witness :
    ∃ c, ({ prefilledTen with m_nReqIdx := 1 } : Worker).qoCache[1 - 0]? = some c ∧
      1 - 0 + 1 ≤ ({ prefilledTen with m_nReqIdx := 1 } : Worker).qoCache.length ∧
      deref prefilledTen.vcBuffer (.arena c) = tenItems 1 ∧
      onRequest tenItems { prefilledTen with m_nReqIdx := 1 } = some
        { prefilledTen with
          m_nReqIdx := 1
          m_oReqPacket := .arena c
          m_nAnswIdx := 1
          nFirstBufferIdx := c.off
          qoCache := prefilledTen.qoCache.drop (1 - 0 + 1)
          nNextExpectedReqIdx := 1 + 1 } :=
  onRequest_in_range tenItems 10 tenItems_fits { prefilledTen with m_nReqIdx := 1 }
    (Reach.publish _ 1 (by decide) Reach_prefilledTen) (by decide) (by decide) (by decide)

theorem Reach_servedOne :
    Reach oneItem (max (min 1 CACHE_MIN_SIZE) CACHE_MIN_SIZE) servedOne :=
  Reach_serve _ _ oneItem_fits_min 0 (by decide) _
    (SysInv_start CACHE_MIN_SIZE oneItem 1 5 (by decide) oneItem_fits_min).2.1

/-- The two flushing branches of the request handling on a reachable state: for
a request other than the answered index that is outside the prefetched window,
or that finds the FIFO empty, the handling leaves the FIFO empty, both ring
offsets at the empty value, the answer `loader(i)` with answered index `i`, and
both cursors at `i+1`; the end-of-stream flag is cleared when the FIFO was not
empty and keeps its value when the FIFO was empty. -/
theorem onRequest_flush (cb : Nat → Mat) (B : Nat) (hfit : Fits cb B) (w : Worker)
    (h : Reach cb B w) (hne : w.m_nReqIdx ≠ w.m_nAnswIdx)
    (hout : w.qoCache = [] ∨ w.m_nReqIdx < w.nNextExpectedReqIdx ∨
      w.m_nReqIdx ≥ w.nNextPrecacheIdx) :
    ∃ w1, onRequest cb w = some w1 ∧ w1.qoCache = [] ∧
      w1.nFirstBufferIdx = SIZE_MAX ∧ w1.nNextBufferIdx = SIZE_MAX ∧
      w1.m_oReqPacket = .own (cb w.m_nReqIdx) ∧ w1.m_nAnswIdx = w.m_nReqIdx ∧
      w1.nNextExpectedReqIdx = (w.m_nReqIdx + 1) % W ∧
      w1.nNextPrecacheIdx = (w.m_nReqIdx + 1) % W ∧
      (w.qoCache ≠ [] → w1.bReachedEnd = false) ∧
      (w.qoCache = [] → w1.bReachedEnd = w.bReachedEnd) := by
  obtain ⟨hinv, hB⟩ := Reach_inv cb B hfit w h
  rcases onRequest_cases cb w (hB ▸ hfit) hinv with ⟨hf, _⟩ | ⟨_, hq, h1, h2, _⟩ |
      ⟨_, hq, _, he⟩ | ⟨_, hq, he⟩
  · exact absurd hf hne
  · rcases hout with h0 | h0 | h0
    · exact absurd h0 hq
    · omega
    · omega
  · exact ⟨_, he, rfl, rfl, rfl, rfl, rfl, rfl, rfl, fun _ => rfl, fun h0 => absurd h0 hq⟩
  · exact ⟨_, he, hq, rfl, rfl, rfl, rfl, rfl, rfl, fun h0 => absurd hq h0, fun _ => rfl⟩

/-- C7 (the code at the failing input): on a precacher started on a one-item
loader, after the prefill and the request for index 0, the FIFO is empty and
the end-of-stream flag is set; handling the request for index 5 then takes the
empty-FIFO branch, which answers `loader(5)` and resets offsets and cursors to
the empty ring and to 6, but leaves the end-of-stream flag set. -/
theorem onRequest_empty_fifo_keeps_end_flag :
    servedOne.qoCache = [] ∧ servedOne.bReachedEnd = true ∧ servedOne.m_nAnswIdx = 0 ∧
      (onRequest oneItem { servedOne with m_nReqIdx := 5 }).map (fun w => w.bReachedEnd)
        = some true ∧
      (onRequest oneItem { servedOne with m_nReqIdx := 5 }).map
          (fun w => (w.qoCache, w.nFirstBufferIdx, w.nNextBufferIdx)) =
        some ([], SIZE_MAX, SIZE_MAX) ∧
      (onRequest oneItem { servedOne with m_nReqIdx := 5 }).map
          (fun w => (w.m_nAnswIdx, w.nNextExpectedReqIdx, w.nNextPrecacheIdx, w.m_oReqPacket)) =
        some (5, 6, 6, .own (oneItem 5)) := by
  refine ⟨by decide, by decide, by decide, by decide, by decide, by decide⟩

theorem Handshake_single (evs : List WorkerEvent) (timedOut : Bool)
    (h : WorkerEvent.wake ∈ evs) : Handshake [⟨evs, timedOut⟩] := by
  refine ⟨fun o ho _ => ?_, ⟨_, List.mem_singleton.2 rfl, h⟩⟩
  rw [List.mem_singleton.1 ho]; exact h

theorem tenItems_fits_min : Fits tenItems (max (min 1 CACHE_MIN_SIZE) CACHE_MIN_SIZE) := by
  intro i
  unfold tenItems
  split_ifs <;> simp [Mat.byteSize, emptyMat, W, CACHE_MIN_SIZE]

theorem everyFrame_fits_min : Fits everyFrame (max (min 1 CACHE_MIN_SIZE) CACHE_MIN_SIZE) := by
  intro i
  simp [everyFrame, Mat.byteSize, W, CACHE_MIN_SIZE]

/-- The active path of `getPacket` without spurious wake-ups: whenever the call
returns, the worker has answered the requested index and that answer is the
retained packet; the call returns once the worker has woken up for it. -/
theorem getPacket_active (cb : Nat → Mat) (B : Nat) (hfit : Fits cb B) (p : DataPrecacher)
    (nIdx : Nat) (waits : List WaitOutcome) (hact : p.m_bIsActive = true)
    (hr : Reach cb B p.worker) (hi : nIdx < W) (hne : nIdx ≠ p.m_nLastReqIdx)
    (hns : NoSpurious waits) :
    (∀ q r, getPacket cb nIdx waits p = some (q, r) →
      q.worker.m_nAnswIdx = nIdx ∧ q.m_nLastReqIdx = nIdx ∧ q.worker.m_nReqIdx = nIdx ∧
      r = q.m_oLastReqPacket ∧ q.m_oLastReqPacket = q.worker.m_oReqPacket ∧
      q.m_bIsActive = true ∧ Reach cb B q.worker) ∧
    ((∃ o ∈ waits, WorkerEvent.wake ∈ o.worker) →
      ∃ q r, getPacket cb nIdx waits p = some (q, r)) := by
  have hr1 : Reach cb B ({ p.worker with m_nReqIdx := nIdx }) := Reach.publish _ _ hi hr
  have hget : getPacket cb nIdx waits p =
      (getPacketWait cb waits { p with worker := { p.worker with m_nReqIdx := nIdx } }).map
        (fun q => (q, q.m_oLastReqPacket)) := by
    unfold getPacket
    rw [if_neg hne, if_neg (by simp [hact])]
  rw [hget]
  by_cases heq : nIdx = p.worker.m_nAnswIdx
  · cases waits with
    | nil =>
      refine ⟨fun q r hq => ?_, fun ⟨o, ho, _⟩ => ?_⟩
      · simp [getPacketWait] at hq
      · simp at ho
    | cons o os =>
      obtain ⟨q, hq, a1, a2, a3, a4, a5⟩ := getPacketWait_same cb B hfit o os
        { p with worker := { p.worker with m_nReqIdx := nIdx } } hr1 heq
      rw [hq]
      refine ⟨fun q1 r h => ?_, fun _ => ⟨q, q.m_oLastReqPacket, rfl⟩⟩
      simp only [Option.map_some', Option.some.injEq, Prod.mk.injEq] at h
      obtain ⟨rfl, rfl⟩ := h
      exact ⟨a3.2.1.trans heq.symm, a1, a3.1, rfl, a4, a5.trans hact, a2⟩
  · obtain ⟨h1, h2⟩ := getPacketWait_spec cb B hfit waits
      { p with worker := { p.worker with m_nReqIdx := nIdx } } hr1 heq hns
    refine ⟨fun q r h => ?_, fun hex => ?_⟩
    · cases hw : getPacketWait cb waits
          { p with worker := { p.worker with m_nReqIdx := nIdx } } with
      | none => rw [hw] at h; simp at h
      | some q1 =>
        rw [hw] at h
        simp only [Option.map_some', Option.some.injEq, Prod.mk.injEq] at h
        obtain ⟨rfl, rfl⟩ := h
        obtain ⟨b1, b2, b3, b4, b5, b6, _⟩ := h1 q1 hw
        exact ⟨b4, b5, b3, rfl, b6, b2.trans hact, b1⟩
    · obtain ⟨q, hq⟩ := h2 hex
      exact ⟨q, q.m_oLastReqPacket, by rw [hq]; rfl⟩


/-- C1 (counterexample): on a started precacher whose loader has a packet at
every index, the first request, for index `size_t(-1)`, is a valid handshake
but returns the initial empty matrix, which is not the loader packet. -/
theorem getPacket_sentinel_index_counterexample :
    (startAsyncPrecaching CACHE_MIN_SIZE everyFrame 1 0 DataPrecacher.construct).2 = true ∧
      ValidOp (Op.get SIZE_MAX [⟨[WorkerEvent.wake], false⟩]) ∧
      (runOps everyFrame [Op.get SIZE_MAX [⟨[WorkerEvent.wake], false⟩]] startedEvery).map
          Prod.snd = some [emptyMat] ∧
      everyFrame SIZE_MAX ≠ emptyMat :=
  ⟨by decide, ⟨by decide, Handshake_single _ _ (by decide)⟩, by decide, by decide⟩

/-- C1 (amended): for a pure loader whose packets fit the address space with
the arena, on a freshly constructed and started precacher, every sequence of
`getPacket` calls (each one handshake, in any order of indices, with any worker
timeouts and wake-ups in between) returns for each call the loader packet of
the requested index, except that `size_t(-1)` requested before any other index
returns the initial empty matrix; no call fails. -/
theorem getPacket_sequence (MAXSZ : Nat) (cb : Nat → Mat) (hint clock : Nat) (hh : 0 < hint)
    (hfit : Fits cb (max (min hint MAXSZ) CACHE_MIN_SIZE)) (ops : List Op)
    (hv : ∀ op ∈ ops, ValidOp op) :
    ∃ p1, runOps cb ops (startAsyncPrecaching MAXSZ cb hint clock DataPrecacher.construct).1 =
      some (p1, expectedResults cb true ops) :=
  runOps_spec cb _ hfit ops true _ (SysInv_start MAXSZ cb hint clock hh hfit) hv

theorem getPacket_sequence_witness :
    ∃ p1, runOps tenItems
        [Op.get 0 [⟨[WorkerEvent.timeout 3, WorkerEvent.wake], false⟩],
          Op.idle [WorkerEvent.timeout 2],
          Op.get 7 [⟨[WorkerEvent.wake], true⟩],
          Op.get 2 [⟨[WorkerEvent.wake, WorkerEvent.timeout 4], false⟩]]
        (startAsyncPrecaching CACHE_MIN_SIZE tenItems 1 3 DataPrecacher.construct).1 =
      some (p1, [tenItems 0, tenItems 7, tenItems 2]) :=
  getPacket_sequence CACHE_MIN_SIZE tenItems 1 3 (by decide) tenItems_fits_min _ (by
    intro op hop
    simp only [List.mem_cons, List.mem_singleton, List.not_mem_nil, or_false] at hop
    rcases hop with rfl | rfl | rfl | rfl
    · exact ⟨by decide, Handshake_single _ _ (by decide)⟩
    · trivial
    · exact ⟨by decide, Handshake_single _ _ (by decide)⟩
    · exact ⟨by decide, Handshake_single _ _ (by decide)⟩)

/-- C9: with no background worker active and an index that differs from the
last locally returned one, `getPacket(index)` calls the loader once, with that
index (one entry is added to the call log), returns `loader(index)` and retains
it, and the last locally returned index becomes `index`; nothing else changes. -/
theorem getPacket_inactive (cb : Nat → Mat) (p : DataPrecacher) (nIdx : Nat)
    (waits : List WaitOutcome) (hin : p.m_bIsActive = false) (hne : nIdx ≠ p.m_nLastReqIdx) :
    getPacket cb nIdx waits p =
      some ({ p with
        m_oLastReqPacket := .own (cb nIdx)
        m_nLastReqIdx := nIdx
        worker := { p.worker with calls := p.worker.calls ++ [nIdx] } }, .own (cb nIdx)) ∧
    ∀ buf, deref buf (.own (cb nIdx)) = cb nIdx := by
  refine ⟨?_, fun _ => rfl⟩
  unfold getPacket
  rw [if_neg hne, if_pos hin]

theorem getPacket_inactive_witness :
    getPacket tenItems 4 [] DataPrecacher.construct =
      some ({ DataPrecacher.construct with
        m_oLastReqPacket := .own (tenItems 4)
        m_nLastReqIdx := 4
        worker := { DataPrecacher.construct.worker with
          calls := DataPrecacher.construct.worker.calls ++ [4] } }, .own (tenItems 4)) ∧
    ∀ buf, deref buf (.own (tenItems 4)) = tenItems 4 :=
  getPacket_inactive tenItems DataPrecacher.construct 4 [] rfl (by decide)

/-- C10 (the code at the failing input): after `getPacket(0)` was answered, a
call of `getPacket(3)` whose first wait ends by a wake-up during which the
worker did nothing returns at once; the index it adopts is 0, not 3, and the
packet it returns is the one of index 0. -/
theorem getPacket_returns_on_spurious_wakeup :
    ((getPacket tenItems 0 [⟨[WorkerEvent.wake], false⟩] startedTen).bind
        (fun a => getPacket tenItems 3 [⟨[], false⟩] a.1)).map
      (fun a => (a.1.m_nLastReqIdx, a.1.worker.m_nAnswIdx, deref a.1.worker.vcBuffer a.2)) =
    some (0, 0, tenItems 0) := by
  decide

/-- The wait loop of `getPacket` without spurious wake-ups: in active mode, on a
reachable worker state and for an index other than the last locally returned
one, if every wake-up of the consumer is caused by a notification of the
worker, then for every sequence of wait outcomes, whenever `getPacket` returns,
the worker's answered index, which the call adopts as the last locally returned
index, equals the requested index, and the returned packet is the worker's
answer. -/
theorem getPacket_adopts_requested_index (cb : Nat → Mat) (B : Nat) (hfit : Fits cb B)
    (p q : DataPrecacher) (nIdx : Nat) (waits : List WaitOutcome) (r : MatRef)
    (hact : p.m_bIsActive = true) (hr : Reach cb B p.worker) (hi : nIdx < W)
    (hne : nIdx ≠ p.m_nLastReqIdx) (hns : NoSpurious waits)
    (hget : getPacket cb nIdx waits p = some (q, r)) :
    q.worker.m_nAnswIdx = nIdx ∧ q.m_nLastReqIdx = nIdx ∧ q.worker.m_nReqIdx = nIdx ∧
      r = q.m_oLastReqPacket ∧ q.m_oLastReqPacket = q.worker.m_oReqPacket := by
  obtain ⟨a1, a2, a3, a4, a5, _⟩ :=
    (getPacket_active cb B hfit p nIdx waits hact hr hi hne hns).1 q r hget
  exact ⟨a1, a2, a3, a4, a5⟩


theorem getPacket_adopts_requested_index_witness :
    ∃ q r, getPacket tenItems 0
        [⟨[WorkerEvent.timeout 1], true⟩, ⟨[WorkerEvent.wake], false⟩] startedTen = some (q, r) ∧
      (q.worker.m_nAnswIdx = 0 ∧ q.m_nLastReqIdx = 0 ∧ q.worker.m_nReqIdx = 0 ∧
        r = q.m_oLastReqPacket ∧ q.m_oLastReqPacket = q.worker.m_oReqPacket) := by
  have hr : Reach tenItems (max (min 1 CACHE_MIN_SIZE) CACHE_MIN_SIZE) startedTen.worker :=
    (SysInv_start CACHE_MIN_SIZE tenItems 1 3 (by decide) tenItems_fits_min).2.1
  have hns : NoSpurious [⟨[WorkerEvent.timeout 1], true⟩, ⟨[WorkerEvent.wake], false⟩] := by
    intro o ho hf
    simp only [List.mem_cons, List.mem_singleton, List.not_mem_nil, or_false] at ho
    rcases ho with rfl | rfl
    · cases hf
    · decide
  obtain ⟨q, r, h⟩ := (getPacket_active tenItems _ tenItems_fits_min startedTen 0 _ rfl hr
    (by decide) (by decide) hns).2 ⟨⟨[WorkerEvent.wake], false⟩, by simp, by decide⟩
  exact ⟨q, r, h, getPacket_adopts_requested_index tenItems _ tenItems_fits_min startedTen q 0 _ r
    rfl hr (by decide) (by decide) hns h⟩

theorem startAsyncPrecaching_pos (MAXSZ : Nat) (cb : Nat → Mat) (hint clock : Nat)
    (p : DataPrecacher) (hh : 0 < hint) :
    (startAsyncPrecaching MAXSZ cb hint clock p).2 = true ∧
      (startAsyncPrecaching MAXSZ cb hint clock p).1.m_bIsActive = true ∧
      (startAsyncPrecaching MAXSZ cb hint clock p).1.worker.nBufferSize =
        max (min hint MAXSZ) CACHE_MIN_SIZE := by
  unfold startAsyncPrecaching
  simp only [gt_iff_lt, hh, if_true]
  refine ⟨trivial, trivial, ?_⟩
  rw [prefillLoop_nBufferSize]
  rfl

theorem startAsyncPrecaching_zero (MAXSZ : Nat) (cb : Nat → Mat) (clock : Nat)
    (p : DataPrecacher) :
    (startAsyncPrecaching MAXSZ cb 0 clock p).2 = false ∧
      (startAsyncPrecaching MAXSZ cb 0 clock p).1.m_bIsActive = false ∧
      (startAsyncPrecaching MAXSZ cb 0 clock p).1.worker = p.worker := by
  unfold startAsyncPrecaching stopAsyncPrecaching
  cases h : p.m_bIsActive <;> simp [h]

/-- C8 (counterexample): a buffer size hint of 0 is not clamped: no worker is
started, `startAsyncPrecaching` returns false, and
`IIDataLoader::startPrecaching` fails its assertion. -/
theorem startAsyncPrecaching_zero_hint_counterexample :
    (startAsyncPrecaching (1024 * CACHE_MIN_SIZE) tenItems 0 3 DataPrecacher.construct).2
        = false ∧
      (startAsyncPrecaching (1024 * CACHE_MIN_SIZE) tenItems 0 3
        DataPrecacher.construct).1.m_bIsActive = false ∧
      (IIDataLoader.startPrecaching (1024 * CACHE_MIN_SIZE) tenItems tenItems false 0 3 3
        ⟨DataPrecacher.construct, DataPrecacher.construct⟩).isOk = false := by
  refine ⟨by decide, by decide, by decide⟩

/-- C8 (amended): with `CACHE_MIN_SIZE <= CACHE_MAX_SIZE`, for every buffer size
hint greater than 0, `startAsyncPrecaching` starts the worker with the hint
clamped into `[CACHE_MIN_SIZE, CACHE_MAX_SIZE]` as arena size and returns true,
and `IIDataLoader::startPrecaching` passes its assertions; for the hint 0 no
worker is started, the precacher is left inactive, false is returned, and
`IIDataLoader::startPrecaching` fails its assertion. -/
theorem startAsyncPrecaching_clamps (MAXSZ : Nat) (cb cbGT : Nat → Mat)
    (hint clock clockGT : Nat) (bPrecacheGT : Bool) (p : DataPrecacher) (l : IIDataLoader)
    (hM : CACHE_MIN_SIZE ≤ MAXSZ) :
    (0 < hint →
      (startAsyncPrecaching MAXSZ cb hint clock p).2 = true ∧
      (startAsyncPrecaching MAXSZ cb hint clock p).1.m_bIsActive = true ∧
      (startAsyncPrecaching MAXSZ cb hint clock p).1.worker.nBufferSize =
        max (min hint MAXSZ) CACHE_MIN_SIZE ∧
      CACHE_MIN_SIZE ≤ (startAsyncPrecaching MAXSZ cb hint clock p).1.worker.nBufferSize ∧
      (startAsyncPrecaching MAXSZ cb hint clock p).1.worker.nBufferSize ≤ MAXSZ ∧
      (CACHE_MIN_SIZE ≤ hint → hint ≤ MAXSZ →
        (startAsyncPrecaching MAXSZ cb hint clock p).1.worker.nBufferSize = hint) ∧
      (IIDataLoader.startPrecaching MAXSZ cb cbGT bPrecacheGT hint clock clockGT l).isOk
        = true) ∧
    (hint = 0 →
      (startAsyncPrecaching MAXSZ cb hint clock p).2 = false ∧
      (startAsyncPrecaching MAXSZ cb hint clock p).1.m_bIsActive = false ∧
      (startAsyncPrecaching MAXSZ cb hint clock p).1.worker = p.worker ∧
      (IIDataLoader.startPrecaching MAXSZ cb cbGT bPrecacheGT hint clock clockGT l).isOk
        = false) := by
  constructor
  · intro hh
    obtain ⟨h1, h2, h3⟩ := startAsyncPrecaching_pos MAXSZ cb hint clock p hh
    refine ⟨h1, h2, h3, ?_, ?_, ?_, ?_⟩
    · rw [h3]; exact le_max_right _ _
    · rw [h3]; exact max_le (min_le_right _ _) hM
    · intro ha hb
      rw [h3, min_eq_left hb, max_eq_left ha]
    · have i1 := (startAsyncPrecaching_pos MAXSZ cb hint clock l.m_oInputPrecacher hh).1
      have i2 := (startAsyncPrecaching_pos MAXSZ cbGT hint clockGT l.m_oGTPrecacher hh).1
      unfold IIDataLoader.startPrecaching
      simp only [i1, i2]
      cases bPrecacheGT <;> simp [Except.isOk, Except.toBool]
  · intro h0
    subst h0
    obtain ⟨h1, h2, h3⟩ := startAsyncPrecaching_zero MAXSZ cb clock p
    refine ⟨h1, h2, h3, ?_⟩
    have i1 := (startAsyncPrecaching_zero MAXSZ cb clock l.m_oInputPrecacher).1
    unfold IIDataLoader.startPrecaching
    simp [i1, Except.isOk, Except.toBool]

theorem startAsyncPrecaching_clamps_witness :
    (startAsyncPrecaching (1024 * CACHE_MIN_SIZE) tenItems 1 3 DataPrecacher.construct).2
        = true ∧
      (startAsyncPrecaching (1024 * CACHE_MIN_SIZE) tenItems 1 3
        DataPrecacher.construct).1.worker.nBufferSize = CACHE_MIN_SIZE ∧
      (IIDataLoader.startPrecaching (1024 * CACHE_MIN_SIZE) tenItems tenItems true 1 3 3
        ⟨DataPrecacher.construct, DataPrecacher.construct⟩).isOk = true :=
  have h := (startAsyncPrecaching_clamps (1024 * CACHE_MIN_SIZE) tenItems tenItems 1 3 3 true
    DataPrecacher.construct ⟨DataPrecacher.construct, DataPrecacher.construct⟩
    (by decide)).1 (by decide)
  ⟨h.1, h.2.2.1, h.2.2.2.2.2.2⟩

theorem nineItems_fits_min : Fits nineItems (max (min 1 CACHE_MIN_SIZE) CACHE_MIN_SIZE) := by
  intro i
  unfold nineItems
  split_ifs <;> simp [Mat.byteSize, emptyMat, W, CACHE_MIN_SIZE]

/-- C19: in every reachable worker state, the test of the worker for its fast
path, `m_nReqIdx == nNextExpectedReqIdx-1` in `size_t` arithmetic, holds exactly
when the request is the last answered index, and in that case the handling
leaves the whole worker state unchanged (answered packet and index, FIFO, ring
offsets and both cursors). -/
theorem worker_fast_path (cb : Nat → Mat) (B : Nat) (hfit : Fits cb B) (w : Worker)
    (h : Reach cb B w) :
    (w.m_nReqIdx = (w.nNextExpectedReqIdx + W - 1) % W ↔ w.m_nReqIdx = w.m_nAnswIdx) ∧
      (w.m_nReqIdx = w.m_nAnswIdx → onRequest cb w = some w) ∧
      (w.m_nReqIdx ≠ w.m_nAnswIdx → ∀ w1, onRequest cb w = some w1 →
        w1.m_oReqPacket ≠ w.m_oReqPacket ∨ w1.m_nAnswIdx ≠ w.m_nAnswIdx) := by
  obtain ⟨hinv, hB⟩ := Reach_inv cb B hfit w h
  refine ⟨fastPath_iff cb w hinv, fun heq => ?_, fun hne w1 he => ?_⟩
  · unfold onRequest
    rw [if_neg (not_not.2 ((fastPath_iff cb w hinv).2 heq))]
  · obtain ⟨w2, he2, _, _, _, hans, _⟩ := WInv_onRequest cb w (hB ▸ hfit) hinv
    rw [he] at he2
    cases he2
    exact Or.inr (fun e => hne (hans.symm.trans e))

theorem worker_fast_path_witness :
    (prefilledTen.m_nReqIdx = (prefilledTen.nNextExpectedReqIdx + W - 1) % W ↔
        prefilledTen.m_nReqIdx = prefilledTen.m_nAnswIdx) ∧
      (prefilledTen.m_nReqIdx = prefilledTen.m_nAnswIdx →
        onRequest tenItems prefilledTen = some prefilledTen) ∧
      (prefilledTen.m_nReqIdx ≠ prefilledTen.m_nAnswIdx → ∀ w1,
        onRequest tenItems prefilledTen = some w1 →
        w1.m_oReqPacket ≠ prefilledTen.m_oReqPacket ∨
          w1.m_nAnswIdx ≠ prefilledTen.m_nAnswIdx) :=
  worker_fast_path tenItems 10 tenItems_fits prefilledTen Reach_prefilledTen

/-- C17 (counterexample): with the loader of ten items at the indices 0 to 9
and a started precacher, the request order 0,1,2,3,9,4 returns the items 0 to 3,
then the item of index 9, which is not the empty sentinel, then the item 4. -/
theorem scenario_index_nine_counterexample :
    (runOps tenItems
        [Op.get 0 [⟨[WorkerEvent.wake], false⟩], Op.get 1 [⟨[WorkerEvent.wake], false⟩],
          Op.get 2 [⟨[WorkerEvent.wake], false⟩], Op.get 3 [⟨[WorkerEvent.wake], false⟩],
          Op.get 9 [⟨[WorkerEvent.wake], false⟩], Op.get 4 [⟨[WorkerEvent.wake], false⟩]]
        startedTen).map Prod.snd =
      some [tenItems 0, tenItems 1, tenItems 2, tenItems 3, tenItems 9, tenItems 4] ∧
    tenItems 9 = ⟨7, [10, 10, 10]⟩ ∧ tenItems 9 ≠ emptyMat := by
  refine ⟨by decide, by decide, by decide⟩

/-- C17 (amended): for a pure loader whose packets fit the address space with
the arena and a freshly started precacher, the request order 0,1,2,3,9,4, each
request one handshake, returns `loader(0)`, `loader(1)`, `loader(2)`,
`loader(3)`, `loader(9)`, `loader(4)`: the items 0 to 4 and, for index 9, what
the loader has at index 9 (the empty sentinel exactly when the loader has no
item there); the request for 4 after the probe of 9 still returns item 4. -/
theorem scenario_probe_then_back (MAXSZ : Nat) (cb : Nat → Mat) (hint clock : Nat)
    (w0 w1 w2 w3 w4 w5 : List WaitOutcome) (hh : 0 < hint)
    (hfit : Fits cb (max (min hint MAXSZ) CACHE_MIN_SIZE))
    (h0 : Handshake w0) (h1 : Handshake w1) (h2 : Handshake w2) (h3 : Handshake w3)
    (h4 : Handshake w4) (h5 : Handshake w5) :
    ∃ p1, runOps cb
        [Op.get 0 w0, Op.get 1 w1, Op.get 2 w2, Op.get 3 w3, Op.get 9 w4, Op.get 4 w5]
        (startAsyncPrecaching MAXSZ cb hint clock DataPrecacher.construct).1 =
      some (p1, [cb 0, cb 1, cb 2, cb 3, cb 9, cb 4]) := by
  have hv : ∀ op ∈ [Op.get 0 w0, Op.get 1 w1, Op.get 2 w2, Op.get 3 w3, Op.get 9 w4,
      Op.get 4 w5], ValidOp op := by
    intro op hop
    simp only [List.mem_cons, List.mem_singleton, List.not_mem_nil, or_false] at hop
    rcases hop with rfl | rfl | rfl | rfl | rfl | rfl
    · exact ⟨by decide, h0⟩
    · exact ⟨by decide, h1⟩
    · exact ⟨by decide, h2⟩
    · exact ⟨by decide, h3⟩
    · exact ⟨by decide, h4⟩
    · exact ⟨by decide, h5⟩
  obtain ⟨p1, hp⟩ := runOps_spec cb _ hfit _ true _ (SysInv_start MAXSZ cb hint clock hh hfit) hv
  refine ⟨p1, ?_⟩
  rw [hp]
  simp [expectedResults, SIZE_MAX]

theorem scenario_probe_then_back_witness :
    (∃ p1, runOps nineItems
        [Op.get 0 [⟨[WorkerEvent.wake], false⟩], Op.get 1 [⟨[WorkerEvent.wake], false⟩],
          Op.get 2 [⟨[WorkerEvent.wake], false⟩], Op.get 3 [⟨[WorkerEvent.wake], false⟩],
          Op.get 9 [⟨[WorkerEvent.wake], false⟩], Op.get 4 [⟨[WorkerEvent.wake], false⟩]]
        (startAsyncPrecaching CACHE_MIN_SIZE nineItems 1 3 DataPrecacher.construct).1 =
      some (p1, [nineItems 0, nineItems 1, nineItems 2, nineItems 3, nineItems 9,
        nineItems 4])) ∧ nineItems 9 = emptyMat :=
  ⟨scenario_probe_then_back CACHE_MIN_SIZE nineItems 1 3 _ _ _ _ _ _ (by decide)
    nineItems_fits_min (Handshake_single _ _ (by decide)) (Handshake_single _ _ (by decide))
    (Handshake_single _ _ (by decide)) (Handshake_single _ _ (by decide))
    (Handshake_single _ _ (by decide)) (Handshake_single _ _ (by decide)), by decide⟩

theorem mem_mapAssign (k : Nat) (v : Mat) (m : List (Nat × Mat)) (x : Nat × Mat) :
    x ∈ mapAssign k v m → x = (k, v) ∨ x ∈ m := by
  induction m with
  | nil => intro h; simp [mapAssign] at h; exact Or.inl h
  | cons e rest ih =>
    intro h
    unfold mapAssign at h
    split_ifs at h with h1 h2
    · rcases List.mem_cons.1 h with rfl | h
      · exact Or.inl rfl
      · exact Or.inr h
    · rcases List.mem_cons.1 h with rfl | h
      · exact Or.inl rfl
      · exact Or.inr (List.mem_cons_of_mem _ h)
    · rcases List.mem_cons.1 h with rfl | h
      · exact Or.inr (List.mem_cons_self _ _)
      · rcases ih h with h | h
        · exact Or.inl h
        · exact Or.inr (List.mem_cons_of_mem _ h)

theorem KeysAscending_mapAssign (k : Nat) (v : Mat) (m : List (Nat × Mat))
    (h : KeysAscending m) : KeysAscending (mapAssign k v m) := by
  induction m with
  | nil => exact ⟨fun x hx => absurd hx (List.not_mem_nil _), trivial⟩
  | cons e rest ih =>
    obtain ⟨h1, h2⟩ := h
    unfold mapAssign
    split_ifs with c1 c2
    · refine ⟨fun x hx => ?_, h1, h2⟩
      rcases List.mem_cons.1 hx with rfl | hx
      · exact c1
      · exact lt_trans c1 (h1 x hx)
    · exact ⟨fun x hx => by rw [c2]; exact h1 x hx, h2⟩
    · refine ⟨fun x hx => ?_, ih h2⟩
      rcases mem_mapAssign k v rest x hx with rfl | hx
      · show e.1 < k
        omega
      · exact h1 x hx

theorem pendingBytes_mapAssign (k : Nat) (v : Mat) (m : List (Nat × Mat)) :
    pendingBytes (mapAssign k v m) ≤ pendingBytes m + v.byteSize := by
  induction m with
  | nil => simp [mapAssign, pendingBytes]
  | cons e rest ih =>
    unfold mapAssign
    split_ifs <;> simp only [pendingBytes] <;> omega

theorem length_mapAssign (k : Nat) (v : Mat) (m : List (Nat × Mat)) :
    (mapAssign k v m).length ≤ m.length + 1 := by
  induction m with
  | nil => simp [mapAssign]
  | cons e rest ih =>
    unfold mapAssign
    split_ifs <;> simp only [List.length_cons] <;> omega

theorem lookup_mapAssign_self (k : Nat) (v : Mat) (m : List (Nat × Mat)) :
    (mapAssign k v m).lookup k = some v := by
  induction m with
  | nil => simp [mapAssign, List.lookup]
  | cons e rest ih =>
    unfold mapAssign
    split_ifs with c1 c2
    · simp [List.lookup]
    · simp [List.lookup]
    · have : (k == e.1) = false := by simpa using c2
      obtain ⟨a, b⟩ := e
      simp only [List.lookup, this, ih]

theorem lookup_mapAssign_other (k j : Nat) (v : Mat) (m : List (Nat × Mat)) (hj : j ≠ k) :
    (mapAssign k v m).lookup j = m.lookup j := by
  have hjk : (j == k) = false := by simpa using hj
  induction m with
  | nil => simp [mapAssign, List.lookup, hjk]
  | cons e rest ih =>
    obtain ⟨a, b⟩ := e
    unfold mapAssign
    split_ifs with c1 c2
    · simp only [List.lookup, hjk]
    · have c2 : k = a := c2
      subst c2
      simp only [List.lookup, hjk]
    · cases hja : (j == a) with
      | true => simp only [List.lookup, hja]
      | false => simp only [List.lookup, hja, ih]

theorem countP_lt_eq_zero (k : Nat) (m : List (Nat × Mat)) (h : ∀ x ∈ m, k ≤ x.1) :
    m.countP (fun e => decide (e.1 < k)) = 0 := by
  rw [List.countP_eq_zero]
  intro x hx
  have := h x hx
  simp only [decide_eq_true_eq]
  omega

/-- The position returned for a queued index is the number of pending entries
with a smaller index. -/
theorem mapPosition_mapAssign (k : Nat) (v : Mat) (m : List (Nat × Mat))
    (h : KeysAscending m) :
    mapPosition k (mapAssign k v m) = (mapAssign k v m).countP (fun e => decide (e.1 < k)) := by
  induction m with
  | nil => simp [mapAssign, mapPosition, List.findIdx_cons, List.countP_cons]
  | cons e rest ih =>
    obtain ⟨h1, h2⟩ := h
    unfold mapAssign
    split_ifs with c1 c2
    · have hz := countP_lt_eq_zero k (e :: rest) (fun x hx => by
        rcases List.mem_cons.1 hx with rfl | hx
        · omega
        · have := h1 x hx; omega)
      simp [mapPosition, List.findIdx_cons, List.countP_cons, hz]
    · have hz := countP_lt_eq_zero k rest (fun x hx => by have := h1 x hx; omega)
      simp [mapPosition, List.findIdx_cons, List.countP_cons, hz]
    · have hlt : e.1 < k := by omega
      have hne : (e.1 == k) = false := by simpa using fun e1 => c2 e1.symm
      have ih1 := ih h2
      unfold mapPosition at ih1 ⊢
      rw [List.findIdx_cons, hne, List.countP_cons]
      simp only [cond_false, hlt, decide_True, if_true]
      rw [ih1]

theorem mapPosition_le (k : Nat) (m : List (Nat × Mat)) : mapPosition k m ≤ m.length := by
  unfold mapPosition
  exact List.findIdx_le_length _


/-- The result of `queue` on an active writer, by case: blocked, dropped or
inserted. -/
theorem queue_cases (cb : Mat → Nat → Nat) (oPacket : Mat) (nIdx : Nat) (s : DataWriter)
    (hact : s.m_bIsActive = true) :
    (s.m_bAllowPacketDrop = false ∧
      (s.m_nQueueSize + oPacket.byteSize) % W > s.m_nQueueMaxSize ∧
      s.queue cb oPacket nIdx = none) ∨
    (s.m_bAllowPacketDrop = true ∧
      (s.m_nQueueSize + oPacket.byteSize) % W > s.m_nQueueMaxSize ∧
      s.queue cb oPacket nIdx = some (SIZE_MAX, s)) ∨
    ((s.m_nQueueSize + oPacket.byteSize) % W ≤ s.m_nQueueMaxSize ∧
      s.queue cb oPacket nIdx =
        some (mapPosition nIdx (mapAssign nIdx oPacket s.m_mQueue),
          { s with
            m_mQueue := mapAssign nIdx oPacket s.m_mQueue
            m_nQueueSize := (s.m_nQueueSize + oPacket.byteSize) % W
            m_nQueueCount := s.m_nQueueCount + 1 })) := by
  unfold DataWriter.queue
  rw [if_neg (by simp [hact])]
  by_cases hfit : (s.m_nQueueSize + oPacket.byteSize) % W ≤ s.m_nQueueMaxSize
  · right; right
    refine ⟨hfit, ?_⟩
    rw [if_neg (fun h => absurd hfit (by omega)), if_pos hfit]
  · by_cases hd : s.m_bAllowPacketDrop = false
    · left
      refine ⟨hd, by omega, ?_⟩
      rw [if_pos ⟨hd, by omega⟩]
    · right; left
      refine ⟨by simpa using hd, by omega, ?_⟩
      rw [if_neg (fun h => hd h.1), if_neg hfit]

/-- The result of a dequeue step when the invariant holds. -/
theorem dequeue_cases (s : DataWriter) (h : QInv s) :
    (s.m_mQueue = [] ∧ ∃ s1, s.dequeue = .ok s1 ∨ s.dequeue = .error
      "data writer notified for missing packet") ∨
    (∃ e rest, s.m_mQueue = e :: rest ∧ (∀ x ∈ rest, e.1 < x.1) ∧
      e.2.byteSize ≤ s.m_nQueueSize ∧ 0 < s.m_nQueueCount ∧
      s.dequeue = .ok { s with
        m_nQueueSize := s.m_nQueueSize - e.2.byteSize
        m_mQueue := rest
        m_nQueueCount := s.m_nQueueCount - 1
        written := s.written ++ [e] }) := by
  obtain ⟨_, _, hk, hb, hl⟩ := h
  cases hm : s.m_mQueue with
  | nil =>
    left
    refine ⟨rfl, s, ?_⟩
    unfold DataWriter.dequeue
    rw [hm]
    split_ifs
    · exact Or.inr rfl
    · exact Or.inl rfl
  | cons e rest =>
    right
    rw [hm] at hk hb hl
    have hsz : e.2.byteSize ≤ s.m_nQueueSize := by
      simp only [pendingBytes] at hb; omega
    have hc : 0 < s.m_nQueueCount := by
      simp only [List.length_cons] at hl; omega
    refine ⟨e, rest, rfl, hk.1, hsz, hc, ?_⟩
    unfold DataWriter.dequeue
    rw [if_pos hc, hm]
    simp only []
    rw [if_pos hsz]

theorem QInv_dequeue (s s1 : DataWriter) (h : QInv s) (he : s.dequeue = .ok s1) : QInv s1 := by
  have h0 := h
  obtain ⟨hact, hsz, hk, hb, hl⟩ := h0
  rcases dequeue_cases s h with ⟨hm, _⟩ | ⟨e, rest, hm, h1, h2, h3, hd⟩
  · unfold DataWriter.dequeue at he
    rw [hm] at he
    split_ifs at he
    cases he
    exact h
  · rw [hd] at he
    cases he
    rw [hm] at hk hb hl
    simp only [pendingBytes, List.length_cons] at hb hl
    exact ⟨hact, by show s.m_nQueueSize - e.2.byteSize ≤ s.m_nQueueMaxSize; omega, hk.2,
      by show pendingBytes rest ≤ s.m_nQueueSize - e.2.byteSize; omega,
      by show rest.length ≤ s.m_nQueueCount - 1; omega⟩

theorem QInv_queue (cb : Mat → Nat → Nat) (oPacket : Mat) (nIdx pos : Nat) (s s1 : DataWriter)
    (h : QInv s) (hfit : oPacket.byteSize + s.m_nQueueMaxSize < W)
    (he : s.queue cb oPacket nIdx = some (pos, s1)) :
    QInv s1 ∧ s1.m_nQueueMaxSize = s.m_nQueueMaxSize := by
  have h0 := h
  obtain ⟨hact, hsz, hk, hb, hl⟩ := h0
  have hmod : (s.m_nQueueSize + oPacket.byteSize) % W = s.m_nQueueSize + oPacket.byteSize :=
    Nat.mod_eq_of_lt (by omega)
  rcases queue_cases cb oPacket nIdx s hact with ⟨_, _, hq⟩ | ⟨_, _, hq⟩ | ⟨hle, hq⟩
  · rw [hq] at he; cases he
  · rw [hq] at he; cases he; exact ⟨h, rfl⟩
  · rw [hq] at he
    cases he
    rw [hmod] at hle
    have hp := pendingBytes_mapAssign nIdx oPacket s.m_mQueue
    have hlen := length_mapAssign nIdx oPacket s.m_mQueue
    refine ⟨⟨hact, ?_, KeysAscending_mapAssign _ _ _ hk, ?_, ?_⟩, rfl⟩
    · show (s.m_nQueueSize + oPacket.byteSize) % W ≤ s.m_nQueueMaxSize
      rw [hmod]; exact hle
    · show pendingBytes (mapAssign nIdx oPacket s.m_mQueue) ≤
        (s.m_nQueueSize + oPacket.byteSize) % W
      rw [hmod]; omega
    · show (mapAssign nIdx oPacket s.m_mQueue).length ≤ s.m_nQueueCount + 1
      omega

theorem startAsyncWriting_pos (MAXSZ hint nWorkers : Nat) (bDrop : Bool) (s0 s : DataWriter)
    (b : Bool) (hh : 0 < hint) (he : s0.startAsyncWriting MAXSZ hint bDrop nWorkers = .ok (s, b)) :
    b = true ∧ s.m_bIsActive = true ∧ s.m_bAllowPacketDrop = bDrop ∧
      s.m_nQueueMaxSize = (if hint > MAXSZ then MAXSZ else hint) ∧
      s.m_nQueueSize = 0 ∧ s.m_nQueueCount = 0 ∧ s.m_mQueue = [] := by
  unfold DataWriter.startAsyncWriting at he
  split at he
  · cases he
  · rw [if_pos hh] at he
    cases he
    exact ⟨rfl, rfl, rfl, rfl, rfl, rfl, rfl⟩

/-- Every reachable writer state satisfies the invariant. -/
theorem WReach_inv (cb : Mat → Nat → Nat) (s : DataWriter) (h : WReach cb s) : QInv s := by
  induction h with
  | start MAXSZ hint n bDrop s0 s b hh he =>
    obtain ⟨_, h1, _, _, h4, h5, h6⟩ := startAsyncWriting_pos MAXSZ hint n bDrop s0 s b hh he
    refine ⟨h1, by omega, ?_, ?_, ?_⟩
    · rw [h6]; trivial
    · rw [h6]; simp [pendingBytes]
    · rw [h6]; simp
  | queue s s1 oPacket nIdx pos _ _ hfit he ih => exact (QInv_queue cb oPacket nIdx pos s s1 ih hfit he).1
  | dequeue s s1 _ he ih => exact QInv_dequeue s s1 ih he

theorem WReach_dropWriter (cb : Mat → Nat → Nat) : WReach cb dropWriter :=
  WReach.start 100 12 1 true DataWriter.construct dropWriter true (by decide) rfl

theorem mapPosition_mapAssign_le (k : Nat) (v : Mat) (m : List (Nat × Mat)) :
    mapPosition k (mapAssign k v m) ≤ m.length := by
  induction m with
  | nil => simp [mapAssign, mapPosition, List.findIdx_cons]
  | cons e rest ih =>
    unfold mapAssign
    split_ifs with c1 c2
    · simp [mapPosition, List.findIdx_cons]
    · simp [mapPosition, List.findIdx_cons]
    · have hne : (e.1 == k) = false := by simpa using fun e1 => c2 e1.symm
      unfold mapPosition at ih ⊢
      rw [List.findIdx_cons, hne]
      simp only [cond_false, List.length_cons]
      omega

/-- With the drop policy, a budget of three packets of `sz` bytes and `j`
packets already counted, queueing packets of `sz` bytes accepts the next
`3 - j` calls and reports all later ones as dropped. -/
theorem drop_run (cb : Mat → Nat → Nat) (sz : Nat) (hsz : 0 < sz) (h3 : 4 * sz < W) :
    ∀ (calls : List (Mat × Nat)) (s : DataWriter) (j : Nat), s.m_bIsActive = true →
      s.m_bAllowPacketDrop = true → s.m_nQueueMaxSize = 3 * sz → s.m_nQueueSize = j * sz →
      j ≤ 3 → s.m_mQueue.length ≤ j → (∀ c ∈ calls, c.1.byteSize = sz) →
      ∃ s1 ps, runWriter cb (calls.map (fun c => WriterOp.queue c.1 c.2)) s = some (s1, ps) ∧
        ps.length = calls.length ∧ (∀ p ∈ ps.take (3 - j), p ≠ SIZE_MAX) ∧
        ps.drop (3 - j) = List.replicate (calls.length - (3 - j)) SIZE_MAX := by
  intro calls
  induction calls with
  | nil =>
    intro s j _ _ _ _ _ _ _
    exact ⟨s, [], rfl, rfl, by simp, by simp⟩
  | cons c rest ih =>
    intro s j hact hdrop hmax hsize hj hlen hall
    have hc : c.1.byteSize = sz := hall c (List.mem_cons_self _ _)
    have hrest : ∀ x ∈ rest, x.1.byteSize = sz := fun x hx => hall x (List.mem_cons_of_mem _ hx)
    have hjsz : j * sz ≤ 3 * sz := Nat.mul_le_mul_right sz hj
    have hmod : (s.m_nQueueSize + c.1.byteSize) % W = j * sz + sz := by
      rw [hsize, hc]; exact Nat.mod_eq_of_lt (by simp only [W] at *; omega)
    rcases queue_cases cb c.1 c.2 s hact with ⟨hd, _, _⟩ | ⟨_, hgt, hq⟩ | ⟨hle, hq⟩
    · rw [hdrop] at hd; cases hd
    · rw [hmod, hmax] at hgt
      have hj3 : j = 3 := by
        by_contra hne
        have : j + 1 ≤ 3 := by omega
        have := Nat.mul_le_mul_right sz this
        rw [Nat.add_mul, Nat.one_mul] at this
        omega
      obtain ⟨s1, ps, hrun, hl, _, hdr⟩ := ih s j hact hdrop hmax hsize hj hlen hrest
      subst hj3
      refine ⟨s1, SIZE_MAX :: ps, ?_, by simp [hl], by simp, ?_⟩
      · simp only [List.map_cons, runWriter, hq, hrun]
      · simp only [Nat.sub_self, List.drop_zero, Nat.sub_zero, List.length_cons] at hdr ⊢
        rw [hdr, List.replicate_succ]
    · rw [hmod, hmax] at hle
      have hj3 : j < 3 := by
        by_contra hne
        have : j = 3 := by omega
        subst this
        omega
      have hpos := mapPosition_mapAssign_le c.2 c.1 s.m_mQueue
      have hlen1 := length_mapAssign c.2 c.1 s.m_mQueue
      obtain ⟨s1, ps, hrun, hl, htk, hdr⟩ := ih
        { s with
          m_mQueue := mapAssign c.2 c.1 s.m_mQueue
          m_nQueueSize := (s.m_nQueueSize + c.1.byteSize) % W
          m_nQueueCount := s.m_nQueueCount + 1 } (j + 1) hact hdrop hmax
        (by show (s.m_nQueueSize + c.1.byteSize) % W = (j + 1) * sz
            rw [hmod, Nat.add_mul, Nat.one_mul])
        (by omega) (by show (mapAssign c.2 c.1 s.m_mQueue).length ≤ j + 1; omega) hrest
      refine ⟨s1, mapPosition c.2 (mapAssign c.2 c.1 s.m_mQueue) :: ps, ?_, by simp [hl], ?_, ?_⟩
      · simp only [List.map_cons, runWriter, hq, hrun]
      · obtain ⟨i, hi⟩ : ∃ i, 3 - j = i + 1 := ⟨2 - j, by omega⟩
        have hi1 : 3 - (j + 1) = i := by omega
        rw [hi, List.take_succ_cons]
        intro p hp
        rcases List.mem_cons.1 hp with rfl | hp
        · simp only [SIZE_MAX]; omega
        · exact htk p (by rw [hi1]; exact hp)
      · obtain ⟨i, hi⟩ : ∃ i, 3 - j = i + 1 := ⟨2 - j, by omega⟩
        have hi1 : 3 - (j + 1) = i := by omega
        rw [hi, List.drop_succ_cons, ← hi1, hdr]
        congr 1
        simp only [List.length_cons]
        omega

/-- C11: for an active writer in a reachable state, with a packet that fits the
address space and fewer than `SIZE_MAX` pending entries, `queue` returns the
dropped sentinel `SIZE_MAX` if and only if the drop policy is on and the byte
counter plus the packet size exceeds the budget, and then the whole state
(pending map, byte counter, entry count) is unchanged; and with a budget of
exactly three packets of `sz` bytes (`4*sz < 2^64`), the drop policy, an empty
queue and no dequeue in between, ten calls with packets of `sz` bytes all
return, the first three with a position and the other seven with the dropped
sentinel. -/
theorem queue_dropped_iff (cb : Mat → Nat → Nat) (s : DataWriter) (oPacket : Mat) (nIdx : Nat)
    (h : WReach cb s) (hfit : oPacket.byteSize + s.m_nQueueMaxSize < W)
    (hlen : s.m_mQueue.length < SIZE_MAX) :
    ((∃ s1, s.queue cb oPacket nIdx = some (SIZE_MAX, s1)) ↔
      (s.m_bAllowPacketDrop = true ∧ s.m_nQueueSize + oPacket.byteSize > s.m_nQueueMaxSize)) ∧
    (s.m_bAllowPacketDrop = true → s.m_nQueueSize + oPacket.byteSize > s.m_nQueueMaxSize →
      s.queue cb oPacket nIdx = some (SIZE_MAX, s)) ∧
    (∀ (sz : Nat) (calls : List (Mat × Nat)), 0 < sz → 4 * sz < W →
      s.m_bAllowPacketDrop = true → s.m_nQueueMaxSize = 3 * sz → s.m_nQueueSize = 0 →
      s.m_mQueue = [] → calls.length = 10 → (∀ c ∈ calls, c.1.byteSize = sz) →
      ∃ s1 ps, runWriter cb (calls.map (fun c => WriterOp.queue c.1 c.2)) s = some (s1, ps) ∧
        ps.length = 10 ∧ (∀ p ∈ ps.take 3, p ≠ SIZE_MAX) ∧
        ps.drop 3 = List.replicate 7 SIZE_MAX) := by
  have hinv := WReach_inv cb s h
  obtain ⟨hact, hsz, _, _, _⟩ := hinv
  have hmod : (s.m_nQueueSize + oPacket.byteSize) % W = s.m_nQueueSize + oPacket.byteSize :=
    Nat.mod_eq_of_lt (by omega)
  have hdrop : s.m_bAllowPacketDrop = true →
      s.m_nQueueSize + oPacket.byteSize > s.m_nQueueMaxSize →
      s.queue cb oPacket nIdx = some (SIZE_MAX, s) := by
    intro hd hgt
    rcases queue_cases cb oPacket nIdx s hact with ⟨hb, _, _⟩ | ⟨_, _, hq⟩ | ⟨hle, _⟩
    · rw [hd] at hb; cases hb
    · exact hq
    · rw [hmod] at hle; omega
  refine ⟨⟨fun ⟨s1, he⟩ => ?_, fun ⟨hd, hgt⟩ => ⟨s, hdrop hd hgt⟩⟩, hdrop, ?_⟩
  · rcases queue_cases cb oPacket nIdx s hact with ⟨_, _, hq⟩ | ⟨hd, hgt, _⟩ | ⟨_, hq⟩
    · rw [hq] at he; cases he
    · rw [hmod] at hgt; exact ⟨hd, hgt⟩
    · rw [hq] at he
      simp only [Option.some.injEq, Prod.mk.injEq] at he
      have := mapPosition_mapAssign_le nIdx oPacket s.m_mQueue
      omega
  · intro sz calls h0 h3 hd hmax hsize hmap hcl hall
    obtain ⟨s1, ps, hrun, hl, htk, hdr⟩ := drop_run cb sz h0 h3 calls s 0 hact hd hmax
      (by rw [hsize]; simp) (by omega) (by rw [hmap]; simp) hall
    refine ⟨s1, ps, hrun, by rw [hl, hcl], htk, ?_⟩
    rw [hcl] at hdr
    exact hdr

theorem queue_dropped_iff_witness :
    ∃ s1 ps, runWriter archive (tenCalls.map (fun c => WriterOp.queue c.1 c.2)) dropWriter =
        some (s1, ps) ∧ ps.length = 10 ∧ (∀ p ∈ ps.take 3, p ≠ SIZE_MAX) ∧
        ps.drop 3 = List.replicate 7 SIZE_MAX :=
  (queue_dropped_iff archive dropWriter (frame 0) 0 (WReach_dropWriter archive) (by decide)
    (by decide)).2.2 4 tenCalls (by decide) (by decide) rfl rfl rfl rfl (by decide) (by decide)

theorem WReach_twoPending (cb : Mat → Nat → Nat) : WReach cb twoPending :=
  WReach.queue _ _ (frame 2) 2 0
    (WReach.queue _ _ (frame 5) 5 0 (WReach_dropWriter cb) (by decide) (by decide) rfl)
    (by decide) (by decide) rfl

/-- C12: for an active writer in a reachable state and a packet that fits in
the budget, `queue(packet, idx)` inserts: afterwards the pending map maps `idx`
to the packet and every other index to what it mapped to before, the byte
counter has grown by exactly the byte size of the packet, the entry counter by
one, and the returned position is the number of pending entries with an index
smaller than `idx`. -/
theorem queue_inserts (cb : Mat → Nat → Nat) (s : DataWriter) (oPacket : Mat) (nIdx : Nat)
    (h : WReach cb s) (hfit : oPacket.byteSize + s.m_nQueueMaxSize < W)
    (hroom : s.m_nQueueSize + oPacket.byteSize ≤ s.m_nQueueMaxSize) :
    ∃ pos s1, s.queue cb oPacket nIdx = some (pos, s1) ∧
      s1.m_mQueue.lookup nIdx = some oPacket ∧
      (∀ j, j ≠ nIdx → s1.m_mQueue.lookup j = s.m_mQueue.lookup j) ∧
      s1.m_nQueueSize = s.m_nQueueSize + oPacket.byteSize ∧
      s1.m_nQueueCount = s.m_nQueueCount + 1 ∧
      pos = s1.m_mQueue.countP (fun e => decide (e.1 < nIdx)) ∧
      s1.m_mQueue = mapAssign nIdx oPacket s.m_mQueue ∧ s1.written = s.written := by
  obtain ⟨hact, hsz, hk, _, _⟩ := WReach_inv cb s h
  have hmod : (s.m_nQueueSize + oPacket.byteSize) % W = s.m_nQueueSize + oPacket.byteSize :=
    Nat.mod_eq_of_lt (by omega)
  rcases queue_cases cb oPacket nIdx s hact with ⟨_, hgt, _⟩ | ⟨_, hgt, _⟩ | ⟨_, hq⟩
  · rw [hmod] at hgt; omega
  · rw [hmod] at hgt; omega
  · exact ⟨_, _, hq, lookup_mapAssign_self _ _ _,
      fun j hj => lookup_mapAssign_other nIdx j oPacket _ hj, hmod, rfl,
      mapPosition_mapAssign _ _ _ hk, rfl, rfl⟩

theorem queue_inserts_witness :
    ∃ pos s1, twoPending.queue archive (frame 3) 3 = some (pos, s1) ∧
      s1.m_mQueue.lookup 3 = some (frame 3) ∧
      (∀ j, j ≠ 3 → s1.m_mQueue.lookup j = twoPending.m_mQueue.lookup j) ∧
      s1.m_nQueueSize = twoPending.m_nQueueSize + (frame 3).byteSize ∧
      s1.m_nQueueCount = twoPending.m_nQueueCount + 1 ∧
      pos = s1.m_mQueue.countP (fun e => decide (e.1 < 3)) ∧
      s1.m_mQueue = mapAssign 3 (frame 3) twoPending.m_mQueue ∧
      s1.written = twoPending.written :=
  queue_inserts archive twoPending (frame 3) 3 (WReach_twoPending archive) (by decide)
    (by decide)

/-- C13: in every state reachable from `startAsyncWriting` by `queue` calls and
worker dequeue steps, under either policy, the byte counter `m_nQueueSize` is at
most `m_nQueueMaxSize`, and so is the total byte size of the pending packets. -/
theorem queue_size_bounded (cb : Mat → Nat → Nat) (s : DataWriter) (h : WReach cb s) :
    s.m_nQueueSize ≤ s.m_nQueueMaxSize ∧ pendingBytes s.m_mQueue ≤ s.m_nQueueSize ∧
      pendingBytes s.m_mQueue ≤ s.m_nQueueMaxSize := by
  obtain ⟨_, hsz, _, hb, _⟩ := WReach_inv cb s h
  exact ⟨hsz, hb, le_trans hb hsz⟩

theorem queue_size_bounded_witness :
    twoPending.m_nQueueSize ≤ twoPending.m_nQueueMaxSize ∧
      pendingBytes twoPending.m_mQueue ≤ twoPending.m_nQueueSize ∧
      pendingBytes twoPending.m_mQueue ≤ twoPending.m_nQueueMaxSize :=
  queue_size_bounded archive twoPending (WReach_twoPending archive)

/-- C14: in a reachable state with a non-empty pending map, a dequeue step of
the worker removes the first entry of the map, whose index is lower than every
other pending index, decrements the byte counter by the byte size of that entry
and the entry counter by one, leaves the other pending entries as they are, and
passes the index and the packet of that entry to the writer callback. -/
theorem dequeue_lowest (cb : Mat → Nat → Nat) (s : DataWriter) (h : WReach cb s)
    (hne : s.m_mQueue ≠ []) :
    ∃ e rest, s.m_mQueue = e :: rest ∧ (∀ x ∈ rest, e.1 < x.1) ∧
      e.2.byteSize ≤ s.m_nQueueSize ∧ 0 < s.m_nQueueCount ∧
      s.dequeue = .ok { s with
        m_nQueueSize := s.m_nQueueSize - e.2.byteSize
        m_mQueue := rest
        m_nQueueCount := s.m_nQueueCount - 1
        written := s.written ++ [e] } := by
  rcases dequeue_cases s (WReach_inv cb s h) with ⟨hm, _⟩ | hd
  · exact absurd hm hne
  · exact hd

theorem dequeue_lowest_witness :
    ∃ e rest, twoPending.m_mQueue = e :: rest ∧ (∀ x ∈ rest, e.1 < x.1) ∧
      e.2.byteSize ≤ twoPending.m_nQueueSize ∧ 0 < twoPending.m_nQueueCount ∧
      twoPending.dequeue = .ok { twoPending with
        m_nQueueSize := twoPending.m_nQueueSize - e.2.byteSize
        m_mQueue := rest
        m_nQueueCount := twoPending.m_nQueueCount - 1
        written := twoPending.written ++ [e] } :=
  dequeue_lowest archive twoPending (WReach_twoPending archive) (by decide)

theorem OrdInv_step (cb : Mat → Nat → Nat) (n0 : Nat) (op : WriterOp) (ops : List WriterOp)
    (s : DataWriter) (h : OrdInv n0 s) (hq : QueuedAfterWritten cb n0 (op :: ops) s) :
    (∀ oPacket nIdx pos s1, op = .queue oPacket nIdx →
      s.queue cb oPacket nIdx = some (pos, s1) →
      OrdInv n0 s1 ∧ QueuedAfterWritten cb n0 ops s1) ∧
    (∀ s1, op = .dequeue → s.dequeue = .ok s1 →
      OrdInv n0 s1 ∧ QueuedAfterWritten cb n0 ops s1) := by
  obtain ⟨hact, hn, hk, hp, hlt⟩ := h
  constructor
  · rintro oPacket nIdx pos s1 rfl he
    obtain ⟨hq1, hq2⟩ := hq
    refine ⟨?_, hq2 pos s1 he⟩
    rcases queue_cases cb oPacket nIdx s hact with ⟨_, _, e⟩ | ⟨_, _, e⟩ | ⟨_, e⟩
    · rw [e] at he; cases he
    · rw [e] at he; cases he; exact ⟨hact, hn, hk, hp, hlt⟩
    · rw [e] at he
      cases he
      refine ⟨hact, hn, KeysAscending_mapAssign _ _ _ hk, hp, fun d hd x hx => ?_⟩
      rcases mem_mapAssign nIdx oPacket s.m_mQueue x hx with rfl | hx
      · exact hq1 d hd
      · exact hlt d hd x hx
  · rintro s1 rfl he
    refine ⟨?_, hq s1 he⟩
    unfold DataWriter.dequeue at he
    split_ifs at he with hc
    · cases hm : s.m_mQueue with
      | nil => rw [hm] at he; cases he
      | cons e rest =>
        rw [hm] at he
        simp only [] at he
        split_ifs at he
        cases he
        rw [hm] at hk hlt
        have hdrop : (s.written ++ [e]).drop n0 = s.written.drop n0 ++ [e] := by
          rw [List.drop_append_of_le_length hn]
        refine ⟨hact, ?_, hk.2, ?_, ?_⟩
        · show n0 ≤ (s.written ++ [e]).length
          rw [List.length_append]; omega
        · show ((s.written ++ [e]).drop n0).Pairwise _
          rw [hdrop, List.pairwise_append]
          refine ⟨hp, List.pairwise_singleton _ _, fun a ha b hb => ?_⟩
          rw [List.mem_singleton.1 hb]
          exact hlt a ha e (List.mem_cons_self _ _)
        · show ∀ d ∈ (s.written ++ [e]).drop n0, ∀ x ∈ rest, d.1 < x.1
          rw [hdrop]
          intro d hd x hx
          rcases List.mem_append.1 hd with hd | hd
          · exact hlt d hd x (List.mem_cons_of_mem _ hx)
          · rw [List.mem_singleton.1 hd]; exact hk.1 x hx
    · cases he
      exact ⟨hact, hn, hk, hp, hlt⟩

theorem OrdInv_run (cb : Mat → Nat → Nat) (n0 : Nat) :
    ∀ (ops : List WriterOp) (s s1 : DataWriter) (ps : List Nat), OrdInv n0 s →
      QueuedAfterWritten cb n0 ops s → runWriter cb ops s = some (s1, ps) → OrdInv n0 s1 := by
  intro ops
  induction ops with
  | nil =>
    intro s s1 ps h _ hrun
    simp only [runWriter, Option.some.injEq, Prod.mk.injEq] at hrun
    rw [← hrun.1]; exact h
  | cons op ops ih =>
    intro s s1 ps h hq hrun
    obtain ⟨hA, hB⟩ := OrdInv_step cb n0 op ops s h hq
    cases op with
    | queue oPacket nIdx =>
      cases he : s.queue cb oPacket nIdx with
      | none => simp [runWriter, he] at hrun
      | some r =>
        obtain ⟨pos, s2⟩ := r
        obtain ⟨h2, hq2⟩ := hA oPacket nIdx pos s2 rfl he
        cases hr : runWriter cb ops s2 with
        | none => simp [runWriter, he, hr] at hrun
        | some r2 =>
          obtain ⟨s3, ps3⟩ := r2
          simp only [runWriter, he, hr, Option.some.injEq, Prod.mk.injEq] at hrun
          rw [← hrun.1]
          exact ih s2 s3 ps3 h2 hq2 hr
    | dequeue =>
      cases he : s.dequeue with
      | error e => simp [runWriter, he] at hrun
      | ok s2 =>
        obtain ⟨h2, hq2⟩ := hB s2 rfl he
        simp only [runWriter, he] at hrun
        exact ih s2 s1 ps h2 hq2 hrun

/-- C15 (counterexample): on a started writer, `queue(5)`, a dequeue step,
`queue(3)`, a dequeue step: the dequeued indices are 5 then 3, which is not
ascending. -/
theorem dequeue_order_counterexample :
    (runWriter archive
        [WriterOp.queue (frame 5) 5, WriterOp.dequeue, WriterOp.queue (frame 3) 3,
          WriterOp.dequeue] dropWriter).map
      (fun r => (r.2, r.1.written.map Prod.fst)) = some ([0, 0], [5, 3]) := by
  decide

/-- C15 (amended): on an active writer in a reachable state, for every
interleaving of `queue` calls and worker dequeue steps in which every index
passed to `queue` is larger than all indices dequeued before that call, the
sequence of the indices dequeued during the interleaving (across all workers)
is strictly ascending, and every dequeued index is lower than every index that
is still pending. -/
theorem dequeue_order_ascending (cb : Mat → Nat → Nat) (s0 s1 : DataWriter)
    (ops : List WriterOp) (ps : List Nat) (h : WReach cb s0)
    (hq : QueuedAfterWritten cb s0.written.length ops s0)
    (hrun : runWriter cb ops s0 = some (s1, ps)) :
    (s1.written.drop s0.written.length).Pairwise (fun a b => a.1 < b.1) ∧
      ∀ d ∈ s1.written.drop s0.written.length, ∀ e ∈ s1.m_mQueue, d.1 < e.1 := by
  obtain ⟨hact, _, hk, _, _⟩ := WReach_inv cb s0 h
  have h0 : OrdInv s0.written.length s0 := by
    refine ⟨hact, le_refl _, hk, ?_, ?_⟩
    · rw [List.drop_length]; exact List.Pairwise.nil
    · rw [List.drop_length]; intro d hd; simp at hd
  obtain ⟨_, _, _, h4, h5⟩ := OrdInv_run cb _ ops s0 s1 ps h0 hq hrun
  exact ⟨h4, h5⟩

theorem dequeue_order_ascending_witness :
    ∃ s1 ps, runWriter archive
        [WriterOp.queue (frame 5) 5, WriterOp.queue (frame 3) 3, WriterOp.dequeue,
          WriterOp.queue (frame 4) 4, WriterOp.dequeue, WriterOp.dequeue] dropWriter =
        some (s1, ps) ∧
      s1.written.map Prod.fst = [3, 4, 5] ∧
      (s1.written.drop dropWriter.written.length).Pairwise (fun a b => a.1 < b.1) ∧
      ∀ d ∈ s1.written.drop dropWriter.written.length, ∀ e ∈ s1.m_mQueue, d.1 < e.1 :=
  ⟨_, _, rfl, by decide,
    dequeue_order_ascending archive dropWriter _
      [WriterOp.queue (frame 5) 5, WriterOp.queue (frame 3) 3, WriterOp.dequeue,
        WriterOp.queue (frame 4) 4, WriterOp.dequeue, WriterOp.dequeue] _
      (WReach_dropWriter archive)
      (by
        refine ⟨by decide, fun _ _ e1 => ?_⟩
        cases e1
        refine ⟨by decide, fun _ _ e2 => ?_⟩
        cases e2
        intro _ e3
        cases e3
        refine ⟨by decide, fun _ _ e4 => ?_⟩
        cases e4
        intro _ e5
        cases e5
        intro _ e6
        cases e6
        trivial)
      rfl⟩

theorem RingP_bounds (B F N : Nat) (l : List CachedMat) (hB : B < W) (h : RingP B F N l) :
    (F = SIZE_MAX ∧ N = SIZE_MAX ∧ l = []) ∨
      (F < B ∧ N < B ∧ F ≠ N ∧ F ≠ SIZE_MAX ∧ N ≠ SIZE_MAX ∧ l ≠ [] ∧
        ∃ c rest, l = c :: rest ∧ c.off = F) := by
  simp only [W, SIZE_MAX] at *
  rcases h with h | ⟨hne, hseg, hNB⟩ | ⟨hi, lo, e, hl, hhi, hlo, hsh, he, hsl, hNF⟩
  · exact Or.inl h
  · right
    have := Seg_lt _ _ _ hseg hne
    refine ⟨by omega, hNB, by omega, by omega, by omega, hne, ?_⟩
    cases l with
    | nil => exact absurd rfl hne
    | cons c rest => exact ⟨c, rest, rfl, hseg.1⟩
  · right
    have := Seg_lt _ _ _ hsh hhi
    refine ⟨by omega, by omega, by omega, by omega, by omega, ?_, ?_⟩
    · rw [hl]; simp [hhi]
    · cases hi with
      | nil => exact absurd rfl hhi
      | cons c rest => exact ⟨c, rest ++ lo, by rw [hl]; rfl, hsh.1⟩

theorem Cached_get (cb : Nat → Mat) (buf : Nat → Nat) (q : List CachedMat) :
    ∀ (i k : Nat) (c : CachedMat), i < W → Cached cb buf i q → q[k]? = some c →
      deref buf (.arena c) = cb ((i + k) % W) := by
  induction q with
  | nil => intro i k c _ _ h; simp at h
  | cons d ds ih =>
    intro i k c hi hc h
    obtain ⟨h1, h2⟩ := hc
    cases k with
    | zero =>
      simp only [List.getElem?_cons_zero, Option.some.injEq] at h
      subst h
      rw [Nat.add_zero, Nat.mod_eq_of_lt hi]; exact h1
    | succ k =>
      simp only [List.getElem?_cons_succ] at h
      have := ih ((i + 1) % W) k c (Nat.mod_lt _ (by decide)) h2 h
      rw [this]; congr 1
      simp only [W]; omega

/-- Every reachable worker state satisfies `EndInv`. -/
theorem Reach_end (cb : Nat → Mat) (B : Nat) (hfit : Fits cb B) (w : Worker)
    (h : Reach cb B w) : EndInv cb w := by
  induction h with
  | start w0 _ _ _ => intro hf; cases hf
  | publish w i _ _ ih => exact ih
  | handle w w1 hr he ih =>
    obtain ⟨hinv, hB⟩ := Reach_inv cb B hfit w hr
    have hBW : w.nBufferSize < W := Fits_lt cb _ (hB ▸ hfit)
    rcases onRequest_cases cb w (hB ▸ hfit) hinv with ⟨_, e⟩ | ⟨_, hq, _, _, c, _, _, e⟩ |
        ⟨_, _, _, e⟩ | ⟨_, _, e⟩
    · rw [e] at he; cases he; exact ih
    · rw [e] at he
      cases he
      intro hf
      rcases ih hf with h0 | h0
      · exact Or.inl h0
      · exfalso
        rcases RingP_bounds _ _ _ _ hBW hinv.1.1 with ⟨_, _, hl⟩ | ⟨_, _, _, hF, _⟩
        · have := (length_le_liveOf w.m_oReqPacket w.qoCache).1
          rw [hl] at this
          exact hq (List.length_eq_zero.1 (Nat.le_zero.1 this))
        · exact hF h0
    · rw [e] at he; cases he; intro hf; cases hf
    · rw [e] at he; cases he; intro _; exact Or.inr rfl
  | cache w hr ih =>
    obtain ⟨hinv, hB⟩ := Reach_inv cb B hfit w hr
    have hBW : w.nBufferSize < W := Fits_lt cb _ (hB ▸ hfit)
    rcases lCache_cases cb w with ⟨h0, e⟩ | ⟨_, _, e⟩ | ⟨off, F1, N1, hs, _, e⟩
    · rw [e]; intro _; exact Or.inl h0
    · rw [e]
      intro hf
      have hf : (if w.nFirstBufferIdx ≤ w.nNextBufferIdx then false else w.bReachedEnd)
          = true := hf
      split_ifs at hf
      exact ih hf
    · rw [e]
      intro hf
      have hf : (if w.nFirstBufferIdx ≤ w.nNextBufferIdx then false else w.bReachedEnd)
          = true := hf
      split_ifs at hf with hle
      exfalso
      rcases ih hf with h0 | h0
      · exact hs h0
      · rcases RingP_bounds _ _ _ _ hBW hinv.1.1 with ⟨_, hN, _⟩ | ⟨_, _, _, hF, _⟩
        · exact hle (by rw [h0, hN])
        · exact hF h0

/-- C21: a prefetch step for which `loader(nNextPrecacheIdx)` is a zero-length
packet sets the end-of-stream flag, returns 0 and leaves the FIFO, the arena,
both ring offsets and `nNextPrecacheIdx` unchanged; and in every reachable state
a prefetch step that caches a packet leaves the end-of-stream flag cleared. -/
theorem lCacheNextPacket_end_of_stream (cb : Nat → Mat) (B : Nat) (hfit : Fits cb B)
    (w : Worker) (h : Reach cb B w) :
    ((cb w.nNextPrecacheIdx).byteSize = 0 →
      (lCacheNextPacket cb w).2 = 0 ∧ (lCacheNextPacket cb w).1.bReachedEnd = true ∧
      (lCacheNextPacket cb w).1.qoCache = w.qoCache ∧
      (lCacheNextPacket cb w).1.vcBuffer = w.vcBuffer ∧
      (lCacheNextPacket cb w).1.nNextPrecacheIdx = w.nNextPrecacheIdx ∧
      (lCacheNextPacket cb w).1.nFirstBufferIdx = w.nFirstBufferIdx ∧
      (lCacheNextPacket cb w).1.nNextBufferIdx = w.nNextBufferIdx) ∧
    ((lCacheNextPacket cb w).2 ≠ 0 → (lCacheNextPacket cb w).1.bReachedEnd = false) := by
  constructor
  · intro h0
    rw [lCache_zero cb w h0]
    exact ⟨rfl, rfl, rfl, rfl, rfl, rfl, rfl⟩
  · intro hr
    have hend := Reach_end cb B hfit _ (Reach.cache w h)
    cases hb : (lCacheNextPacket cb w).1.bReachedEnd with
    | false => rfl
    | true =>
      exfalso
      obtain ⟨hinv, hB⟩ := Reach_inv cb B hfit _ (Reach.cache w h)
      have hBW : (lCacheNextPacket cb w).1.nBufferSize < W := Fits_lt cb _ (hB ▸ hfit)
      rcases lCache_cases cb w with ⟨_, e⟩ | ⟨_, _, e⟩ | ⟨off, F1, N1, hs, ha, e⟩
      · rw [e] at hr; exact hr rfl
      · rw [e] at hr; exact hr rfl
      · have hflag : (if w.nFirstBufferIdx ≤ w.nNextBufferIdx then false else w.bReachedEnd)
            = true := by rw [e] at hb; exact hb
        split_ifs at hflag with hle
        have hold := Reach_end cb B hfit w h hflag
        obtain ⟨hinv0, hB0⟩ := Reach_inv cb B hfit w h
        rcases hold with h0 | h0
        · exact hs h0
        · rcases RingP_bounds _ _ _ _ (Fits_lt cb _ (hB0 ▸ hfit)) hinv0.1.1 with
            ⟨_, hN, _⟩ | ⟨_, _, _, hF, _⟩
          · exact hle (by rw [h0, hN])
          · exact hF h0

theorem popLoop_mono : ∀ (n k : Nat) (w w1 : Worker),
    popLoop n w = some w1 → popLoop (n + k) w = some w1 := by
  intro n
  induction n with
  | zero =>
    intro k w w1 h
    unfold popLoop at h
    split_ifs at h with hc
    cases k with
    | zero => unfold popLoop; rw [if_neg hc]; exact h
    | succ k => rw [Nat.zero_add]; unfold popLoop; rw [if_neg hc]; exact h
  | succ n ih =>
    intro k w w1 h
    rw [Nat.add_right_comm]
    unfold popLoop at h ⊢
    split_ifs at h ⊢ with hc
    · cases hq : w.qoCache with
      | nil => rw [hq] at h; cases h
      | cons c rest =>
        rw [hq] at h
        exact ih k _ w1 h
    · exact h

/-- C30: in every reachable state, a prefetch step that returns 0 for a
non-empty packet leaves both ring offsets, the FIFO, the arena and
`nNextPrecacheIdx` as they were and does not turn the end-of-stream flag on;
moreover `nFirstBufferIdx` is the empty sentinel exactly when `nNextBufferIdx`
is, and when the ring is occupied both offsets are below `nBufferSize` and
differ. -/
theorem lCacheNextPacket_refusal_frame (cb : Nat → Mat) (B : Nat) (hfit : Fits cb B)
    (w : Worker) (h : Reach cb B w) :
    ((cb w.nNextPrecacheIdx).byteSize ≠ 0 → (lCacheNextPacket cb w).2 = 0 →
      (lCacheNextPacket cb w).1.nFirstBufferIdx = w.nFirstBufferIdx ∧
      (lCacheNextPacket cb w).1.nNextBufferIdx = w.nNextBufferIdx ∧
      (lCacheNextPacket cb w).1.qoCache = w.qoCache ∧
      (lCacheNextPacket cb w).1.vcBuffer = w.vcBuffer ∧
      (lCacheNextPacket cb w).1.nNextPrecacheIdx = w.nNextPrecacheIdx ∧
      ((lCacheNextPacket cb w).1.bReachedEnd = true → w.bReachedEnd = true)) ∧
    (w.nFirstBufferIdx = SIZE_MAX ↔ w.nNextBufferIdx = SIZE_MAX) ∧
    (w.nFirstBufferIdx ≠ SIZE_MAX →
      w.nFirstBufferIdx < w.nBufferSize ∧ w.nNextBufferIdx < w.nBufferSize ∧
      w.nFirstBufferIdx ≠ w.nNextBufferIdx) := by
  obtain ⟨hinv, hB⟩ := Reach_inv cb B hfit w h
  have hBW : w.nBufferSize < W := Fits_lt cb _ (hB ▸ hfit)
  refine ⟨?_, ?_, ?_⟩
  · intro hs hr
    rcases lCache_cases cb w with ⟨h0, _⟩ | ⟨_, _, e⟩ | ⟨off, F1, N1, _, _, e⟩
    · exact absurd h0 hs
    · rw [e]
      refine ⟨rfl, rfl, rfl, rfl, rfl, ?_⟩
      intro hf
      have hf : (if w.nFirstBufferIdx ≤ w.nNextBufferIdx then false else w.bReachedEnd)
          = true := hf
      split_ifs at hf
      exact hf
    · rw [e] at hr; exact absurd hr hs
  · rcases RingP_bounds _ _ _ _ hBW hinv.1.1 with ⟨hF, hN, _⟩ | ⟨_, _, _, hF, hN, _⟩
    · exact ⟨fun _ => hN, fun _ => hF⟩
    · exact ⟨fun e => absurd e hF, fun e => absurd e hN⟩
  · intro hocc
    rcases RingP_bounds _ _ _ _ hBW hinv.1.1 with ⟨hF, _, _⟩ | ⟨h1, h2, h3, _⟩
    · exact absurd hF hocc
    · exact ⟨h1, h2, h3⟩

theorem lCacheNextPacket_refusal_frame_witness :
    ((tenItems wrappedTen.nNextPrecacheIdx).byteSize ≠ 0 →
      (lCacheNextPacket tenItems wrappedTen).2 = 0 →
      (lCacheNextPacket tenItems wrappedTen).1.nFirstBufferIdx = wrappedTen.nFirstBufferIdx ∧
      (lCacheNextPacket tenItems wrappedTen).1.nNextBufferIdx = wrappedTen.nNextBufferIdx ∧
      (lCacheNextPacket tenItems wrappedTen).1.qoCache = wrappedTen.qoCache ∧
      (lCacheNextPacket tenItems wrappedTen).1.vcBuffer = wrappedTen.vcBuffer ∧
      (lCacheNextPacket tenItems wrappedTen).1.nNextPrecacheIdx = wrappedTen.nNextPrecacheIdx ∧
      ((lCacheNextPacket tenItems wrappedTen).1.bReachedEnd = true →
        wrappedTen.bReachedEnd = true)) ∧
    (wrappedTen.nFirstBufferIdx = SIZE_MAX ↔ wrappedTen.nNextBufferIdx = SIZE_MAX) ∧
    (wrappedTen.nFirstBufferIdx ≠ SIZE_MAX →
      wrappedTen.nFirstBufferIdx < wrappedTen.nBufferSize ∧
      wrappedTen.nNextBufferIdx < wrappedTen.nBufferSize ∧
      wrappedTen.nFirstBufferIdx ≠ wrappedTen.nNextBufferIdx) :=
  lCacheNextPacket_refusal_frame tenItems 10 tenItems_fits wrappedTen Reach_wrappedTen

/-- C26: in every reachable state, a prefetch step that caches a packet appends
one header to the FIFO whose byte range has the size of the packet, lies inside
the arena, and overlaps neither the range of a packet still in the FIFO nor the
range of the answered packet when that one lies in the arena (it then starts at
`nFirstBufferIdx`); the step writes the packet bytes at that range, and the
bytes of the answered packet and of every packet still in the FIFO read the same
after the step. -/
theorem lCacheNextPacket_no_overlap (cb : Nat → Mat) (B : Nat) (hfit : Fits cb B)
    (w : Worker) (h : Reach cb B w) (hr : (lCacheNextPacket cb w).2 ≠ 0) :
    ∃ c, (lCacheNextPacket cb w).1.qoCache = w.qoCache ++ [c] ∧
      c.len = (cb w.nNextPrecacheIdx).byteSize ∧ 0 < c.len ∧ c.off + c.len ≤ B ∧
      (∀ d ∈ w.qoCache, NoOverlap d c) ∧
      (∀ a, w.m_oReqPacket = .arena a → NoOverlap a c ∧ a.off = w.nFirstBufferIdx) ∧
      (lCacheNextPacket cb w).1.vcBuffer =
        copyTo w.vcBuffer c.off (cb w.nNextPrecacheIdx).bytes ∧
      (lCacheNextPacket cb w).1.m_oReqPacket = w.m_oReqPacket ∧
      deref (lCacheNextPacket cb w).1.vcBuffer w.m_oReqPacket =
        deref w.vcBuffer w.m_oReqPacket ∧
      (∀ d ∈ w.qoCache, deref (lCacheNextPacket cb w).1.vcBuffer (.arena d) =
        deref w.vcBuffer (.arena d)) := by
  obtain ⟨hinv, hB⟩ := Reach_inv cb B hfit w h
  have hBW : w.nBufferSize < W := Fits_lt cb _ (hB ▸ hfit)
  have hst := lCache_stable cb w (hB ▸ hfit) hinv
  rcases lCache_cases cb w with ⟨_, e⟩ | ⟨_, _, e⟩ | ⟨off, F1, N1, hs, ha, e⟩
  · rw [e] at hr; exact absurd rfl hr
  · rw [e] at hr; exact absurd rfl hr
  · obtain ⟨_, hin, hdis⟩ := ringAlloc_some _ _ _ _ _ _ _ (cb w.nNextPrecacheIdx).hdr _
      (hB ▸ hfit w.nNextPrecacheIdx) (Nat.pos_of_ne_zero hs) hinv.1.1 ha
    refine ⟨⟨(cb w.nNextPrecacheIdx).hdr, off, (cb w.nNextPrecacheIdx).byteSize⟩,
      by rw [e], rfl, Nat.pos_of_ne_zero hs, hB ▸ hin, ?_, ?_, by rw [e], hst.2.2.1,
      ?_, ?_⟩
    · intro d hd
      exact hdis d (mem_liveOf _ _ d hd)
    · intro a hpa
      refine ⟨hdis a (by rw [hpa]; exact List.mem_cons_self _ _), ?_⟩
      rcases RingP_bounds _ _ _ _ hBW hinv.1.1 with ⟨_, _, hl⟩ | ⟨_, _, _, _, _, _, c0, rest, hl, hc⟩
      · rw [hpa] at hl; cases hl
      · rw [hpa] at hl
        cases hl
        exact hc
    · have := hst.2.2.2
      rw [hst.2.2.1] at this
      exact this
    · intro d hd
      rw [e]
      exact deref_copyTo_disjoint _ _ _ d (hdis d (mem_liveOf _ _ d hd))

theorem lCacheNextPacket_no_overlap_witness :
    (lCacheNextPacket tenItems servedTenZero).2 ≠ 0 ∧
    ∃ c, (lCacheNextPacket tenItems servedTenZero).1.qoCache = servedTenZero.qoCache ++ [c] ∧
      c.len = (tenItems servedTenZero.nNextPrecacheIdx).byteSize ∧ 0 < c.len ∧
      c.off + c.len ≤ max (min 1 CACHE_MIN_SIZE) CACHE_MIN_SIZE ∧
      (∀ d ∈ servedTenZero.qoCache, NoOverlap d c) ∧
      (∀ a, servedTenZero.m_oReqPacket = .arena a →
        NoOverlap a c ∧ a.off = servedTenZero.nFirstBufferIdx) ∧
      (lCacheNextPacket tenItems servedTenZero).1.vcBuffer =
        copyTo servedTenZero.vcBuffer c.off (tenItems servedTenZero.nNextPrecacheIdx).bytes ∧
      (lCacheNextPacket tenItems servedTenZero).1.m_oReqPacket = servedTenZero.m_oReqPacket ∧
      deref (lCacheNextPacket tenItems servedTenZero).1.vcBuffer servedTenZero.m_oReqPacket =
        deref servedTenZero.vcBuffer servedTenZero.m_oReqPacket ∧
      (∀ d ∈ servedTenZero.qoCache,
        deref (lCacheNextPacket tenItems servedTenZero).1.vcBuffer (.arena d) =
          deref servedTenZero.vcBuffer (.arena d)) :=
  ⟨by decide, lCacheNextPacket_no_overlap tenItems _ tenItems_fits_min servedTenZero
    (Reach_serve _ _ tenItems_fits_min 0 (by decide) _
      (SysInv_start CACHE_MIN_SIZE tenItems 1 3 (by decide) tenItems_fits_min).2.1)
    (by decide)⟩

/-- C29: in every reachable state in which the in-range branch is taken (FIFO
not empty and `nNextExpectedReqIdx ≤ m_nReqIdx < nNextPrecacheIdx`), the
iteration count `m_nReqIdx - nNextExpectedReqIdx + 1` of the pop loop, computed
on `size_t`, is at least 1 and at most the FIFO length; the loop ends after
exactly that many iterations, never reads the front of an empty FIFO, and the
request handling returns its result. -/
theorem popLoop_safe (cb : Nat → Mat) (B : Nat) (hfit : Fits cb B) (w : Worker)
    (h : Reach cb B w) (hq : w.qoCache ≠ [])
    (hin : w.m_nReqIdx < w.nNextPrecacheIdx ∧ w.m_nReqIdx ≥ w.nNextExpectedReqIdx) :
    (w.m_nReqIdx + W - w.nNextExpectedReqIdx + 1) % W =
        w.m_nReqIdx - w.nNextExpectedReqIdx + 1 ∧
      1 ≤ w.m_nReqIdx - w.nNextExpectedReqIdx + 1 ∧
      w.m_nReqIdx - w.nNextExpectedReqIdx + 1 ≤ w.qoCache.length ∧
      ∃ w1, (∀ fuel, w.m_nReqIdx - w.nNextExpectedReqIdx + 1 ≤ fuel →
          popLoop fuel w = some w1) ∧
        onRequest cb w = some w1 ∧
        w1.qoCache = w.qoCache.drop (w.m_nReqIdx - w.nNextExpectedReqIdx + 1) ∧
        w1.nNextExpectedReqIdx = w.m_nReqIdx + 1 ∧
        (w1.m_nReqIdx + W - w1.nNextExpectedReqIdx + 1) % W = 0 := by
  obtain ⟨hinv, hB⟩ := Reach_inv cb B hfit w h
  have hnp : w.nNextPrecacheIdx < W := by
    rw [hinv.1.2.2.1]; exact Nat.mod_lt _ (by decide)
  have hreq := hinv.2.1
  have hcnt : (w.m_nReqIdx + W - w.nNextExpectedReqIdx + 1) % W =
      w.m_nReqIdx - w.nNextExpectedReqIdx + 1 := by
    simp only [W] at *; omega
  have hfast : w.m_nReqIdx ≠ (w.nNextExpectedReqIdx + W - 1) % W := by
    simp only [W] at *; omega
  have hon : onRequest cb w =
      popLoop ((w.m_nReqIdx + W - w.nNextExpectedReqIdx + 1) % W) w := by
    unfold onRequest
    rw [if_pos hfast, if_pos hq, if_pos hin]
  rcases onRequest_cases cb w (hB ▸ hfit) hinv with ⟨hfa, _⟩ | ⟨_, _, _, _, c, hc, _, e⟩ |
      ⟨_, _, hout, _⟩ | ⟨_, hq0, _⟩
  · exfalso
    have hf := hinv.2.2.2.1
    have := hinv.2.2.1
    simp only [W] at *; omega
  · have hlen : w.m_nReqIdx - w.nNextExpectedReqIdx < w.qoCache.length := by
      by_contra hn
      rw [List.getElem?_eq_none (Nat.le_of_not_lt hn)] at hc
      cases hc
    refine ⟨hcnt, by omega, by omega, _, ?_, e, rfl, rfl, ?_⟩
    · intro fuel hf
      rw [hon, hcnt] at e
      have := popLoop_mono _ (fuel - (w.m_nReqIdx - w.nNextExpectedReqIdx + 1)) _ _ e
      rw [Nat.add_sub_cancel' hf] at this
      exact this
    · show (w.m_nReqIdx + W - (w.m_nReqIdx + 1) + 1) % W = 0
      simp only [W] at *; omega
  · exact absurd hin hout
  · exact absurd hq0 hq

theorem popLoop_safe_witness :
    prefilledTen.qoCache ≠ [] ∧
    ((1 : Nat) < prefilledTen.nNextPrecacheIdx ∧ 1 ≥ prefilledTen.nNextExpectedReqIdx) ∧
    ((1 + W - prefilledTen.nNextExpectedReqIdx + 1) % W =
        1 - prefilledTen.nNextExpectedReqIdx + 1 ∧
      1 ≤ 1 - prefilledTen.nNextExpectedReqIdx + 1 ∧
      1 - prefilledTen.nNextExpectedReqIdx + 1 ≤ prefilledTen.qoCache.length ∧
      ∃ w1, (∀ fuel, 1 - prefilledTen.nNextExpectedReqIdx + 1 ≤ fuel →
          popLoop fuel { prefilledTen with m_nReqIdx := 1 } = some w1) ∧
        onRequest tenItems { prefilledTen with m_nReqIdx := 1 } = some w1 ∧
        w1.qoCache = prefilledTen.qoCache.drop (1 - prefilledTen.nNextExpectedReqIdx + 1) ∧
        w1.nNextExpectedReqIdx = 1 + 1 ∧
        (w1.m_nReqIdx + W - w1.nNextExpectedReqIdx + 1) % W = 0) :=
  ⟨by decide, by decide,
    popLoop_safe tenItems 10 tenItems_fits { prefilledTen with m_nReqIdx := 1 }
      (Reach.publish _ 1 (by decide) Reach_prefilledTen) (by decide) (by decide)⟩

theorem sumLen_le_used (w : Worker) (l : List CachedMat) (hB : w.nBufferSize < W)
    (hr : RingP w.nBufferSize w.nFirstBufferIdx w.nNextBufferIdx l) :
    sumLen l ≤ nUsedBufferSize w ∧ nUsedBufferSize w ≤ w.nBufferSize := by
  unfold nUsedBufferSize
  simp only [RingP, W, SIZE_MAX] at *
  rcases hr with ⟨hF, hN, hl⟩ | ⟨hne, hseg, hNB⟩ | ⟨hi, lo, e, hl, hhi, hlo, hsh, he, hsl, hNF⟩
  · rw [if_pos hF, hl]; simp [sumLen]
  · have h1 := Seg_lt _ _ _ hseg hne
    have h2 := Seg_sum _ _ _ hseg
    rw [if_neg (by omega), if_pos h1]
    omega
  · have h1 := Seg_lt _ _ _ hsh hhi
    have h2 := Seg_sum _ _ _ hsh
    have h3 := Seg_sum _ _ _ hsl
    rw [if_neg (by omega), if_neg (by omega), hl, sumLen_append]
    omega

/-- C24: in every reachable state the FIFO length is `nNextPrecacheIdx -
nNextExpectedReqIdx` (computed on `size_t`; the plain difference when the
cursors did not wrap), and the `k`-th FIFO entry reads the bytes of
`loader(nNextExpectedReqIdx + k)`; a prefetch step that caches a packet appends
the copy of `loader(nNextPrecacheIdx)` at the back and advances
`nNextPrecacheIdx` by one; and a request outside the prefetched window (or one
that finds the FIFO empty) empties the FIFO and sets both cursors to `i + 1`. -/
theorem fifo_cursor_invariant (cb : Nat → Mat) (B : Nat) (hfit : Fits cb B) (w : Worker)
    (h : Reach cb B w) :
    w.qoCache.length = (w.nNextPrecacheIdx + W - w.nNextExpectedReqIdx) % W ∧
    (w.nNextExpectedReqIdx ≤ w.nNextPrecacheIdx →
      w.qoCache.length = w.nNextPrecacheIdx - w.nNextExpectedReqIdx) ∧
    (∀ k c, w.qoCache[k]? = some c →
      deref w.vcBuffer (.arena c) = cb ((w.nNextExpectedReqIdx + k) % W)) ∧
    ((lCacheNextPacket cb w).2 ≠ 0 →
      (lCacheNextPacket cb w).1.nNextPrecacheIdx = (w.nNextPrecacheIdx + 1) % W ∧
      (lCacheNextPacket cb w).1.nNextExpectedReqIdx = w.nNextExpectedReqIdx ∧
      ∃ c, (lCacheNextPacket cb w).1.qoCache = w.qoCache ++ [c] ∧
        deref (lCacheNextPacket cb w).1.vcBuffer (.arena c) = cb w.nNextPrecacheIdx) ∧
    (w.m_nReqIdx ≠ w.m_nAnswIdx →
      (w.qoCache = [] ∨ w.m_nReqIdx < w.nNextExpectedReqIdx ∨
        w.m_nReqIdx ≥ w.nNextPrecacheIdx) →
      ∃ w1, onRequest cb w = some w1 ∧ w1.qoCache = [] ∧
        w1.nNextExpectedReqIdx = (w.m_nReqIdx + 1) % W ∧
        w1.nNextPrecacheIdx = (w.m_nReqIdx + 1) % W) := by
  obtain ⟨hinv, hB⟩ := Reach_inv cb B hfit w h
  have hBW : w.nBufferSize < W := Fits_lt cb _ (hB ▸ hfit)
  have hlen : w.qoCache.length < W := by
    have := (RingP_sum _ _ _ _ hinv.1.1).2
    have := (RingP_sum _ _ _ _ hinv.1.1).1
    have := (length_le_liveOf w.m_oReqPacket w.qoCache).1
    omega
  have hne := hinv.1.2.1
  have hnp := hinv.1.2.2.1
  refine ⟨?_, ?_, ?_, ?_, ?_⟩
  · simp only [W] at *; omega
  · intro hle; simp only [W] at *; omega
  · intro k c hk
    exact Cached_get cb _ _ _ k c hne hinv.1.2.2.2 hk
  · intro hr
    obtain ⟨hinv1, _⟩ := Reach_inv cb B hfit _ (Reach.cache w h)
    rcases lCache_cases cb w with ⟨_, e⟩ | ⟨_, _, e⟩ | ⟨off, F1, N1, hs, ha, e⟩
    · rw [e] at hr; exact absurd rfl hr
    · rw [e] at hr; exact absurd rfl hr
    · have hq : (lCacheNextPacket cb w).1.qoCache = w.qoCache ++
          [⟨(cb w.nNextPrecacheIdx).hdr, off, (cb w.nNextPrecacheIdx).byteSize⟩] := by
        rw [e]
      have he : (lCacheNextPacket cb w).1.nNextExpectedReqIdx = w.nNextExpectedReqIdx := by
        rw [e]
      refine ⟨by rw [e], he, _, hq, ?_⟩
      have := Cached_get cb _ _ _ w.qoCache.length
        ⟨(cb w.nNextPrecacheIdx).hdr, off, (cb w.nNextPrecacheIdx).byteSize⟩
        hinv1.1.2.1 hinv1.1.2.2.2 (by rw [hq]; simp)
      rw [this, he, ← hnp]
  · intro hreq hout
    obtain ⟨w1, h1, h2, _, _, _, _, h3, h4, _⟩ := onRequest_flush cb B hfit w h hreq hout
    exact ⟨w1, h1, h2, h3, h4⟩

theorem fifo_cursor_invariant_witness :
    wrappedTen.qoCache.length =
      (wrappedTen.nNextPrecacheIdx + W - wrappedTen.nNextExpectedReqIdx) % W ∧
    (wrappedTen.nNextExpectedReqIdx ≤ wrappedTen.nNextPrecacheIdx →
      wrappedTen.qoCache.length =
        wrappedTen.nNextPrecacheIdx - wrappedTen.nNextExpectedReqIdx) ∧
    (∀ k c, wrappedTen.qoCache[k]? = some c →
      deref wrappedTen.vcBuffer (.arena c) =
        tenItems ((wrappedTen.nNextExpectedReqIdx + k) % W)) ∧
    ((lCacheNextPacket tenItems wrappedTen).2 ≠ 0 →
      (lCacheNextPacket tenItems wrappedTen).1.nNextPrecacheIdx =
        (wrappedTen.nNextPrecacheIdx + 1) % W ∧
      (lCacheNextPacket tenItems wrappedTen).1.nNextExpectedReqIdx =
        wrappedTen.nNextExpectedReqIdx ∧
      ∃ c, (lCacheNextPacket tenItems wrappedTen).1.qoCache = wrappedTen.qoCache ++ [c] ∧
        deref (lCacheNextPacket tenItems wrappedTen).1.vcBuffer (.arena c) =
          tenItems wrappedTen.nNextPrecacheIdx) ∧
    (wrappedTen.m_nReqIdx ≠ wrappedTen.m_nAnswIdx →
      (wrappedTen.qoCache = [] ∨ wrappedTen.m_nReqIdx < wrappedTen.nNextExpectedReqIdx ∨
        wrappedTen.m_nReqIdx ≥ wrappedTen.nNextPrecacheIdx) →
      ∃ w1, onRequest tenItems wrappedTen = some w1 ∧ w1.qoCache = [] ∧
        w1.nNextExpectedReqIdx = (wrappedTen.m_nReqIdx + 1) % W ∧
        w1.nNextPrecacheIdx = (wrappedTen.m_nReqIdx + 1) % W) :=
  fifo_cursor_invariant tenItems 10 tenItems_fits wrappedTen Reach_wrappedTen

/-- C23, counterexample: in the worker of `startedTen` the oldest FIFO entry is
the range `[0, 3)` and 9 bytes count as occupied; the in-range request for index
0 pops that entry, and afterwards `nFirstBufferIdx` is 0, the start of the
popped entry and not its end 3, and 9 bytes still count as occupied. -/
theorem pop_first_offset_counterexample :
    startedTen.worker.qoCache.head?.map (fun c => (c.off, c.len)) = some (0, 3) ∧
    nUsedBufferSize startedTen.worker = 9 ∧
    (onRequest tenItems { startedTen.worker with m_nReqIdx := 0 }).map
      (fun w => (w.nFirstBufferIdx, nUsedBufferSize w, w.qoCache.length)) = some (0, 9, 2) := by
  refine ⟨by decide, by decide, by decide⟩

/-- C23, amended: in every reachable state in which the in-range branch is
taken, the request handling leaves `nFirstBufferIdx` at the start of the last
popped entry, which is the answered packet; `nNextBufferIdx` is unchanged; and
the bytes of the answered packet and of the packets left in the FIFO all count
as occupied afterwards, within the arena size. -/
theorem pop_first_offset_is_answer_start (cb : Nat → Mat) (B : Nat) (hfit : Fits cb B)
    (w : Worker) (h : Reach cb B w) (hreq : w.m_nReqIdx ≠ w.m_nAnswIdx)
    (hq : w.qoCache ≠ [])
    (hin : w.m_nReqIdx < w.nNextPrecacheIdx ∧ w.m_nReqIdx ≥ w.nNextExpectedReqIdx) :
    ∃ c w1, w.qoCache[w.m_nReqIdx - w.nNextExpectedReqIdx]? = some c ∧
      onRequest cb w = some w1 ∧ w1.m_oReqPacket = .arena c ∧
      w1.nFirstBufferIdx = c.off ∧ w1.nNextBufferIdx = w.nNextBufferIdx ∧
      0 < c.len ∧ c.off + c.len ≤ B ∧
      c.len + sumLen w1.qoCache ≤ nUsedBufferSize w1 ∧ nUsedBufferSize w1 ≤ B := by
  obtain ⟨hinv, hB⟩ := Reach_inv cb B hfit w h
  rcases onRequest_cases cb w (hB ▸ hfit) hinv with ⟨hfa, _⟩ | ⟨_, _, _, _, c, hc, _, e⟩ |
      ⟨_, _, hout, _⟩ | ⟨_, hq0, _⟩
  · exact absurd hfa hreq
  · obtain ⟨hinv1, hB1⟩ := Reach_inv cb B hfit _ (Reach.handle w _ h e)
    have hBW : w.nBufferSize < W := Fits_lt cb _ (hB ▸ hfit)
    have hu := sumLen_le_used { w with
        m_oReqPacket := .arena c
        m_nAnswIdx := w.m_nReqIdx
        nFirstBufferIdx := c.off
        qoCache := w.qoCache.drop (w.m_nReqIdx - w.nNextExpectedReqIdx + 1)
        nNextExpectedReqIdx := w.m_nReqIdx + 1 } _ hBW hinv1.1.1
    have hr1 := hinv1.1.1
    have hmem : c ∈ liveOf (MatRef.arena c)
        (w.qoCache.drop (w.m_nReqIdx - w.nNextExpectedReqIdx + 1)) :=
      List.mem_cons_self _ _
    refine ⟨c, _, hc, e, rfl, rfl, rfl, ?_, ?_, ?_, ?_⟩
    · simp only [RingP] at hr1
      rcases hr1 with ⟨_, _, hl⟩ | ⟨_, hseg, _⟩ | ⟨hi, lo, e1, hl, _, _, hsh, _, hsl, _⟩
      · cases hl
      · exact (Seg_mem _ _ _ hseg c hmem).2.2
      · rw [hl] at hmem
        rcases List.mem_append.1 hmem with hm | hm
        · exact (Seg_mem _ _ _ hsh c hm).2.2
        · exact (Seg_mem _ _ _ hsl c hm).2.2
    · simp only [RingP] at hr1
      rcases hr1 with ⟨_, _, hl⟩ | ⟨_, hseg, hNB⟩ | ⟨hi, lo, e1, hl, _, _, hsh, he1, hsl, hNF⟩
      · cases hl
      · have := (Seg_mem _ _ _ hseg c hmem).2.1
        have hNB : w.nNextBufferIdx < w.nBufferSize := hNB
        omega
      · rw [hl] at hmem
        rcases List.mem_append.1 hmem with hm | hm
        · have := (Seg_mem _ _ _ hsh c hm).2.1
          have he1 : e1 ≤ w.nBufferSize := he1
          omega
        · have := (Seg_mem _ _ _ hsl c hm).2.1
          have := (Seg_mem _ _ _ hsh _ (List.getLast_mem ‹hi ≠ []›)).1
          have hNF : w.nNextBufferIdx < c.off := hNF
          have := (Seg_lt _ _ _ hsh ‹hi ≠ []›)
          have he1 : e1 ≤ w.nBufferSize := he1
          omega
    · exact hu.1
    · rw [← hB]; exact hu.2
  · exact absurd hin hout
  · exact absurd hq0 hq

theorem pop_first_offset_is_answer_start_witness :
    ∃ c w1, startedTen.worker.qoCache[1 - startedTen.worker.nNextExpectedReqIdx]? = some c ∧
      onRequest tenItems { startedTen.worker with m_nReqIdx := 1 } = some w1 ∧
      w1.m_oReqPacket = .arena c ∧
      w1.nFirstBufferIdx = c.off ∧ w1.nNextBufferIdx = startedTen.worker.nNextBufferIdx ∧
      0 < c.len ∧ c.off + c.len ≤ max (min 1 CACHE_MIN_SIZE) CACHE_MIN_SIZE ∧
      c.len + sumLen w1.qoCache ≤ nUsedBufferSize w1 ∧
      nUsedBufferSize w1 ≤ max (min 1 CACHE_MIN_SIZE) CACHE_MIN_SIZE :=
  pop_first_offset_is_answer_start tenItems _ tenItems_fits_min
    { startedTen.worker with m_nReqIdx := 1 }
    (Reach.publish _ 1 (by decide)
      (SysInv_start CACHE_MIN_SIZE tenItems 1 3 (by decide) tenItems_fits_min).2.1)
    (by decide) (by decide) (by decide)

theorem prefillLoop_succ (cb : Nat → Mat) (n : Nat) (w : Worker) :
    prefillLoop cb (n + 1) w =
      if (lCacheNextPacket cb w).2 ≠ 0 then prefillLoop cb n (lCacheNextPacket cb w).1
      else (lCacheNextPacket cb w).1 := rfl

/-- The prefill loop run from a reachable state: it caches `k` packets, at most
one per iteration, and when iterations were left it stopped on the end sentinel
(with the flag set) or on a refusal of the ring. -/
theorem prefillLoop_spec (cb : Nat → Mat) (B : Nat) (hfit : Fits cb B) :
    ∀ (clock : Nat) (w : Worker), Reach cb B w →
      (w.bReachedEnd = true → (cb w.nNextPrecacheIdx).byteSize = 0) →
      ∃ k, k ≤ clock ∧
        (prefillLoop cb clock w).qoCache.length = w.qoCache.length + k ∧
        (prefillLoop cb clock w).nNextExpectedReqIdx = w.nNextExpectedReqIdx ∧
        (prefillLoop cb clock w).nNextPrecacheIdx = (w.nNextPrecacheIdx + k) % W ∧
        (k < clock →
          ((cb (prefillLoop cb clock w).nNextPrecacheIdx).byteSize = 0 ∧
            (prefillLoop cb clock w).bReachedEnd = true) ∨
          ((cb (prefillLoop cb clock w).nNextPrecacheIdx).byteSize ≠ 0 ∧
            ringAlloc B (prefillLoop cb clock w).nFirstBufferIdx
              (prefillLoop cb clock w).nNextBufferIdx
              (cb (prefillLoop cb clock w).nNextPrecacheIdx).byteSize = none)) ∧
        ((prefillLoop cb clock w).bReachedEnd = true →
          (cb (prefillLoop cb clock w).nNextPrecacheIdx).byteSize = 0) := by
  intro clock
  induction clock with
  | zero =>
    intro w h hP
    obtain ⟨hinv, _⟩ := Reach_inv cb B hfit w h
    have hnp : w.nNextPrecacheIdx < W := by
      rw [hinv.1.2.2.1]; exact Nat.mod_lt _ (by decide)
    exact ⟨0, le_refl _, rfl, rfl, by
      show w.nNextPrecacheIdx = _
      rw [Nat.add_zero, Nat.mod_eq_of_lt hnp], fun hk => absurd hk (Nat.lt_irrefl _), hP⟩
  | succ n ih =>
    intro w h hP
    obtain ⟨hinv, hB⟩ := Reach_inv cb B hfit w h
    have hnp : w.nNextPrecacheIdx < W := by
      rw [hinv.1.2.2.1]; exact Nat.mod_lt _ (by decide)
    have hmod : w.nNextPrecacheIdx = (w.nNextPrecacheIdx + 0) % W := by
      rw [Nat.add_zero, Nat.mod_eq_of_lt hnp]
    rw [prefillLoop_succ]
    rcases lCache_cases cb w with ⟨h0, e⟩ | ⟨hs, ha, e⟩ | ⟨off, F1, N1, hs, ha, e⟩
    · rw [e, if_neg (by simp)]
      exact ⟨0, Nat.zero_le _, rfl, rfl, hmod, fun _ => Or.inl ⟨h0, rfl⟩, fun _ => h0⟩
    · rw [e, if_neg (by simp)]
      refine ⟨0, Nat.zero_le _, rfl, rfl, hmod, fun _ => Or.inr ⟨hs, hB ▸ ha⟩, ?_⟩
      intro hf
      have hf : (if w.nFirstBufferIdx ≤ w.nNextBufferIdx then false else w.bReachedEnd)
          = true := hf
      split_ifs at hf
      exact hP hf
    · have hr1 := Reach.cache w h
      have hstep : (lCacheNextPacket cb w).2 ≠ 0 := by rw [e]; exact hs
      have hP1 : (lCacheNextPacket cb w).1.bReachedEnd = true →
          (cb (lCacheNextPacket cb w).1.nNextPrecacheIdx).byteSize = 0 := by
        rw [e]
        intro hf
        have hf : (if w.nFirstBufferIdx ≤ w.nNextBufferIdx then false else w.bReachedEnd)
            = true := hf
        split_ifs at hf
        exact absurd (hP hf) hs
      obtain ⟨k, hk, h1, h2, h3, h4, h5⟩ := ih _ hr1 hP1
      rw [if_pos hstep]
      refine ⟨k + 1, Nat.succ_le_succ hk, ?_, ?_, ?_, fun hlt => h4 (by omega), h5⟩
      · rw [h1, e]
        show (w.qoCache ++ [_]).length + k = _
        simp only [List.length_append, List.length_singleton]; omega
      · rw [h2, e]
      · rw [h3, e]
        show ((w.nNextPrecacheIdx + 1) % W + k) % W = _
        simp only [W]; omega

/-- C22, counterexample: on the loader `bigItems`, the prefill of an arena of
`CACHE_MIN_SIZE` bytes with a budget of 5 iterations stops after its first
loader call although `loader(0)` is not the end sentinel: the ring refuses the
packet, the FIFO is empty, `nNextPrecacheIdx` is 0 and the end-of-stream flag is
not set. -/
theorem prefill_stops_on_full_ring_counterexample :
    (prefillLoop bigItems 5 (entryLocals CACHE_MIN_SIZE DataPrecacher.construct.worker)).calls
        = [0] ∧
    (prefillLoop bigItems 5
      (entryLocals CACHE_MIN_SIZE DataPrecacher.construct.worker)).qoCache = [] ∧
    (prefillLoop bigItems 5
      (entryLocals CACHE_MIN_SIZE DataPrecacher.construct.worker)).nNextPrecacheIdx = 0 ∧
    (prefillLoop bigItems 5
      (entryLocals CACHE_MIN_SIZE DataPrecacher.construct.worker)).bReachedEnd = false ∧
    (bigItems 0).byteSize ≠ 0 := by
  have hb : ∀ i, (bigItems i).byteSize = CACHE_MIN_SIZE := by
    intro i; simp [bigItems, Mat.byteSize]
  have hs : (bigItems
      (entryLocals CACHE_MIN_SIZE DataPrecacher.construct.worker).nNextPrecacheIdx).byteSize
        ≠ 0 := by
    rw [hb]; decide
  have e := lCache_none bigItems (entryLocals CACHE_MIN_SIZE DataPrecacher.construct.worker)
    hs (by rw [hb]; decide)
  rw [prefillLoop_succ, e, if_neg (by simp)]
  refine ⟨rfl, rfl, rfl, rfl, ?_⟩
  rw [hb]; decide

/-- C22, amended: with a budget of `clock` iterations, the prefill caches the
packets of the indices `0 .. k-1` for some `k ≤ clock`: on exit the FIFO holds
exactly `k` entries, the `i`-th reads the bytes of `loader(i)`,
`nNextPrecacheIdx = k` and `nNextExpectedReqIdx = 0`; when the budget was not
used up (`k < clock`), either `loader(k)` is the zero-length sentinel and the
end-of-stream flag is set, or `loader(k)` is not empty and the ring has no room
for it; and the flag is set only when `loader(k)` is the sentinel. -/
theorem prefill_result (cb : Nat → Mat) (B : Nat) (hfit : Fits cb B) (clock : Nat)
    (w0 : Worker) (ha : w0.m_nAnswIdx = SIZE_MAX) (hr : w0.m_nReqIdx = SIZE_MAX)
    (hp : w0.m_oReqPacket = .own emptyMat) :
    ∃ k, k ≤ clock ∧
      (prefillLoop cb clock (entryLocals B w0)).qoCache.length = k ∧
      (prefillLoop cb clock (entryLocals B w0)).nNextPrecacheIdx = k ∧
      (prefillLoop cb clock (entryLocals B w0)).nNextExpectedReqIdx = 0 ∧
      (∀ i c, (prefillLoop cb clock (entryLocals B w0)).qoCache[i]? = some c →
        deref (prefillLoop cb clock (entryLocals B w0)).vcBuffer (.arena c) = cb i) ∧
      (k < clock →
        ((cb k).byteSize = 0 ∧
          (prefillLoop cb clock (entryLocals B w0)).bReachedEnd = true) ∨
        ((cb k).byteSize ≠ 0 ∧
          ringAlloc B (prefillLoop cb clock (entryLocals B w0)).nFirstBufferIdx
            (prefillLoop cb clock (entryLocals B w0)).nNextBufferIdx
            (cb k).byteSize = none)) ∧
      ((prefillLoop cb clock (entryLocals B w0)).bReachedEnd = true →
        (cb k).byteSize = 0) := by
  have h0 : Reach cb B (entryLocals B w0) := Reach.start w0 ha hr hp
  obtain ⟨k, hk, h1, h2, h3, h4, h5⟩ :=
    prefillLoop_spec cb B hfit clock _ h0 (fun hf => by cases hf)
  have hr1 := (Reach_prefillLoop cb B hfit clock _ h0).1
  obtain ⟨hinv, hB⟩ := Reach_inv cb B hfit _ hr1
  have hlen : (prefillLoop cb clock (entryLocals B w0)).qoCache.length < W := by
    have := (RingP_sum _ _ _ _ hinv.1.1).2
    have := (RingP_sum _ _ _ _ hinv.1.1).1
    have := (length_le_liveOf (prefillLoop cb clock (entryLocals B w0)).m_oReqPacket
      (prefillLoop cb clock (entryLocals B w0)).qoCache).1
    have := Fits_lt cb B hfit
    omega
  have h1 : (prefillLoop cb clock (entryLocals B w0)).qoCache.length = k := by
    rw [h1]; show 0 + k = k; omega
  have hkW : k < W := h1 ▸ hlen
  have h3 : (prefillLoop cb clock (entryLocals B w0)).nNextPrecacheIdx = k := by
    rw [h3]; show (0 + k) % W = k; rw [Nat.zero_add, Nat.mod_eq_of_lt hkW]
  have h2 : (prefillLoop cb clock (entryLocals B w0)).nNextExpectedReqIdx = 0 := h2
  refine ⟨k, hk, h1, h3, h2, ?_, ?_, ?_⟩
  · intro i c hc
    have hi : i < k := by
      rw [← h1]
      by_contra hn
      rw [List.getElem?_eq_none (Nat.le_of_not_lt hn)] at hc
      cases hc
    have := Cached_get cb _ _ _ i c hinv.1.2.1 hinv.1.2.2.2 hc
    rw [this, h2, Nat.zero_add, Nat.mod_eq_of_lt (by omega)]
  · intro hlt
    have := h4 hlt
    rw [h3] at this
    exact this
  · intro hf
    have := h5 hf
    rw [h3] at this
    exact this

theorem prefill_result_witness :
    ∃ k, k ≤ 7 ∧
      (prefillLoop tenItems 7 (entryLocals 10 DataPrecacher.construct.worker)).qoCache.length
        = k ∧
      (prefillLoop tenItems 7
        (entryLocals 10 DataPrecacher.construct.worker)).nNextPrecacheIdx = k ∧
      (prefillLoop tenItems 7
        (entryLocals 10 DataPrecacher.construct.worker)).nNextExpectedReqIdx = 0 ∧
      (∀ i c, (prefillLoop tenItems 7
          (entryLocals 10 DataPrecacher.construct.worker)).qoCache[i]? = some c →
        deref (prefillLoop tenItems 7
          (entryLocals 10 DataPrecacher.construct.worker)).vcBuffer (.arena c) = tenItems i) ∧
      (k < 7 →
        ((tenItems k).byteSize = 0 ∧
          (prefillLoop tenItems 7
            (entryLocals 10 DataPrecacher.construct.worker)).bReachedEnd = true) ∨
        ((tenItems k).byteSize ≠ 0 ∧
          ringAlloc 10
            (prefillLoop tenItems 7
              (entryLocals 10 DataPrecacher.construct.worker)).nFirstBufferIdx
            (prefillLoop tenItems 7
              (entryLocals 10 DataPrecacher.construct.worker)).nNextBufferIdx
            (tenItems k).byteSize = none)) ∧
      ((prefillLoop tenItems 7
          (entryLocals 10 DataPrecacher.construct.worker)).bReachedEnd = true →
        (tenItems k).byteSize = 0) :=
  prefill_result tenItems 10 tenItems_fits 7 DataPrecacher.construct.worker rfl rfl rfl

theorem WReach_blockWriter (cb : Mat → Nat → Nat) : WReach cb blockWriter :=
  WReach.start 100 8 1 false DataWriter.construct blockWriter true (by decide) rfl

theorem dequeue_config (s s1 : DataWriter) (h : s.dequeue = .ok s1) :
    s1.m_nQueueMaxSize = s.m_nQueueMaxSize ∧ s1.m_bAllowPacketDrop = s.m_bAllowPacketDrop := by
  unfold DataWriter.dequeue at h
  split_ifs at h with hc
  · cases hm : s.m_mQueue with
    | nil => rw [hm] at h; cases h
    | cons e rest =>
      rw [hm] at h
      simp only at h
      split_ifs at h
      cases h
      exact ⟨rfl, rfl⟩
  · cases h; exact ⟨rfl, rfl⟩

theorem queue_config (cb : Mat → Nat → Nat) (oPacket : Mat) (nIdx pos : Nat)
    (s s1 : DataWriter) (hact : s.m_bIsActive = true)
    (h : s.queue cb oPacket nIdx = some (pos, s1)) :
    s1.m_nQueueMaxSize = s.m_nQueueMaxSize ∧ s1.m_bAllowPacketDrop = s.m_bAllowPacketDrop := by
  rcases queue_cases cb oPacket nIdx s hact with ⟨_, _, e⟩ | ⟨_, _, e⟩ | ⟨_, e⟩
  · rw [e] at h; cases h
  · rw [e] at h; cases h; exact ⟨rfl, rfl⟩
  · rw [e] at h; cases h; exact ⟨rfl, rfl⟩

/-- Any interleaving of valid `queue` calls that return and dequeue steps that
do not fail leads from a reachable state to a reachable state with the same
budget and policy. -/
theorem WReach_run (cb : Mat → Nat → Nat) :
    ∀ (ops : List WriterOp) (s s1 : DataWriter) (ps : List Nat), WReach cb s →
      (∀ op ∈ ops, ValidWriterOp s.m_nQueueMaxSize op) →
      runWriter cb ops s = some (s1, ps) →
      WReach cb s1 ∧ s1.m_nQueueMaxSize = s.m_nQueueMaxSize ∧
        s1.m_bAllowPacketDrop = s.m_bAllowPacketDrop := by
  intro ops
  induction ops with
  | nil =>
    intro s s1 ps h _ hrun
    simp only [runWriter, Option.some.injEq, Prod.mk.injEq] at hrun
    rw [← hrun.1]; exact ⟨h, rfl, rfl⟩
  | cons op ops ih =>
    intro s s1 ps h hv hrun
    have hop := hv op (List.mem_cons_self _ _)
    cases op with
    | queue oPacket nIdx =>
      simp only [runWriter] at hrun
      cases hq : s.queue cb oPacket nIdx with
      | none => rw [hq] at hrun; cases hrun
      | some r =>
        obtain ⟨pos, s2⟩ := r
        rw [hq] at hrun
        simp only at hrun
        cases hr : runWriter cb ops s2 with
        | none => rw [hr] at hrun; cases hrun
        | some r2 =>
          obtain ⟨s3, ps2⟩ := r2
          rw [hr] at hrun
          simp only [Option.some.injEq, Prod.mk.injEq] at hrun
          obtain ⟨hc1, hc2⟩ := queue_config cb oPacket nIdx pos s s2 (WReach_inv cb s h).1 hq
          have h2 : WReach cb s2 := WReach.queue s s2 oPacket nIdx pos h hop.1 hop.2 hq
          obtain ⟨h3, h4, h5⟩ := ih s2 s3 ps2 h2
            (fun x hx => by rw [hc1]; exact hv x (List.mem_cons_of_mem _ hx)) hr
          rw [← hrun.1]
          exact ⟨h3, h4.trans hc1, h5.trans hc2⟩
    | dequeue =>
      simp only [runWriter] at hrun
      cases hd : s.dequeue with
      | error e => rw [hd] at hrun; cases hrun
      | ok s2 =>
        rw [hd] at hrun
        simp only at hrun
        obtain ⟨hc1, hc2⟩ := dequeue_config s s2 hd
        obtain ⟨h3, h4, h5⟩ := ih s2 s1 ps (WReach.dequeue s s2 h hd)
          (fun x hx => by rw [hc1]; exact hv x (List.mem_cons_of_mem _ hx)) hrun
        exact ⟨h3, h4.trans hc1, h5.trans hc2⟩

/-- C28: under the block policy, for a packet larger than the byte budget (and
fitting the address space with it), the admission test fails for every value of
the byte counter within the budget; `queue` is blocked in every reachable state,
and it is still blocked after any further interleaving of `queue` calls and
dequeue steps: the packet is not inserted and no value is returned. -/
theorem queue_blocks_oversized (cb : Mat → Nat → Nat) (s : DataWriter) (oPacket : Mat)
    (nIdx : Nat) (h : WReach cb s) (hblock : s.m_bAllowPacketDrop = false)
    (hbig : oPacket.byteSize > s.m_nQueueMaxSize)
    (hfit : oPacket.byteSize + s.m_nQueueMaxSize < W) :
    (∀ n, n ≤ s.m_nQueueMaxSize → ¬ ((n + oPacket.byteSize) % W ≤ s.m_nQueueMaxSize)) ∧
    s.queue cb oPacket nIdx = none ∧
    ∀ ops s1 ps, (∀ op ∈ ops, ValidWriterOp s.m_nQueueMaxSize op) →
      runWriter cb ops s = some (s1, ps) →
      s1.m_nQueueSize ≤ s.m_nQueueMaxSize ∧ s1.queue cb oPacket nIdx = none := by
  have hadm : ∀ n, n ≤ s.m_nQueueMaxSize →
      ¬ ((n + oPacket.byteSize) % W ≤ s.m_nQueueMaxSize) := by
    intro n hn
    simp only [W] at *
    omega
  have hblk : ∀ s1 : DataWriter, WReach cb s1 → s1.m_nQueueMaxSize = s.m_nQueueMaxSize →
      s1.m_bAllowPacketDrop = false →
      s1.m_nQueueSize ≤ s.m_nQueueMaxSize ∧ s1.queue cb oPacket nIdx = none := by
    intro s1 h1 hm hd
    have hinv := WReach_inv cb s1 h1
    have hsz : s1.m_nQueueSize ≤ s.m_nQueueMaxSize := hm ▸ hinv.2.1
    refine ⟨hsz, ?_⟩
    rcases queue_cases cb oPacket nIdx s1 hinv.1 with ⟨_, _, e⟩ | ⟨hd1, _, _⟩ | ⟨hle, _⟩
    · exact e
    · rw [hd] at hd1; cases hd1
    · rw [hm] at hle
      exact absurd hle (hadm _ hsz)
  refine ⟨hadm, (hblk s h rfl hblock).2, ?_⟩
  intro ops s1 ps hv hrun
  obtain ⟨h1, h2, h3⟩ := WReach_run cb ops s s1 ps h hv hrun
  exact hblk s1 h1 h2 (h3.trans hblock)

theorem queue_blocks_oversized_witness :
    blockWriter.m_bAllowPacketDrop = false ∧
    (wideItems 0).byteSize > blockWriter.m_nQueueMaxSize ∧
    (wideItems 0).byteSize + blockWriter.m_nQueueMaxSize < W ∧
    ((∀ n, n ≤ blockWriter.m_nQueueMaxSize →
      ¬ ((n + (wideItems 0).byteSize) % W ≤ blockWriter.m_nQueueMaxSize)) ∧
    blockWriter.queue archive (wideItems 0) 3 = none ∧
    ∀ ops s1 ps, (∀ op ∈ ops, ValidWriterOp blockWriter.m_nQueueMaxSize op) →
      runWriter archive ops blockWriter = some (s1, ps) →
      s1.m_nQueueSize ≤ blockWriter.m_nQueueMaxSize ∧
        s1.queue archive (wideItems 0) 3 = none) :=
  ⟨rfl, by decide, by decide,
    queue_blocks_oversized archive blockWriter (wideItems 0) 3 (WReach_blockWriter archive) rfl
      (by decide) (by decide)⟩

/-- C25: from `dropWriter`, the state after `startAsyncWriting` on a new writer,
the calls `queue(frame(1), 5)` and `queue(frame(2), 5)` leave `m_nQueueCount` at
2 with one entry in the map and `m_nQueueSize` at 8 with 4 pending bytes; after
one dequeue step the map is empty while `m_nQueueCount` is 1 and `m_nQueueSize`
is 4, and the next dequeue step fails the assertion on the missing packet. -/
theorem queue_duplicate_index_breaks_counters :
    (DataWriter.construct.startAsyncWriting 100 12 true 1).toOption.map
        (fun r => (r.1.m_nQueueCount, r.1.m_nQueueSize, r.1.m_mQueue.length, r.2)) =
      some (dropWriter.m_nQueueCount, dropWriter.m_nQueueSize, dropWriter.m_mQueue.length,
        true) ∧
    (runWriter archive [WriterOp.queue (frame 1) 5, WriterOp.queue (frame 2) 5]
        dropWriter).map (fun r =>
          (r.1.m_nQueueCount, r.1.m_mQueue.length, r.1.m_nQueueSize,
            pendingBytes r.1.m_mQueue)) = some (2, 1, 8, 4) ∧
    (runWriter archive
        [WriterOp.queue (frame 1) 5, WriterOp.queue (frame 2) 5, WriterOp.dequeue]
        dropWriter).map (fun r =>
          (r.1.m_nQueueCount, r.1.m_mQueue.length, r.1.m_nQueueSize,
            (match r.1.dequeue with
              | .error e => e
              | .ok _ => ""))) =
      some (1, 0, 4, "data writer notified for missing packet") := by
  refine ⟨by decide, by decide, by decide⟩

/-- C27: for every worker count `n > 0` and positive queue size, the sequence
`startAsyncWriting; stopAsyncWriting; startAsyncWriting` on a new writer leaves
in `m_vhWorkers` the `n` joined handles of the first start followed by the `n`
handles of the second start, and the following `stopAsyncWriting` joins a handle
that is not joinable. -/
theorem restart_keeps_joined_handles (MAXSZ hint n : Nat) (bDrop : Bool) (hn : 0 < n)
    (hh : 0 < hint) :
    ∃ s1 s2 s3, DataWriter.construct.startAsyncWriting MAXSZ hint bDrop n = .ok (s1, true) ∧
      s1.m_vhWorkers = List.replicate n true ∧
      s1.stopAsyncWriting = .ok s2 ∧
      s2.startAsyncWriting MAXSZ hint bDrop n = .ok (s3, true) ∧
      s3.m_vhWorkers = List.replicate n false ++ List.replicate n true ∧
      s3.m_vhWorkers.length = 2 * n ∧
      s3.stopAsyncWriting = .error "join of a thread that is not joinable" := by
  refine ⟨{ DataWriter.construct with
      m_bIsActive := true
      m_bAllowPacketDrop := bDrop
      m_nQueueMaxSize := if hint > MAXSZ then MAXSZ else hint
      m_vhWorkers := [] ++ List.replicate n true },
    { DataWriter.construct with
      m_bAllowPacketDrop := bDrop
      m_nQueueMaxSize := if hint > MAXSZ then MAXSZ else hint
      m_vhWorkers := ([] ++ List.replicate n true).map (fun _ => false) },
    { DataWriter.construct with
      m_bIsActive := true
      m_bAllowPacketDrop := bDrop
      m_nQueueMaxSize := if hint > MAXSZ then MAXSZ else hint
      m_vhWorkers := ([] ++ List.replicate n true).map (fun _ => false) ++
        List.replicate n true }, ?_, ?_, ?_, ?_, ?_, ?_, ?_⟩
  · unfold DataWriter.startAsyncWriting
    simp only [DataWriter.construct, Bool.false_eq_true, if_false, gt_iff_lt, hh, if_true]
  · simp
  · unfold DataWriter.stopAsyncWriting
    simp only [if_true]
    rw [if_pos (by simp)]
    rfl
  · unfold DataWriter.startAsyncWriting
    simp only [DataWriter.construct, Bool.false_eq_true, if_false, gt_iff_lt, hh, if_true]
  · simp
  · simp; omega
  · unfold DataWriter.stopAsyncWriting
    simp only [if_true]
    rw [if_neg]
    intro hc
    rw [List.all_eq_true] at hc
    have := hc false (by
      cases n with
      | zero => exact absurd hn (Nat.lt_irrefl _)
      | succ m => simp [List.replicate_succ])
    cases this

theorem restart_keeps_joined_handles_witness :
    ∃ s1 s2 s3, DataWriter.construct.startAsyncWriting 100 12 false 2 = .ok (s1, true) ∧
      s1.m_vhWorkers = List.replicate 2 true ∧
      s1.stopAsyncWriting = .ok s2 ∧
      s2.startAsyncWriting 100 12 false 2 = .ok (s3, true) ∧
      s3.m_vhWorkers = List.replicate 2 false ++ List.replicate 2 true ∧
      s3.m_vhWorkers.length = 2 * 2 ∧
      s3.stopAsyncWriting = .error "join of a thread that is not joinable" :=
  restart_keeps_joined_handles 100 12 2 false (by decide) (by decide)

theorem Reach_handled (cb : Nat → Mat) (B : Nat) (hfit : Fits cb B) (w d : Worker)
    (h : Reach cb B w) : Reach cb B ((onRequest cb w).getD d) := by
  obtain ⟨hinv, hB⟩ := Reach_inv cb B hfit w h
  obtain ⟨w1, he, _⟩ := WInv_onRequest cb w (hB ▸ hfit) hinv
  rw [he]
  exact Reach.handle w w1 h he

theorem Reach_cachedOne :
    Reach oneItem (max (min 1 CACHE_MIN_SIZE) CACHE_MIN_SIZE) cachedOne :=
  (SysInv_start CACHE_MIN_SIZE oneItem 1 1 (by decide) oneItem_fits_min).2.1

theorem Reach_flaggedTen :
    Reach tenItems (max (min 1 CACHE_MIN_SIZE) CACHE_MIN_SIZE) flaggedTen :=
  Reach_handled _ _ tenItems_fits_min _ _
    (Reach.publish _ 3 (by decide)
      (Reach_serve _ _ tenItems_fits_min 9 (by decide) _
        (SysInv_start CACHE_MIN_SIZE tenItems 1 12 (by decide) tenItems_fits_min).2.1))

theorem lCacheNextPacket_end_of_stream_witness :
    (cachedOne.bReachedEnd = false ∧ cachedOne.qoCache.length = 1 ∧
      (oneItem cachedOne.nNextPrecacheIdx).byteSize = 0 ∧
      (lCacheNextPacket oneItem cachedOne).2 = 0 ∧
      (lCacheNextPacket oneItem cachedOne).1.bReachedEnd = true ∧
      (lCacheNextPacket oneItem cachedOne).1.qoCache = cachedOne.qoCache ∧
      (lCacheNextPacket oneItem cachedOne).1.vcBuffer = cachedOne.vcBuffer ∧
      (lCacheNextPacket oneItem cachedOne).1.nNextPrecacheIdx = cachedOne.nNextPrecacheIdx ∧
      (lCacheNextPacket oneItem cachedOne).1.nFirstBufferIdx = cachedOne.nFirstBufferIdx ∧
      (lCacheNextPacket oneItem cachedOne).1.nNextBufferIdx = cachedOne.nNextBufferIdx) ∧
    (flaggedTen.bReachedEnd = true ∧ flaggedTen.nNextPrecacheIdx = 4 ∧
      (lCacheNextPacket tenItems flaggedTen).2 ≠ 0 ∧
      (lCacheNextPacket tenItems flaggedTen).1.qoCache.length = 1 ∧
      (lCacheNextPacket tenItems flaggedTen).1.bReachedEnd = false) :=
  ⟨⟨by decide, by decide, by decide,
      (lCacheNextPacket_end_of_stream oneItem _ oneItem_fits_min cachedOne
        Reach_cachedOne).1 (by decide)⟩,
    ⟨by decide, by decide, by decide, by decide,
      (lCacheNextPacket_end_of_stream tenItems _ tenItems_fits_min flaggedTen
        Reach_flaggedTen).2 (by decide)⟩⟩

end lv
